import Mathlib

/-!
Verification of rpg-dice-roller: the notation grammar, the notation parser and the roll log.

A shallow embedding of `src/dice-roller.js` and `src/utils.js`.

* JavaScript strings are lists of characters. A finite JavaScript number is the rational
  number it is (`Value.num`), the results of reading a numeral and of arithmetic being
  rounded to the nearest IEEE-754 double (`toDouble`); `Infinity`, `NaN` and `undefined`
  are values of their own.
* The patterns of `notationPatterns.strings` are kept as pattern *text*; the
  text is compiled by `Re.compile`, and matched by `Re.run`, a backtracking
  matcher that follows the ECMAScript matcher semantics
  (continuations, greedy quantifiers, capture reset inside quantifiers).
* The cached global patterns keep their `lastIndex` in `PatternCache`.
-/

namespace DiceRoller

/-! ## Regular expressions -/

/-- Abstract syntax of the pattern language used by `notationPatterns.strings`. -/
inductive Re where
  | empty
  | char (c : Char)
  | cls (ranges : List (Char × Char))
  | seq (a b : Re)
  | alt (a b : Re)
  | quant (lo : Nat) (hi : Option Nat) (r : Re)
  | group (i : Nat) (r : Re)
  | neglook (r : Re)
  | bol
  | eol
  deriving DecidableEq, Repr

/-- Kind of an opening parenthesis. -/
inductive GroupKind where
  | capture
  | plain
  | negative
  deriving DecidableEq, Repr

/-- Tokens of pattern text. -/
inductive Tok where
  | chr (c : Char)
  | set (ranges : List (Char × Char))
  | lpar (k : GroupKind)
  | rpar
  | bar
  | rep (lo : Nat) (hi : Option Nat)
  | bol
  | eol
  deriving DecidableEq, Repr

/-- Value of a decimal digit character. -/
def digitValue (c : Char) : Nat := c.toNat - 48

/-- Decimal digit test. -/
def isDigit (c : Char) : Bool := decide (48 ≤ c.toNat) && decide (c.toNat ≤ 57)

/-- Characters that may follow a backslash as an identity escape. -/
def isIdentityEscape (c : Char) : Bool :=
  c.toNat < 128 && !(c.isAlphanum) && c != '_'

/-- Reads a decimal numeral; `none` when the text is empty or has a non-digit. -/
def readNat : List Char → Option Nat
  | [] => none
  | c :: cs => if (c :: cs).all isDigit then some ((c :: cs).foldl (fun n d => 10 * n + digitValue d) 0) else none

/-- Bounds written between braces: `n`, `n,` or `n,m`. -/
def readBounds (body : List Char) : Option (Nat × Option Nat) :=
  match body.span (fun c => c != ',') with
  | (a, []) => (readNat a).map (fun n => (n, some n))
  | (a, [_]) => (readNat a).map (fun n => (n, none))
  | (a, _ :: b) => (readNat a).bind (fun n => (readNat b).map (fun m => (n, some m)))

/-- States of the lexer. Inside a character class, `rs` are the ranges read so
far (latest first) and `prev` a single character that may still begin a range. -/
inductive LexMode where
  | normal
  | esc
  | paren
  | parenQ
  | brace (body : List Char)
  | inSet (rs : List (Char × Char)) (prev : Option Char)
  | setEsc (rs : List (Char × Char))
  | setDash (rs : List (Char × Char)) (lo : Char)
  deriving Repr

/-- Ranges of a class once a pending single character is added. -/
def flushPrev (rs : List (Char × Char)) : Option Char → List (Char × Char)
  | none => rs
  | some c => (c, c) :: rs

/-- One character read in normal mode. -/
def lexNormal (c : Char) : Option (List Tok × LexMode) :=
  if c = '[' then some ([], .inSet [] none)
  else if c = '\\' then some ([], .esc)
  else if c = '(' then some ([], .paren)
  else if c = ')' then some ([.rpar], .normal)
  else if c = '|' then some ([.bar], .normal)
  else if c = '?' then some ([.rep 0 (some 1)], .normal)
  else if c = '*' then some ([.rep 0 none], .normal)
  else if c = '+' then some ([.rep 1 none], .normal)
  else if c = '^' then some ([.bol], .normal)
  else if c = '$' then some ([.eol], .normal)
  else if c = '\x7b' then some ([], .brace [])
  else if c = '.' || c = ']' || c = '\x7d' then none
  else some ([.chr c], .normal)

/-- One step of the lexer: the tokens produced and the next state. Pattern text
outside the supported subset gives `none`. -/
def lexStep : LexMode → Char → Option (List Tok × LexMode)
  | .normal, c => lexNormal c
  | .esc, c => if isIdentityEscape c then some ([.chr c], .normal) else none
  | .paren, c =>
    if c = '?' then some ([], .parenQ)
    else (lexNormal c).map (fun r => (Tok.lpar .capture :: r.1, r.2))
  | .parenQ, c =>
    if c = ':' then some ([.lpar .plain], .normal)
    else if c = '!' then some ([.lpar .negative], .normal)
    else none
  | .brace body, c =>
    if c = '\x7d' then (readBounds body.reverse).map (fun b => ([.rep b.1 b.2], .normal))
    else some ([], .brace (c :: body))
  | .inSet rs prev, c =>
    if c = ']' then some ([.set (flushPrev rs prev).reverse], .normal)
    else if c = '\\' then some ([], .setEsc (flushPrev rs prev))
    else if c = '-' then
      match prev with
      | some lo => some ([], .setDash rs lo)
      | none => none
    else if c = '^' && rs.isEmpty && prev.isNone then none
    else some ([], .inSet (flushPrev rs prev) (some c))
  | .setEsc rs, c => if isIdentityEscape c then some ([], .inSet ((c, c) :: rs) none) else none
  | .setDash rs lo, c =>
    if c = ']' then some ([.set (('-', '-') :: (lo, lo) :: rs).reverse], .normal)
    else if c = '\\' then none
    else some ([], .inSet ((lo, c) :: rs) none)

/-- Lexer for pattern text. -/
def lex : LexMode → List Char → Option (List Tok)
  | .normal, [] => some []
  | _, [] => none
  | m, c :: cs =>
    match lexStep m c with
    | none => none
    | some (ts, m1) => (lex m1 cs).map (fun rest => ts ++ rest)

/-- Sequence of terms, in order. -/
def seqOf : List Re → Re
  | [] => .empty
  | [t] => t
  | t :: ts => .seq t (seqOf ts)

/-- Disjunction of alternatives, in order. -/
def altOf : List Re → Re
  | [] => .empty
  | [a] => a
  | a :: as => .alt a (altOf as)

/-- An open parenthesis (or the whole pattern) being parsed: the alternatives
completed so far and the terms of the current alternative, latest first. -/
structure Frame where
  kind : Option (GroupKind × Nat)
  alts : List Re
  terms : List Re
  deriving Repr

/-- Disjunction described by a frame. -/
def Frame.body (f : Frame) : Re :=
  altOf (seqOf f.terms.reverse :: f.alts).reverse

/-- Term contributed to the enclosing frame when a frame is closed. -/
def Frame.close (f : Frame) : Re :=
  match f.kind with
  | some (.capture, i) => .group i f.body
  | some (.negative, _) => .neglook f.body
  | _ => f.body

/-- Parser over tokens: `stack` holds the enclosing frames, `cur` the innermost
one, `n` the number of capture groups opened so far. -/
def parseToks : List Tok → List Frame → Frame → Nat → Option Re
  | [], [], cur, _ => if cur.kind.isNone then some cur.body else none
  | [], _ :: _, _, _ => none
  | t :: ts, stack, cur, n =>
    match t with
    | .chr c => parseToks ts stack { cur with terms := .char c :: cur.terms } n
    | .set rs => parseToks ts stack { cur with terms := .cls rs :: cur.terms } n
    | .bol => parseToks ts stack { cur with terms := .bol :: cur.terms } n
    | .eol => parseToks ts stack { cur with terms := .eol :: cur.terms } n
    | .bar => parseToks ts stack { cur with alts := seqOf cur.terms.reverse :: cur.alts, terms := [] } n
    | .lpar .capture => parseToks ts (cur :: stack) ⟨some (.capture, n + 1), [], []⟩ (n + 1)
    | .lpar k => parseToks ts (cur :: stack) ⟨some (k, 0), [], []⟩ n
    | .rpar =>
      match stack, cur.kind with
      | parent :: stack1, some _ =>
        parseToks ts stack1 { parent with terms := cur.close :: parent.terms } n
      | _, _ => none
    | .rep lo hi =>
      match cur.terms with
      | .bol :: _ => none
      | .eol :: _ => none
      | .neglook _ :: _ => none
      | .quant _ _ _ :: _ => none
      | a :: rest => parseToks ts stack { cur with terms := .quant lo hi a :: rest } n
      | [] => none

/-- Compiles pattern text (the argument of `new RegExp`). -/
def Re.compile (text : String) : Option Re :=
  (lex .normal text.toList).bind (fun ts => parseToks ts [] ⟨none, [], []⟩ 0)

/-! ## The backtracking matcher -/

/-- Matcher state: `pos` characters of the input are consumed, `rest` is what
remains, `caps` holds the text of each capture group that took part. -/
structure MState where
  pos : Nat
  rest : List Char
  caps : Nat → Option (List Char)

/-- Continuation of a matcher. -/
abbrev Cont := MState → Option MState

/-- Membership of a character in a class given by its ranges. -/
def inRanges (rs : List (Char × Char)) (c : Char) : Bool :=
  rs.any (fun r => decide (r.1.toNat ≤ c.toNat) && decide (c.toNat ≤ r.2.toNat))

/-- Capture groups occurring in a pattern. -/
def Re.groups : Re → List Nat
  | .seq a b => a.groups ++ b.groups
  | .alt a b => a.groups ++ b.groups
  | .quant _ _ r => r.groups
  | .group i r => i :: r.groups
  | .neglook r => r.groups
  | _ => []

/-- Captures with the given groups reset to undefined. -/
def clearCaps (gs : List Nat) (caps : Nat → Option (List Char)) : Nat → Option (List Char) :=
  fun i => if i ∈ gs then none else caps i

/-- Captures with group `i` set to `text`. -/
def setCap (caps : Nat → Option (List Char)) (i : Nat) (text : List Char) :
    Nat → Option (List Char) :=
  fun j => if j = i then some text else caps j

/-- The state after one character is consumed. -/
def MState.next (x : MState) (t : List Char) : MState :=
  { pos := x.pos + 1, rest := t, caps := x.caps }

/-- Greedy quantifier (RepeatMatcher of the ECMAScript specification): `m` is
the matcher of the quantified atom, `gs` its capture groups. An iteration that
consumes nothing once the lower bound is met is rejected, so `fuel` larger than
the lower bound plus the remaining input is never used up. -/
def repeatMatcher (m : MState → Cont → Option MState) (gs : List Nat) :
    Nat → Nat → Option Nat → MState → Cont → Option MState
  | 0, _, _, _, _ => none
  | fuel + 1, lo, hi, x, k =>
    if hi = some 0 then k x
    else
      let d : Cont := fun y =>
        if lo = 0 ∧ y.pos = x.pos then none
        else repeatMatcher m gs fuel (lo - 1) (hi.map (fun h => h - 1)) y k
      let xr : MState := { x with caps := clearCaps gs x.caps }
      if lo ≠ 0 then m xr d
      else
        match m xr d with
        | some z => some z
        | none => k x

/-- The matcher of a pattern: `r.run x k` matches `r` at state `x` and then
continues with `k`, backtracking into `r` when `k` fails. -/
def Re.run : Re → MState → Cont → Option MState
  | .empty, x, k => k x
  | .char c, x, k =>
    match x.rest with
    | d :: t => if d = c then k (x.next t) else none
    | [] => none
  | .cls rs, x, k =>
    match x.rest with
    | d :: t => if inRanges rs d then k (x.next t) else none
    | [] => none
  | .seq a b, x, k => a.run x (fun y => b.run y k)
  | .alt a b, x, k =>
    match a.run x k with
    | some z => some z
    | none => b.run x k
  | .quant lo hi r, x, k =>
    repeatMatcher (fun y c => r.run y c) r.groups (lo + x.rest.length + 1) lo hi x k
  | .group i r, x, k =>
    r.run x (fun y => k { y with caps := setCap y.caps i (x.rest.take (y.pos - x.pos)) })
  | .neglook r, x, k =>
    match r.run x some with
    | some _ => none
    | none => k x
  | .bol, x, k => if x.pos = 0 then k x else none
  | .eol, x, k => if x.rest = [] then k x else none

/-- No capture group has taken part. -/
def noCaps : Nat → Option (List Char) := fun _ => none

/-- First position at or after `pos` where the pattern matches (`rest` is the
input from `pos` on); the whole match becomes group 0. -/
def Re.search (re : Re) : Nat → List Char → Option (Nat × MState)
  | pos, [] =>
    (re.run ⟨pos, [], noCaps⟩ some).map
      (fun y => (pos, { y with caps := setCap y.caps 0 [] }))
  | pos, c :: t =>
    match re.run ⟨pos, c :: t, noCaps⟩ some with
    | some y => some (pos, { y with caps := setCap y.caps 0 ((c :: t).take (y.pos - pos)) })
    | none => re.search (pos + 1) t

/-! ## JavaScript values and numbers -/

/-- JavaScript values met by the parser and by the helpers of `utils.js`: `undefined`,
`null`, `NaN`, a finite number, an infinite number, or a string. A finite number is held as
the rational number it is; the numbers that JavaScript holds are the IEEE-754 doubles, the
values of `toDouble`. The two zeros are not told apart. -/
inductive Value where
  | undefined
  | null
  | nan
  | num (q : Rat)
  | inf (negative : Bool)
  | str (s : String)
  deriving DecidableEq, Repr

/-- Truthiness of a value (`!!v`). -/
def Value.truthy : Value → Bool
  | .num q => q != 0
  | .inf _ => true
  | .str s => s != ""
  | _ => false

/-- The value of `a || b`. -/
def Value.or (a b : Value) : Value := if a.truthy then a else b

/-- The power `2 ^ e` for an integer exponent. -/
def pow2 (e : Int) : Rat :=
  if 0 ≤ e then ((2 ^ e.toNat : Nat) : Rat) else 1 / ((2 ^ (-e).toNat : Nat) : Rat)

/-- The power `10 ^ e` for an integer exponent. -/
def pow10 (e : Int) : Rat :=
  if 0 ≤ e then ((10 ^ e.toNat : Nat) : Rat) else 1 / ((10 ^ (-e).toNat : Nat) : Rat)

/-- Number of halvings that bring `n` below 2, at most `fuel` of them. -/
def log2Aux : Nat → Nat → Nat
  | 0, _ => 0
  | fuel + 1, n => if n < 2 then 0 else log2Aux fuel (n / 2) + 1

/-- The binary logarithm of a natural number, rounded down (0 for 0). -/
def log2 (n : Nat) : Nat := log2Aux n n

/-- The binary exponent of a positive rational number `x`: the integer `e` with
`2 ^ e ≤ x < 2 ^ (e + 1)`. -/
def floorLog2 (x : Rat) : Int :=
  let e0 : Int := (log2 x.num.natAbs : Int) - (log2 x.den : Int)
  if x < pow2 e0 then e0 - 1 else e0

/-- Rounding to the nearest integer, a tie going to the even one. -/
def roundHalfEven (x : Rat) : Int :=
  let m := Rat.floor x
  let f := x - m
  if f < 1 / 2 then m else if 1 / 2 < f then m + 1 else if m % 2 = 0 then m else m + 1

/-- The IEEE-754 double nearest to the real number `x` (round to nearest, ties to even):
53 bits of precision, the smallest exponent -1022 (below it the numbers are subnormal,
multiples of `2 ^ -1074`), and `Infinity` once the rounded value reaches `2 ^ 1024`. -/
def toDouble (x : Rat) : Value :=
  if x = 0 then .num 0
  else
    let a := |x|
    let u := max (floorLog2 a) (-1022) - 52
    let r := (roundHalfEven (a / pow2 u) : Rat) * pow2 u
    if pow2 1024 ≤ r then .inf (decide (x < 0)) else .num (if x < 0 then -r else r)

/-- Number of divisions by ten that bring `n` below 10, plus one: the number of decimal
digits of `n`. -/
def digitCountAux : Nat → Nat → Nat
  | 0, _ => 1
  | fuel + 1, n => if n < 10 then 1 else digitCountAux fuel (n / 10) + 1

/-- The number of decimal digits of a natural number. -/
def digitCount (n : Nat) : Nat := digitCountAux n n

/-- The decimal exponent of a positive rational number `x`: the integer `n` with
`10 ^ (n - 1) ≤ x < 10 ^ n`. -/
def decimalExponent (x : Rat) : Int :=
  let e0 : Int := (digitCount x.num.natAbs : Int) - (digitCount x.den : Int)
  if x < pow10 e0 then e0 else e0 + 1

/-- The `k`-digit decimal `s * 10 ^ (n - k)` that reads back as the double `x` and is
nearest to it (of two equally near the even one), when there is one. -/
def digitsOfLength (x : Rat) (n : Int) (k : Nat) : Option Nat :=
  let scale := pow10 (n - k)
  let lo := (Rat.floor (x / scale)).toNat
  let hi := lo + 1
  let okLo := decide (toDouble (lo * scale) = .num x)
  let okHi := decide (toDouble (hi * scale) = .num x)
  if okLo && okHi then
    if x - lo * scale < hi * scale - x then some lo
    else if hi * scale - x < x - lo * scale then some hi
    else if lo % 2 = 0 then some lo else some hi
  else if okLo then some lo
  else if okHi then some hi
  else none

/-- The shortest decimal that reads back as the double `x`: tries 1, 2, ... digits, up to
the 17 that always suffice for a double. -/
def shortestDigits (x : Rat) (n : Int) : Nat → Nat → Nat × Nat
  | 0, k => ((Rat.floor (x / pow10 (n - k))).toNat, k)
  | fuel + 1, k =>
    match digitsOfLength x n k with
    | some s => (s, k)
    | none => shortestDigits x n fuel (k + 1)

/-- The decimal digits of a natural number. -/
def digitsOf (n : Nat) : List Char := (Nat.repr n).toList

/-- The exponent part of a numeral in exponent form: `e`, the sign, the digits. -/
def exponentText (e : Int) : List Char :=
  'e' :: (if e < 0 then '-' else '+') :: digitsOf e.natAbs

/-- The text of a positive number from its digits `ds` and its decimal exponent `n`
(`Number::toString`, steps 6 to 10). -/
def layoutNumber (ds : List Char) (n : Int) : List Char :=
  let k : Int := ds.length
  if k ≤ n ∧ n ≤ 21 then ds ++ List.replicate (n - k).toNat '0'
  else if 0 < n ∧ n ≤ 21 then ds.take n.toNat ++ '.' :: ds.drop n.toNat
  else if -6 < n ∧ n ≤ 0 then '0' :: '.' :: (List.replicate (-n).toNat '0' ++ ds)
  else
    match ds with
    | [d] => d :: exponentText (n - 1)
    | d :: rest => d :: '.' :: (rest ++ exponentText (n - 1))
    | [] => exponentText (n - 1)

/-- The text of a positive finite number. When the nearest decimal of `k` digits is
`10 ^ k`, the digits are the single digit 1 and the exponent is one more. -/
def positiveText (x : Rat) : List Char :=
  let n := decimalExponent x
  let (s, k) := shortestDigits x n 17 1
  if s = 10 ^ k then layoutNumber ['1'] (n + 1) else layoutNumber (digitsOf s) n

/-- Port of `Number::toString` in radix 10 on a finite number: the shortest decimal that
reads back as the same double, laid out in positional or in exponent form. -/
def numberText (q : Rat) : List Char :=
  if q = 0 then ['0']
  else if q < 0 then '-' :: positiveText (-q)
  else positiveText q

/-- String conversion of a value (`String(v)`). -/
def Value.toText : Value → List Char
  | .undefined => "undefined".toList
  | .null => "null".toList
  | .nan => "NaN".toList
  | .num q => numberText q
  | .inf negative => if negative then "-Infinity".toList else "Infinity".toList
  | .str s => s.toList

/-- White space skipped by `parseInt` and `parseFloat`: tab, line feed, vertical tab, form
feed, carriage return, space, no-break space, the other space separators, the line and
paragraph separators, and the byte order mark. -/
def isWhiteSpace (c : Char) : Bool :=
  c.toNat = 32 || (9 ≤ c.toNat && c.toNat ≤ 13) || c.toNat = 160 || c.toNat = 0x1680 ||
    (0x2000 ≤ c.toNat && c.toNat ≤ 0x200A) || c.toNat = 0x2028 || c.toNat = 0x2029 ||
    c.toNat = 0x202F || c.toNat = 0x205F || c.toNat = 0x3000 || c.toNat = 0xFEFF

/-- Value of the longest prefix of decimal digits, continuing from `acc`. -/
def parseDigits : List Char → Nat → Nat
  | [], acc => acc
  | c :: cs, acc => if isDigit c then parseDigits cs (10 * acc + digitValue c) else acc

/-- The digits of a numeral after its sign: the double nearest to the integer they
write, `NaN` when there is no digit. -/
def parseUnsigned (negative : Bool) : List Char → Value
  | [] => .nan
  | c :: cs =>
    if isDigit c then
      toDouble (if negative then -(parseDigits (c :: cs) 0 : Rat) else (parseDigits (c :: cs) 0 : Rat))
    else .nan

/-- JavaScript `parseInt(text, 10)` on a text: leading white space, an optional sign, then
the longest prefix of decimal digits, read exactly and rounded to a double; `NaN` when
there is no digit. -/
def parseIntText (t : List Char) : Value :=
  match t.dropWhile isWhiteSpace with
  | '-' :: t => parseUnsigned true t
  | '+' :: t => parseUnsigned false t
  | t => parseUnsigned false t

/-- JavaScript `parseInt(v, 10)`: the argument is converted to a string, which is then
read. An integer below `10 ^ 21` in absolute value is printed by `Number::toString` as a
plain digit string that reads back as the same double, so it is returned as it is; other
numbers go through their text (`1e21` is printed `1e+21` and read as 1, `1.5` as 1). -/
def parseInt (v : Value) : Value :=
  match v with
  | .num q =>
    if q.den = 1 ∧ |q| < 1000000000000000000000 then .num q else parseIntText (numberText q)
  | _ => parseIntText v.toText

/-- The exponent part of a decimal literal: `e` or `E`, an optional sign and at least one
digit; 0 when the text does not continue with one. -/
def parseExponent : List Char → Int
  | c :: t =>
    if c = 'e' ∨ c = 'E' then
      match t with
      | '-' :: d :: ds => if isDigit d then -(parseDigits (d :: ds) 0 : Int) else 0
      | '+' :: d :: ds => if isDigit d then (parseDigits (d :: ds) 0 : Int) else 0
      | d :: ds => if isDigit d then (parseDigits (d :: ds) 0 : Int) else 0
      | [] => 0
    else 0
  | [] => 0

/-- The longest prefix of a text that is an unsigned decimal literal (`Infinity`, or
digits with an optional fraction and exponent, or a fraction with an optional exponent):
the double nearest to the number it writes, `NaN` when there is none. -/
def parseDecimal (negative : Bool) (t : List Char) : Value :=
  if "Infinity".toList.isPrefixOf t then .inf negative
  else
    let whole := t.takeWhile isDigit
    let rest := t.dropWhile isDigit
    let frac := match rest with
      | '.' :: r => r.takeWhile isDigit
      | _ => []
    let tail := match rest with
      | '.' :: r => r.dropWhile isDigit
      | r => r
    if whole = [] ∧ frac = [] then .nan
    else
      let mantissa : Rat := (parseDigits (whole ++ frac) 0 : Rat) * pow10 (-(frac.length : Int))
      let value := mantissa * pow10 (parseExponent tail)
      toDouble (if negative then -value else value)

/-- JavaScript `parseFloat(text)` on a text: leading white space, an optional sign, then
the longest prefix that is a decimal literal. -/
def parseFloatText (t : List Char) : Value :=
  match t.dropWhile isWhiteSpace with
  | '-' :: t => parseDecimal true t
  | '+' :: t => parseDecimal false t
  | t => parseDecimal false t

/-- JavaScript `parseFloat(v)`: the argument is converted to a string, which is then
read. The text that `Number::toString` prints for a number is by its definition one that
reads back as the same number, so a number is returned as it is. -/
def parseFloat (v : Value) : Value :=
  match v with
  | .num q => .num q
  | .inf negative => .inf negative
  | _ => parseFloatText v.toText

/-- JavaScript `Number.isFinite(v)`: the value is a finite number. -/
def Value.isFinite : Value → Bool
  | .num _ => true
  | _ => false

/-- Port of `isNumeric` (utils.js): not `NaN`, and `parseInt(val, 10)` is finite. The
values of the model are never arrays. -/
def isNumeric (val : Value) : Bool :=
  val != .nan && (parseInt val).isFinite

/-! ## The notation grammar (`DiceRoller.notationPatterns`) -/

/-- Fragment `strings.arithmeticOperator`. -/
def arithmeticOperatorStr : String := "[+\\-*\\/]"

/-- Fragment `strings.comparisonOperators`. -/
def comparisonOperatorsStr : String := "[<>!]?=\x7b1,3\x7d|[<>]"

/-- Fragment `strings.fudge`. -/
def fudgeStr : String := "F(?:\\.([12]))?"

/-- Fragment `strings.numberComparison`. -/
def numberComparisonStr : String := "(" ++ comparisonOperatorsStr ++ ")([0-9]+)"

/-- Fragment `strings.explode`. -/
def explodeStr : String := "(!\x7b1,2\x7dp?)"

/-- Fragment `strings.dice`. -/
def diceStr : String := "([1-9][0-9]*)?d([1-9][0-9]*|%|" ++ fudgeStr ++ ")"

/-- Fragment `strings.diceFull`. -/
def diceFullStr : String := diceStr ++ explodeStr ++ "?(?:" ++ numberComparisonStr ++ ")?"

/-- Fragment `strings.addition`. -/
def additionStr : String := "(" ++ arithmeticOperatorStr ++ ")([1-9]+0?(?![0-9]*d)|H|L)"

/-- Fragment `strings.notation`. -/
def notationStr : String :=
  "(" ++ arithmeticOperatorStr ++ ")?" ++ diceFullStr ++ "((?:" ++ additionStr ++ ")*)"

/-- The table `strings`: pattern text of a fragment name. -/
def strings (name : String) : Option String :=
  if name = "arithmeticOperator" then some arithmeticOperatorStr
  else if name = "comparisonOperators" then some comparisonOperatorsStr
  else if name = "fudge" then some fudgeStr
  else if name = "numberComparison" then some numberComparisonStr
  else if name = "explode" then some explodeStr
  else if name = "dice" then some diceStr
  else if name = "diceFull" then some diceFullStr
  else if name = "addition" then some additionStr
  else if name = "notation" then some notationStr
  else none

/-- A compiled pattern; `lastIndex` of the cached global patterns is kept in
`PatternCache`. -/
structure RegExp where
  re : Re
  global : Bool
  deriving DecidableEq, Repr

/-- Port of `notationPatterns.get(name, flags, matchWhole)`; `none` stands for
a raised error. Supported flags: none, the empty string, and `g`. Other flags, and the names
that `strings[name]` finds on `Object.prototype` (`toString`, `constructor`), for which the
code builds a pattern, are outside the model and give `none`; `parseNotation` uses neither. -/
def get (name : String) (flags : Option String) (matchWhole : Bool) : Option RegExp :=
  if name = "" then none
  else
    match strings name with
    | none => none
    | some text =>
      let source := (if matchWhole then "^" else "") ++ text ++ (if matchWhole then "$" else "")
      if flags = none ∨ flags = some "" then (Re.compile source).map (fun re => ⟨re, false⟩)
      else if flags = some "g" then (Re.compile source).map (fun re => ⟨re, true⟩)
      else none

/-- Result of a successful `exec`: where the match starts and ends, the text
of the groups (group 0 is the whole match), and the length of the match array
(one more than the number of groups of the pattern). -/
structure Match where
  index : Nat
  endIndex : Nat
  caps : Nat → Option (List Char)
  size : Nat

/-- Entry `i` of a match array. -/
def Match.get (m : Match) (i : Nat) : Value :=
  match m.caps i with
  | none => .undefined
  | some t => .str (String.mk t)

/-- The match array: the whole match, then the groups. -/
def Match.toArray (m : Match) : List Value :=
  (List.range m.size).map m.get

/-- Port of `RegExp.prototype.exec` (RegExpBuiltinExec): scans from `lastIndex`
when the pattern is global, from 0 otherwise; returns the match (or `none` for
`null`) and the new `lastIndex`. -/
def RegExp.exec (r : RegExp) (lastIndex : Nat) (input : List Char) : Option Match × Nat :=
  let start := if r.global then lastIndex else 0
  if input.length < start then (none, if r.global then 0 else lastIndex)
  else
    match r.re.search start (input.drop start) with
    | none => (none, if r.global then 0 else lastIndex)
    | some (i, y) =>
      (some ⟨i, y.pos, y.caps, r.re.groups.length + 1⟩, if r.global then y.pos else lastIndex)

/-- Port of `RegExp.prototype.test` on a pattern whose `lastIndex` is 0. -/
def RegExp.test (r : RegExp) (input : List Char) : Bool :=
  (r.exec 0 input).1.isSome

/-! ## The notation parser (`DiceRoller.parseNotation`) -/

/-- A compare point: an operator and a value. -/
structure ComparePoint where
  operator : Value
  value : Value
  deriving DecidableEq, Repr

/-- An addition: an operator and a value. -/
structure Addition where
  operator : Value
  value : Value
  deriving DecidableEq, Repr

/-- A parsed die. `fudge` is `none` for `false`, else the match array of the
fudge pattern; `comparePoint` is `none` for `false`. -/
structure Die where
  operator : Value
  qty : Value
  sides : Value
  fudge : Option (List Value)
  explode : Bool
  penetrate : Bool
  compound : Bool
  comparePoint : Option ComparePoint
  additions : List Addition
  deriving DecidableEq, Repr

/-- The scan positions (`lastIndex`) of the two cached global patterns,
`get('notation', 'g')` and `get('addition', 'g')`. -/
structure PatternCache where
  notationIdx : Nat
  additionIdx : Nat
  deriving DecidableEq, Repr

/-- The inner loop of `parseNotation` (lines 239-248): scans the additions text
with the cached global addition pattern. Returns the additions and the final
`lastIndex`; `none` when `get` raises or the fuel is used up. -/
def additionsLoop (text : List Char) : Nat → Nat → List Addition → Option (List Addition × Nat)
  | 0, _, _ => none
  | fuel + 1, lastIndex, acc =>
    match get "addition" (some "g") false with
    | none => none
    | some pattern =>
      match pattern.exec lastIndex text with
      | (none, li) => some (acc, li)
      | (some m, li) =>
        additionsLoop text fuel li
          (acc ++ [⟨m.get 1, if isNumeric (m.get 2) then parseFloat (m.get 2) else m.get 2⟩])

/-- The fudge test of `parseNotation` (lines 217-219). -/
def fudgeOf (sides : Value) : Option (Option (List Value)) :=
  match sides with
  | .str s =>
    match get "fudge" none true with
    | none => none
    | some pattern =>
      match (pattern.exec 0 s.toList).1 with
      | none => some none
      | some m => some (some m.toArray)
  | _ => some none

/-- The compare point of `parseNotation` (lines 222-233). -/
def comparePointOf (m : Match) (explode : Bool) (fudge : Option (List Value)) (sides : Value) :
    Option ComparePoint :=
  if (m.get 6).truthy then
    some ⟨m.get 6, parseInt (m.get 7)⟩
  else if explode then
    some ⟨.str "=", if fudge.isSome then .num 1 else if sides = .str "%" then .num 100 else sides⟩
  else none

/-- The body of the outer loop of `parseNotation` (lines 204-251): the die built
from one match, and the `lastIndex` of the addition pattern afterwards. -/
def dieOfMatch (m : Match) (additionIdx : Nat) : Option (Die × Nat) :=
  let sides := if isNumeric (m.get 3) then parseInt (m.get 3) else m.get 3
  let explode := (m.get 5).truthy
  match fudgeOf sides with
  | none => none
  | some fudge =>
    let additions : Option (List Addition × Nat) :=
      if (m.get 8).truthy then
        additionsLoop (m.get 8).toText ((m.get 8).toText.length + 1) additionIdx []
      else some ([], additionIdx)
    match additions with
    | none => none
    | some (adds, li) =>
      some (
        { operator := (m.get 1).or (.str "+")
          qty := if (m.get 2).truthy then parseInt (m.get 2) else .num 1
          sides := sides
          fudge := fudge
          explode := explode
          penetrate := decide (m.get 5 = .str "!p") || decide (m.get 5 = .str "!!p")
          compound := decide (m.get 5 = .str "!!") || decide (m.get 5 = .str "!!p")
          comparePoint := comparePointOf m explode fudge sides
          additions := adds }, li)

/-- The outer loop of `parseNotation` (line 203): one `exec` of the cached global
notation pattern per iteration. Each die is recorded with the match array it
was built from. `none` when an error is raised or the fuel is used up. -/
def parseLoop (pattern : RegExp) (text : List Char) :
    Nat → PatternCache → List (List Value × Die) →
    Option (List (List Value × Die) × PatternCache)
  | 0, _, _ => none
  | fuel + 1, cache, parsed =>
    match pattern.exec cache.notationIdx text with
    | (none, li) => some (parsed, { cache with notationIdx := li })
    | (some m, li) =>
      match dieOfMatch m cache.additionIdx with
      | none => none
      | some (die, ai) => parseLoop pattern text fuel ⟨li, ai⟩ (parsed ++ [(m.toArray, die)])

/-- Port of `parseNotation` run with the given state of the cached patterns:
the dice found, each with the match array it was built from, and the state
left behind. `none` when an error is raised or a loop does not finish. -/
def parseNotationTrace (cache : PatternCache) (text : Value) :
    Option (List (List Value × Die) × PatternCache) :=
  if text.truthy then
    match get "notation" (some "g") false with
    | none => none
    | some pattern => parseLoop pattern text.toText (text.toText.length + 1) cache []
  else some ([], cache)

/-- Port of `DiceRoller.parseNotation`, called on freshly created patterns. -/
def parseNotation (text : Value) : Option (List Die) :=
  (parseNotationTrace ⟨0, 0⟩ text).map (fun r => r.1.map Prod.snd)

/-! ## Compiled forms of the patterns -/

/-- Compiled `[+\-*\/]`. -/
def arithCls : Re := .cls [('+', '+'), ('-', '-'), ('*', '*'), ('/', '/')]

/-- Compiled `[1-9]`. -/
def nzCls : Re := .cls [('1', '9')]

/-- Compiled `[0-9]`. -/
def digitCls : Re := .cls [('0', '9')]

/-- Compiled `[1-9][0-9]*`. -/
def numeralRe : Re := .seq nzCls (.quant 0 none digitCls)

/-- Compiled fudge fragment, its group numbered `i`. -/
def fudgeRe (i : Nat) : Re :=
  .seq (.char 'F') (.quant 0 (some 1) (.seq (.char '.') (.group i (.cls [('1', '1'), ('2', '2')]))))

/-- Compiled body of the sides group. -/
def sidesRe : Re := .alt numeralRe (.alt (.char '%') (fudgeRe 4))

/-- Compiled body of the explode group. -/
def explodeRe : Re := .seq (.quant 1 (some 2) (.char '!')) (.quant 0 (some 1) (.char 'p'))

/-- Compiled comparison operators. -/
def compOpRe : Re :=
  .alt (.seq (.quant 0 (some 1) (.cls [('<', '<'), ('>', '>'), ('!', '!')])) (.quant 1 (some 3) (.char '=')))
    (.cls [('<', '<'), ('>', '>')])

/-- Compiled number comparison, groups 6 and 7. -/
def compRe : Re := .seq (.group 6 compOpRe) (.group 7 (.quant 1 none digitCls))

/-- Compiled lookahead body `[0-9]*d`. -/
def lookRe : Re := .seq (.quant 0 none digitCls) (.char 'd')

/-- Compiled body of the addition value group. -/
def addValueRe : Re :=
  .alt (.seq (.quant 1 none nzCls) (.seq (.quant 0 (some 1) (.char '0')) (.neglook lookRe)))
    (.alt (.char 'H') (.char 'L'))

/-- Compiled addition fragment, its groups numbered `i` and `j`. -/
def additionIn (i j : Nat) : Re := .seq (.group i arithCls) (.group j addValueRe)

/-- Compiled addition pattern. -/
def additionRe : Re := additionIn 1 2

/-- The part of the notation pattern after the sides group. -/
def tailRe : Re :=
  .seq (.quant 0 (some 1) (.group 5 explodeRe))
    (.seq (.quant 0 (some 1) compRe) (.group 8 (.quant 0 none (additionIn 9 10))))

/-- Compiled notation pattern. -/
def notationRe : Re :=
  .seq (.quant 0 (some 1) (.group 1 arithCls))
    (.seq (.quant 0 (some 1) (.group 2 numeralRe))
      (.seq (.char 'd') (.seq (.group 3 sidesRe) tailRe)))

/-- Compiled whole-string fudge pattern. -/
def fudgeWholeRe : Re := .seq .bol (.seq (.char 'F') (.seq
  (.quant 0 (some 1) (.seq (.char '.') (.group 1 (.cls [('1', '1'), ('2', '2')])))) .eol))

/-! ## Declarative reading of the matcher -/

/-- The relation `Matches r x y`: pattern `r` can take the matcher from state `x` to state `y`. -/
inductive Matches : Re → MState → MState → Prop
  | empty (x : MState) : Matches .empty x x
  | char (c : Char) (x : MState) (t : List Char) :
      x.rest = c :: t → Matches (.char c) x (x.next t)
  | cls (rs : List (Char × Char)) (x : MState) (d : Char) (t : List Char) :
      x.rest = d :: t → inRanges rs d = true → Matches (.cls rs) x (x.next t)
  | seq (a b : Re) (x y z : MState) :
      Matches a x y → Matches b y z → Matches (.seq a b) x z
  | altL (a b : Re) (x y : MState) : Matches a x y → Matches (.alt a b) x y
  | altR (a b : Re) (x y : MState) : Matches b x y → Matches (.alt a b) x y
  | quantStop (lo : Nat) (hi : Option Nat) (r : Re) (x : MState) :
      lo = 0 ∨ hi = some 0 → Matches (.quant lo hi r) x x
  | quantStep (lo : Nat) (hi : Option Nat) (r : Re) (x y z : MState) :
      hi ≠ some 0 → Matches r { x with caps := clearCaps r.groups x.caps } y →
      (lo = 0 → y.pos ≠ x.pos) →
      Matches (.quant (lo - 1) (hi.map (fun h => h - 1)) r) y z → Matches (.quant lo hi r) x z
  | group (i : Nat) (r : Re) (x y : MState) :
      Matches r x y →
      Matches (.group i r) x { y with caps := setCap y.caps i (x.rest.take (y.pos - x.pos)) }
  | neglook (r : Re) (x : MState) : r.run x some = none → Matches (.neglook r) x x
  | bol (x : MState) : x.pos = 0 → Matches .bol x x
  | eol (x : MState) : x.rest = [] → Matches .eol x x

/-- A decimal numeral without leading zero: a digit 1-9 followed by digits. -/
def IsNumeral (t : List Char) : Prop :=
  ∃ c cs, t = c :: cs ∧ inRanges [('1', '9')] c = true ∧ ∀ d ∈ cs, inRanges [('0', '9')] d = true

/-- What the groups of a match of the notation pattern can hold. -/
structure NotationCaps (caps : Nat → Option (List Char)) : Prop where
  op : caps 1 = none ∨
    ∃ c, inRanges [('+', '+'), ('-', '-'), ('*', '*'), ('/', '/')] c = true ∧ caps 1 = some [c]
  qty : caps 2 = none ∨ ∃ t, IsNumeral t ∧ caps 2 = some t
  sides : ∃ t, caps 3 = some t ∧
    (IsNumeral t ∨ t = ['%'] ∨ t = ['F'] ∨ t = ['F', '.', '1'] ∨ t = ['F', '.', '2'])
  explode : caps 5 = none ∨ caps 5 = some ['!'] ∨ caps 5 = some ['!', '!'] ∨
    caps 5 = some ['!', 'p'] ∨ caps 5 = some ['!', '!', 'p']
  comp : (caps 6 = none ∧ caps 7 = none) ∨
    ∃ o v, caps 6 = some o ∧ o ≠ [] ∧ caps 7 = some v ∧ v ≠ [] ∧
      ∀ d ∈ v, inRanges [('0', '9')] d = true
  adds : ∃ t, caps 8 = some t

/-- Text of a simple dice term: the quantity, the letter d, the sides. -/
def diceText (q s : Nat) : String := Nat.repr q ++ "d" ++ Nat.repr s

/-- Text of simple dice terms, each preceded by its operator. -/
def joinTerms : List (Char × Nat × Nat) → String
  | [] => ""
  | t :: ts => String.singleton t.1 ++ diceText t.2.1 t.2.2 ++ joinTerms ts

/-- The die of a simple dice term: no fudge, no flags, no compare point, no additions. -/
def plainDie (op : Char) (q s : Nat) : Die :=
  { operator := .str (String.singleton op), qty := .num q, sides := .num s, fudge := none,
    explode := false, penetrate := false, compound := false, comparePoint := none,
    additions := [] }

/-- The die that the parser builds for a simple dice term from the decimal texts of its
quantity and sides: the quantity goes through `parseInt`, the sides through `parseInt` when
`isNumeric` accepts their text and stay that text otherwise; no fudge, no flags, no compare
point, no additions. -/
def termDie (op : Char) (q s : Nat) : Die :=
  { operator := .str (String.singleton op), qty := parseInt (.str (Nat.repr q)),
    sides := if isNumeric (.str (Nat.repr s)) then parseInt (.str (Nat.repr s))
      else .str (Nat.repr s),
    fudge := none, explode := false, penetrate := false, compound := false,
    comparePoint := none, additions := [] }

/-- The arithmetic operators. -/
def isArith (op : Char) : Prop := op = '+' ∨ op = '-' ∨ op = '*' ∨ op = '/'

instance (op : Char) : Decidable (isArith op) := by unfold isArith; infer_instance

/-- Where a dice term may be followed: by the end of the input or by the operator,
the quantity and the letter d of the next term. -/
def TermStart (tail : List Char) : Prop :=
  tail = [] ∨ ∃ op q rest, isArith op ∧ IsNumeral q ∧ tail = op :: (q ++ 'd' :: rest)

/-! ## The roll log (`DiceRoller` instances) -/

/-- JavaScript data handled by `import` and `export`. -/
inductive Data where
  | undefined
  | null
  | bool (b : Bool)
  | num (n : Int)
  | str (s : String)
  | arr (items : List Data)
  | obj (fields : List (String × Data))

/-- Truthiness of data (`!!v`). -/
def Data.truthy : Data → Bool
  | .undefined => false
  | .null => false
  | .bool b => b
  | .num n => n != 0
  | .str s => s != ""
  | .arr _ => true
  | .obj _ => true

/-- The test `Array.isArray(v)`. -/
def Data.isArray : Data → Bool
  | .arr _ => true
  | _ => false

/-- The test `typeof v === 'object'`. -/
def Data.isObjectType : Data → Bool
  | .null => true
  | .arr _ => true
  | .obj _ => true
  | _ => false

/-- The property `v.log`: a field of an object, undefined on anything else. -/
def Data.log : Data → Data
  | .obj fields => (fields.lookup "log").getD .undefined
  | _ => .undefined

/-- The elements of an array (`[]` for anything else). -/
def Data.items : Data → List Data
  | .arr items => items
  | _ => []

mutual
/-- String conversion of data (`String(v)`). -/
def Data.toText : Data → String
  | .undefined => "undefined"
  | .null => "null"
  | .bool b => if b then "true" else "false"
  | .num n => toString n
  | .str s => s
  | .arr items => Data.joinText items
  | .obj _ => "[object Object]"
/-- String conversion of the elements of an array, joined by commas. -/
def Data.joinText : List Data → String
  | [] => ""
  | [.undefined] => ""
  | [.null] => ""
  | [x] => x.toText
  | .undefined :: xs => "," ++ Data.joinText xs
  | .null :: xs => "," ++ Data.joinText xs
  | x :: xs => x.toText ++ "," ++ Data.joinText xs
end

/-- The Roll Evaluator (`DiceRoll`, outside this repository's sources), as far as the
roll log uses it: import of serialized data (`none` when it raises), the data a roll
serializes to, and the display form of a roll. -/
structure RollEvaluator (R : Type) where
  importRoll : Data → Option R
  toJSON : R → Data
  display : R → String

/-- The JSON and base64 primitives of the environment; `none` stands for a raised error. -/
structure JsEnv where
  stringify : Data → String
  parse : String → Option Data
  btoa : String → Option String
  atob : String → Option String

/-- Errors raised by the roll log, and errors that reach it from outside. -/
inductive RollerError where
  | noData
  | unrecognisedImport
  | logNotArray
  | unrecognisedExport
  | noNotations
  | notationsInvalid
  | evaluator
  | environment
  | fuel
  deriving DecidableEq, Repr

/-- The table `DiceRoller.exportFormats`. -/
def exportFormats.JSON : Data := .num 0

/-- The table `DiceRoller.exportFormats`. -/
def exportFormats.BASE_64 : Data := .num 1

/-- The table `DiceRoller.exportFormats`. -/
def exportFormats.OBJECT : Data := .num 2

/-- Port of `isJson` (utils.js). -/
def isJson (env : JsEnv) (val : Data) : Bool :=
  if val.truthy then
    match env.parse val.toText with
    | none => false
    | some parsed => parsed.truthy && parsed.isObjectType
  else false

/-- Port of `isBase64` (utils.js): `btoa(atob(val)) === val`, false when a primitive raises. -/
def isBase64 (env : JsEnv) (val : Data) : Bool :=
  if val.truthy then
    match env.atob val.toText with
    | none => false
    | some decoded =>
      match env.btoa decoded, val with
      | some encoded, .str s => encoded == s
      | _, _ => false
  else false

/-- Port of `toJSON` followed by the serialization of each roll: the data of the export
envelope. -/
def toJSON {R : Type} (ev : RollEvaluator R) (log : List R) : Data :=
  .obj [("log", .arr (log.map ev.toJSON))]

/-- Port of the getter `output`: the display forms joined by `; `. -/
def output {R : Type} (ev : RollEvaluator R) (log : List R) : String :=
  "; ".intercalate (log.map ev.display)

/-- Port of `export(format)`. -/
def exportLog {R : Type} (ev : RollEvaluator R) (env : JsEnv) (log : List R) (format : Data) :
    Except RollerError String :=
  match (if format.truthy then format else exportFormats.JSON) with
  | .num 1 =>
    match env.btoa (env.stringify (toJSON ev log)) with
    | some text => .ok text
    | none => .error .environment
  | .num 0 => .ok (env.stringify (toJSON ev log))
  | _ => .error .unrecognisedExport

/-- The loop `data.log.forEach(roll => this[_log].push(DiceRoll.import(roll)))`: the log
afterwards, and the error if the Roll Evaluator raised one on the way. -/
def importEntries {R : Type} (ev : RollEvaluator R) : List Data → List R → List R × Option RollerError
  | [], log => (log, none)
  | e :: es, log =>
    match ev.importRoll e with
    | none => (log, some .evaluator)
    | some r => importEntries ev es (log ++ [r])

/-- Port of `import(data)`: the log afterwards and the error raised, if any. The fuel bounds
the nesting of JSON and base64 texts that are unwrapped. -/
def importData {R : Type} (ev : RollEvaluator R) (env : JsEnv) :
    Nat → List R → Data → List R × Option RollerError
  | 0, log, _ => (log, some .fuel)
  | fuel + 1, log, data =>
    if !data.truthy then (log, some .noData)
    else if isJson env data then
      match env.parse data.toText with
      | some parsed => importData ev env fuel log parsed
      | none => (log, some .environment)
    else if isBase64 env data then
      match env.atob data.toText with
      | some decoded => importData ev env fuel log (.str decoded)
      | none => (log, some .environment)
    else if data.isObjectType then
      let data1 : Data :=
        if !data.log.truthy && data.isArray && data.items.length != 0 then .obj [("log", data)]
        else data
      if data1.log.truthy && data1.log.isArray then importEntries ev data1.log.items log
      else if data1.log.truthy then (log, some .logNotArray)
      else (log, none)
    else (log, some .unrecognisedImport)

/-- Port of the static `DiceRoller.import(data)`: a fresh roll log, then `import(data)`. -/
def importFresh {R : Type} (ev : RollEvaluator R) (env : JsEnv) (fuel : Nat) (data : Data) :
    List R × Option RollerError :=
  importData ev env fuel [] data

/-- Whether a pattern matches the whole of a text, from its first character to its last. -/
def Re.matchesWhole (re : Re) (text : List Char) : Bool :=
  (re.run ⟨0, text, noCaps⟩ (fun y => if y.rest = [] then some y else none)).isSome

/-- A small Roll Evaluator used to instantiate statements: rolls are numbers. -/
def demoEvaluator : RollEvaluator Nat where
  importRoll := fun d => match d with
    | .num n => some n.toNat
    | _ => none
  toJSON := fun r => .num r
  display := fun r => toString r

/-- The JSON text of the log `[1, 2]`. -/
def demoJson : String := "\x7b\"log\":[1,2]\x7d"

/-- A small environment used to instantiate statements: it knows the JSON text of the log
`[1, 2]` and encodes base64 by a tag. -/
def demoEnv : JsEnv where
  stringify := fun _ => demoJson
  parse := fun s => if s = demoJson then some (.obj [("log", .arr [.num 1, .num 2])]) else none
  btoa := fun s => some ("b64:" ++ s)
  atob := fun s => if s = "b64:" ++ demoJson then some demoJson else none

mutual
/-- A small JSON printer used to instantiate statements: numbers, strings without escapes,
arrays and objects; `undefined` is printed `null`, as in an array. -/
def Data.json : Data → String
  | .undefined => "null"
  | .null => "null"
  | .bool b => if b then "true" else "false"
  | .num n => toString n
  | .str s => "\"" ++ s ++ "\""
  | .arr items => "[" ++ Data.jsonItems items ++ "]"
  | .obj fields => "\x7b" ++ Data.jsonFields fields ++ "\x7d"
/-- The elements of an array, printed and joined by commas. -/
def Data.jsonItems : List Data → String
  | [] => ""
  | [x] => x.json
  | x :: xs => x.json ++ "," ++ Data.jsonItems xs
/-- The fields of an object, printed and joined by commas. -/
def Data.jsonFields : List (String × Data) → String
  | [] => ""
  | [(k, v)] => "\"" ++ k ++ "\":" ++ v.json
  | (k, v) :: fs => "\"" ++ k ++ "\":" ++ v.json ++ "," ++ Data.jsonFields fs
end

/-- The export envelopes of a few small logs of `demoEvaluator`. -/
def demoEnvelopes : List Data :=
  [[], [1], [2], [1, 2], [2, 1], [1, 2, 3]].map
    (fun (log : List Nat) => Data.obj [("log", .arr (log.map (fun r => Data.num r)))])

/-- A small environment used to instantiate statements: `stringify` is the JSON printer,
`parse` reads back the text of the envelopes of `demoEnvelopes`, base64 is encoded by the
tag `b64:` in front of the text. -/
def printEnv : JsEnv where
  stringify := Data.json
  parse := fun s => demoEnvelopes.find? (fun d => d.json == s)
  btoa := fun s => some ("b64:" ++ s)
  atob := fun s =>
    match s.toList with
    | 'b' :: '6' :: '4' :: ':' :: rest => some (String.mk rest)
    | _ => none

/-- The match array of the first term of `2d20!>=15+d6`. -/
def demoArray : List Value :=
  [.str "2d20!>=15", .undefined, .str "2", .str "20", .undefined, .str "!", .str ">=",
    .str "15", .str "", .undefined, .undefined]

/-- The first term of `2d20!>=15+d6`. -/
def demoDie : Die :=
  { operator := .str "+", qty := .num 2, sides := .num 20, fudge := none, explode := true,
    penetrate := false, compound := false, comparePoint := some ⟨.str ">=", .num 15⟩,
    additions := [] }

/-- The match array of the second term of `2d20!>=15+d6`. -/
def demoArray2 : List Value :=
  [.str "+d6", .str "+", .undefined, .str "6", .undefined, .undefined, .undefined,
    .undefined, .str "", .undefined, .undefined]

/-- The fudge die of `4dF.2`. -/
def demoFudgeDie : Die :=
  { operator := .str "+", qty := .num 4, sides := .str "F.2",
    fudge := some [.str "F.2", .str "2"], explode := false, penetrate := false,
    compound := false, comparePoint := none, additions := [] }

/-! ## Arithmetic of `src/utils.js` -/

/-- The product `a * b` of two numbers in IEEE-754 arithmetic: the exact product rounded to
a double. The operands of the operators of `utils.js` are results of `parseInt` and
`parseFloat`, always numbers; other values are treated as `NaN`. -/
def Value.mul : Value → Value → Value
  | .num p, .num q => toDouble (p * q)
  | .num p, .inf b => if p = 0 then .nan else .inf (b != decide (p < 0))
  | .inf a, .num q => if q = 0 then .nan else .inf (a != decide (q < 0))
  | .inf a, .inf b => .inf (a != b)
  | _, _ => .nan

/-- The quotient `a / b` of two numbers in IEEE-754 arithmetic. The divisor zero is taken
as the positive zero; `equateNumbers` divides by a truthy number only. -/
def Value.div : Value → Value → Value
  | .num p, .num q =>
    if q = 0 then (if p = 0 then .nan else .inf (decide (p < 0))) else toDouble (p / q)
  | .num _, .inf _ => .num 0
  | .inf a, .num q => .inf (a != decide (q < 0))
  | _, _ => .nan

/-- The sum `a + b` of two numbers in IEEE-754 arithmetic. -/
def Value.add : Value → Value → Value
  | .num p, .num q => toDouble (p + q)
  | .num _, .inf b => .inf b
  | .inf a, .num _ => .inf a
  | .inf a, .inf b => if a = b then .inf a else .nan
  | _, _ => .nan

/-- The difference `a - b` of two numbers in IEEE-754 arithmetic. -/
def Value.sub : Value → Value → Value
  | .num p, .num q => toDouble (p - q)
  | .num _, .inf b => .inf (!b)
  | .inf a, .num _ => .inf a
  | .inf a, .inf b => if a = b then .nan else .inf a
  | _, _ => .nan

/-- The result of `Math.floor` on a number. -/
def Value.floor : Value → Value
  | .num q => .num (Rat.floor q)
  | .inf a => .inf a
  | _ => .nan

/-- Strict equality `a === b` of two numbers: false when either is `NaN`. -/
def Value.strictEq : Value → Value → Bool
  | .num p, .num q => decide (p = q)
  | .inf a, .inf b => a == b
  | _, _ => false

/-- The comparison `a < b` of two numbers: false when either is `NaN`. -/
def Value.lessThan : Value → Value → Bool
  | .num p, .num q => decide (p < q)
  | .num _, .inf b => !b
  | .inf a, .num _ => a
  | .inf a, .inf b => a && !b
  | _, _ => false

/-- The comparison `a <= b` of two numbers: false when either is `NaN`. -/
def Value.lessEq (a b : Value) : Bool := a.lessThan b || a.strictEq b

/-- The operand coercion of `equateNumbers`: `isNumeric(a) ? parseFloat(a + '') : 0`. The
text `a + ''` is the string conversion of `a`, the one `parseFloat` applies to its
argument itself. -/
def operandOf (a : Value) : Value :=
  if isNumeric a then parseFloat a else .num 0

/-- Port of `equateNumbers` (utils.js); `operator` is `undefined` when it is omitted, and
then takes the default `+`. -/
def equateNumbers (a b : Value) (operator : Value) : Value :=
  let operator := if operator = .undefined then Value.str "+" else operator
  let a := operandOf a
  let b := operandOf b
  if operator = .str "*" then a.mul b
  else if operator = .str "/" then (if b.truthy then a.div b else .num 0)
  else if operator = .str "-" then a.sub b
  else a.add b

/-- Port of `generateNumber` (utils.js); `r` is the double drawn by `Math.random()`. Each
operation of `Math.random() * (max - min + 1) + min` rounds its result to a double. -/
def generateNumber (r : Rat) (min max : Value) : Value :=
  let min := if min.truthy then parseInt min else .num 1
  let max := if max.truthy then parseInt max else min
  if max.lessEq min then min
  else (((Value.num r).mul ((max.sub min).add (.num 1))).add min).floor

/-- Port of `compareNumbers` (utils.js): both arguments go through `parseFloat`, then the
`switch` on the operator decides. -/
def compareNumbers (a b : Value) (operator : Value) : Bool :=
  let a := parseFloat a
  let b := parseFloat b
  if operator = .str "=" ∨ operator = .str "==" then a.strictEq b
  else if operator = .str "<" then a.lessThan b
  else if operator = .str ">" then b.lessThan a
  else if operator = .str "<=" then a.lessEq b
  else if operator = .str ">=" then b.lessEq a
  else if operator = .str "!" ∨ operator = .str "!=" then !a.strictEq b
  else false

/-- The operators that `compareNumbers` knows. -/
def supportedOperators : List Value :=
  [.str "=", .str "==", .str "<", .str ">", .str "<=", .str ">=", .str "!", .str "!="]

/-! ## The methods of a roll log -/

/-- Port of the constructor `new DiceRoller(data)`: the log of the new object, or the error
raised. -/
def construct {R : Type} (ev : RollEvaluator R) (data : Data) : Except RollerError (List R) :=
  if data.truthy then
    if data.log.isArray then
      match importEntries ev data.log.items [] with
      | (log, none) => .ok log
      | (_, some e) => .error e
    else if data.log.truthy then .error .logNotArray
    else .ok []
  else .ok []

/-- Port of `roll(text)`. The constructor `new DiceRoll(text)` of the Roll Evaluator is the
parameter `newRoll`: it reads and advances the state `G` of the random source, and `none`
stands for a raised error. Returns the roll, and the log and the random source afterwards. -/
def roll {R G : Type} (newRoll : Data → G → Option (R × G)) (log : List R) (g : G)
    (text : Data) : Option R × List R × G :=
  match newRoll text g with
  | none => (none, log, g)
  | some (r, g1) => (some r, log ++ [r], g1)

/-- The loop `notations.map(text => this.roll(text))`: the rolls made, or the error of the
Roll Evaluator, with the log and the random source afterwards. -/
def rollEach {R G : Type} (newRoll : Data → G → Option (R × G)) :
    List Data → List R → G → List R → Except RollerError (List R) × List R × G
  | [], log, g, acc => (.ok acc, log, g)
  | text :: texts, log, g, acc =>
    match roll newRoll log g text with
    | (none, log1, g1) => (.error .evaluator, log1, g1)
    | (some r, log1, g1) => rollEach newRoll texts log1 g1 (acc ++ [r])

/-- Port of `rollMany(notations)`. -/
def rollMany {R G : Type} (newRoll : Data → G → Option (R × G)) (log : List R) (g : G)
    (notations : Data) : Except RollerError (List R) × List R × G :=
  if !notations.truthy then (.error .noNotations, log, g)
  else if !notations.isArray then (.error .notationsInvalid, log, g)
  else rollEach newRoll notations.items log g []

/-- The rolls `rs` are the results the Roll Evaluator constructs for the texts, one after the
other, the random source going from `g` to `g1`. -/
inductive Rolled {R G : Type} (newRoll : Data → G → Option (R × G)) :
    G → List Data → List R → G → Prop
  | nil (g : G) : Rolled newRoll g [] [] g
  | cons (g g1 g2 : G) (text : Data) (texts : List Data) (r : R) (rs : List R) :
      newRoll text g = some (r, g1) → Rolled newRoll g1 texts rs g2 →
      Rolled newRoll g (text :: texts) (r :: rs) g2

/-- Port of `clearLog()`. -/
def clearLog {R : Type} (_log : List R) : List R := []

/-- A call of a method of a roll log. -/
inductive Call where
  | roll (text : Data)
  | rollMany (notations : Data)
  | clearLog
  | exportLog (format : Data)
  | importData (data : Data)

/-- What a call returns. -/
inductive Reply (R : Type) where
  | one (r : R)
  | many (rs : List R)
  | text (s : String)
  | nothing

/-- One call on a roll log: what it returns or raises, and the log and the random source
afterwards. `fuel` bounds the nesting of the texts that `import` unwraps. -/
def perform {R G : Type} (ev : RollEvaluator R) (newRoll : Data → G → Option (R × G))
    (env : JsEnv) (fuel : Nat) (call : Call) (log : List R) (g : G) :
    Except RollerError (Reply R) × List R × G :=
  match call with
  | .roll text =>
    match roll newRoll log g text with
    | (none, log1, g1) => (.error .evaluator, log1, g1)
    | (some r, log1, g1) => (.ok (.one r), log1, g1)
  | .rollMany notations =>
    match rollMany newRoll log g notations with
    | (.error e, log1, g1) => (.error e, log1, g1)
    | (.ok rs, log1, g1) => (.ok (.many rs), log1, g1)
  | .clearLog => (.ok .nothing, clearLog log, g)
  | .exportLog format =>
    match exportLog ev env log format with
    | .error e => (.error e, log, g)
    | .ok s => (.ok (.text s), log, g)
  | .importData data =>
    match importData ev env fuel log data with
    | (log1, some e) => (.error e, log1, g)
    | (log1, none) => (.ok (.many log1), log1, g)

/-- The errors that the roll log raises itself. -/
def RollerError.named : RollerError → Bool
  | .noData => true
  | .unrecognisedImport => true
  | .logNotArray => true
  | .unrecognisedExport => true
  | .noNotations => true
  | .notationsInvalid => true
  | _ => false

/-- A small constructor of rolls used to instantiate statements: the roll of a number is
that number plus the state of the random source, which then advances by one; anything else
raises. -/
def demoRoll : Data → Nat → Option (Nat × Nat)
  | .num n, g => some (n.toNat + g, g + 1)
  | _, _ => none

/-- The die of `2d6===3`. -/
def demoTripleDie : Die :=
  { operator := .str "+", qty := .num 2, sides := .num 6, fudge := none, explode := false,
    penetrate := false, compound := false, comparePoint := some ⟨.str "===", .num 3⟩,
    additions := [] }

/-! ## Successive calls of the parser -/

/-- The state of the cached patterns after successive calls of `parseNotation` on the given
texts, the first call finding the patterns in the state `cache`; `none` when a call raises
or does not finish. -/
def cacheAfter (cache : PatternCache) : List Value → Option PatternCache
  | [] => some cache
  | s :: ss => (parseNotationTrace cache s).bind (fun r => cacheAfter r.2 ss)

/-- The die of `2d6!=3`: an exploding die with the compare point `=3`. -/
def demoBangDie : Die :=
  { operator := .str "+", qty := .num 2, sides := .num 6, fudge := none, explode := true,
    penetrate := false, compound := false, comparePoint := some ⟨.str "=", .num 3⟩,
    additions := [] }

/-! ## Rounding to doubles -/

/-- The power of two of the model is the power of two. -/
theorem pow2_eq (e : Int) : pow2 e = (2 : ℚ) ^ e := by
  unfold pow2
  split
  · rename_i h
    obtain ⟨n, rfl⟩ := Int.eq_ofNat_of_zero_le h
    simp
  · rename_i h
    have h2 : e < 0 := by omega
    obtain ⟨n, hn⟩ := Int.exists_eq_neg_ofNat (le_of_lt h2)
    subst hn
    simp

/-- The bounds of the binary logarithm. -/
theorem log2Aux_spec : ∀ (fuel n : Nat), 1 ≤ n → n ≤ fuel →
    2 ^ log2Aux fuel n ≤ n ∧ n < 2 ^ (log2Aux fuel n + 1) := by
  intro fuel
  induction fuel with
  | zero => intro n h1 h2; omega
  | succ f ih =>
    intro n h1 h2
    rw [log2Aux]
    split
    · rename_i h; simp; omega
    · rename_i h
      have hn : 1 ≤ n / 2 := by omega
      have hf : n / 2 ≤ f := by omega
      obtain ⟨ha, hb⟩ := ih (n / 2) hn hf
      constructor
      · rw [pow_succ]; omega
      · rw [pow_succ]; omega

theorem log2_spec (n : Nat) (h : 1 ≤ n) : 2 ^ log2 n ≤ n ∧ n < 2 ^ (log2 n + 1) :=
  log2Aux_spec n n h (Nat.le_refl n)

/-- The binary exponent brackets a positive number. -/
theorem floorLog2_spec (x : ℚ) (hx : 0 < x) :
    (2 : ℚ) ^ floorLog2 x ≤ x ∧ x < (2 : ℚ) ^ (floorLog2 x + 1) := by
  have hnum : 0 < x.num := Rat.num_pos.mpr hx
  have hden : 0 < x.den := x.den_pos
  obtain ⟨a1, a2⟩ := log2_spec x.num.natAbs (by omega)
  obtain ⟨b1, b2⟩ := log2_spec x.den hden
  have hxe : x = (x.num.natAbs : ℚ) / (x.den : ℚ) := by
    have h1 : ((x.num.natAbs : ℤ) : ℚ) = (x.num : ℚ) := by
      rw [Int.natAbs_of_nonneg (le_of_lt hnum)]
    rw [← Int.cast_natCast, h1]
    exact (Rat.num_div_den x).symm
  have hdq : (0 : ℚ) < (x.den : ℚ) := by exact_mod_cast hden
  have a1q : (2 : ℚ) ^ (log2 x.num.natAbs) ≤ (x.num.natAbs : ℚ) := by exact_mod_cast a1
  have a2q : (x.num.natAbs : ℚ) < (2 : ℚ) ^ (log2 x.num.natAbs + 1) := by exact_mod_cast a2
  have b1q : (2 : ℚ) ^ (log2 x.den) ≤ (x.den : ℚ) := by exact_mod_cast b1
  have b2q : (x.den : ℚ) < (2 : ℚ) ^ (log2 x.den + 1) := by exact_mod_cast b2
  have two : (0 : ℚ) < 2 := by norm_num
  -- bounds of x between neighbouring powers
  have up : x < (2 : ℚ) ^ (((log2 x.num.natAbs : ℤ) - (log2 x.den : ℤ)) + 1) := by
    have e : (((log2 x.num.natAbs : ℤ) - (log2 x.den : ℤ)) + 1) =
        ((log2 x.num.natAbs + 1 : ℕ) : ℤ) - ((log2 x.den : ℕ) : ℤ) := by push_cast; ring
    rw [e, zpow_sub₀ (ne_of_gt two), zpow_natCast, zpow_natCast]
    calc x = (x.num.natAbs : ℚ) / (x.den : ℚ) := hxe
      _ < (2 : ℚ) ^ (log2 x.num.natAbs + 1) / (x.den : ℚ) :=
          div_lt_div_of_pos_right a2q hdq
      _ ≤ (2 : ℚ) ^ (log2 x.num.natAbs + 1) / (2 : ℚ) ^ (log2 x.den) :=
          div_le_div_of_nonneg_left (by positivity) (by positivity) b1q
  have lo : (2 : ℚ) ^ (((log2 x.num.natAbs : ℤ) - (log2 x.den : ℤ)) - 1) ≤ x := by
    have e : (((log2 x.num.natAbs : ℤ) - (log2 x.den : ℤ)) - 1) =
        ((log2 x.num.natAbs : ℕ) : ℤ) - ((log2 x.den + 1 : ℕ) : ℤ) := by push_cast; ring
    rw [e, zpow_sub₀ (ne_of_gt two), zpow_natCast, zpow_natCast]
    calc (2 : ℚ) ^ (log2 x.num.natAbs) / (2 : ℚ) ^ (log2 x.den + 1)
        ≤ (2 : ℚ) ^ (log2 x.num.natAbs) / (x.den : ℚ) :=
          div_le_div_of_nonneg_left (by positivity) hdq (le_of_lt b2q)
      _ ≤ (x.num.natAbs : ℚ) / (x.den : ℚ) :=
          div_le_div_of_nonneg_right a1q (le_of_lt hdq)
      _ = x := hxe.symm
  unfold floorLog2
  simp only [pow2_eq]
  split
  · rename_i h
    refine ⟨lo, ?_⟩
    simpa using h
  · rename_i h
    exact ⟨not_lt.mp h, up⟩

/-- Rounding leaves an integer as it is. -/
theorem roundHalfEven_int (m : Int) : roundHalfEven (m : ℚ) = m := by
  unfold roundHalfEven
  have : Rat.floor (m : ℚ) = m := Int.floor_intCast (α := ℚ) m
  simp [this]

/-- Rounding gives the floor or the integer after it. -/
theorem roundHalfEven_bounds (x : ℚ) :
    ⌊x⌋ ≤ roundHalfEven x ∧ roundHalfEven x ≤ ⌊x⌋ + 1 := by
  have hf : Rat.floor x = ⌊x⌋ := rfl
  unfold roundHalfEven
  simp only [hf]
  split
  · omega
  · split
    · omega
    · split <;> omega

/-- Rounding does not pass an integer bound. -/
theorem roundHalfEven_le (x : ℚ) (n : Int) (h : x ≤ n) : roundHalfEven x ≤ n := by
  rcases lt_or_eq_of_le h with h1 | h1
  · have := (roundHalfEven_bounds x).2
    have : ⌊x⌋ < n := Int.floor_lt.mpr h1
    omega
  · rw [h1, roundHalfEven_int]

/-- Rounding does not fall below an integer bound. -/
theorem roundHalfEven_ge (x : ℚ) (n : Int) (h : (n : ℚ) ≤ x) : n ≤ roundHalfEven x := by
  have := (roundHalfEven_bounds x).1
  have : n ≤ ⌊x⌋ := Int.le_floor.mpr h
  omega

/-- A natural number below `2 ^ 53` is a double. -/
theorem toDouble_nat (n : Nat) (h : n < 2 ^ 53) : toDouble (n : ℚ) = .num (n : ℚ) := by
  unfold toDouble
  split
  · rename_i h0; rw [h0]
  · rename_i h0
    have hpos : (0 : ℚ) < (n : ℚ) := by
      rcases Nat.eq_zero_or_pos n with h1 | h1
      · exact absurd (by simp [h1]) h0
      · exact_mod_cast h1
    have habs : |(n : ℚ)| = (n : ℚ) := abs_of_pos hpos
    simp only [habs]
    obtain ⟨l, u⟩ := floorLog2_spec (n : ℚ) hpos
    have hlt : (n : ℚ) < (2 : ℚ) ^ (53 : ℤ) := by
      have e53 : (2 : ℚ) ^ (53 : ℤ) = ((2 ^ 53 : ℕ) : ℚ) := by norm_num
      rw [e53]
      exact_mod_cast h
    have he : floorLog2 (n : ℚ) < 53 := by
      by_contra hc
      have hc : (53 : ℤ) ≤ floorLog2 (n : ℚ) := by omega
      have : (2 : ℚ) ^ (53 : ℤ) ≤ (2 : ℚ) ^ floorLog2 (n : ℚ) :=
        zpow_le_zpow_right₀ (by norm_num) hc
      linarith
    have he0 : 0 ≤ floorLog2 (n : ℚ) := by
      by_contra hc
      have hc : floorLog2 (n : ℚ) + 1 ≤ 0 := by omega
      have : (2 : ℚ) ^ (floorLog2 (n : ℚ) + 1) ≤ (2 : ℚ) ^ (0 : ℤ) :=
        zpow_le_zpow_right₀ (by norm_num) hc
      have h1 : (1 : ℚ) ≤ (n : ℚ) := by
        have : 1 ≤ n := by
          rcases Nat.eq_zero_or_pos n with h1 | h1
          · exact absurd (by simp [h1]) h0
          · exact h1
        exact_mod_cast this
      simp at this
      linarith
    have hmax : max (floorLog2 (n : ℚ)) (-1022) = floorLog2 (n : ℚ) := max_eq_left (by omega)
    rw [hmax, pow2_eq, pow2_eq]
    obtain ⟨k, hk⟩ : ∃ k : ℕ, floorLog2 (n : ℚ) - 52 = -(k : ℤ) :=
      ⟨(52 - floorLog2 (n : ℚ)).toNat, by omega⟩
    rw [hk]
    have hdiv : (n : ℚ) / (2 : ℚ) ^ (-(k : ℤ)) = ((n * 2 ^ k : ℕ) : ℤ) := by
      rw [zpow_neg, zpow_natCast]
      push_cast
      field_simp
    rw [hdiv, roundHalfEven_int]
    have hr : (((n * 2 ^ k : ℕ) : ℤ) : ℚ) * (2 : ℚ) ^ (-(k : ℤ)) = (n : ℚ) := by
      rw [zpow_neg, zpow_natCast]
      push_cast
      field_simp
    rw [hr]
    have h1024 : ¬ ((2 : ℚ) ^ (1024 : ℤ) ≤ (n : ℚ)) := by
      have : (2 : ℚ) ^ (53 : ℤ) ≤ (2 : ℚ) ^ (1024 : ℤ) :=
        zpow_le_zpow_right₀ (by norm_num) (by norm_num)
      linarith
    rw [if_neg h1024, if_neg (by linarith)]

/-- Rounding commutes with the sign of a number. -/
theorem toDouble_neg_nat (n : Nat) (h : n < 2 ^ 53) : toDouble (-(n : ℚ)) = .num (-(n : ℚ)) := by
  rcases Nat.eq_zero_or_pos n with h0 | h0
  · subst h0; simp [toDouble]
  · have hpos : (0 : ℚ) < (n : ℚ) := by exact_mod_cast h0
    have hp := toDouble_nat n h
    unfold toDouble at hp ⊢
    rw [if_neg (by linarith)] at hp
    rw [if_neg (by linarith)]
    simp only [abs_neg]
    have hneg : -(n : ℚ) < 0 := by linarith
    have hnn : ¬ ((n : ℚ) < 0) := by linarith
    simp only [hneg, hnn, if_true, if_false] at hp ⊢
    split at hp
    · exact absurd hp (by simp)
    · rename_i h2
      rw [if_neg h2]
      injection hp with hp
      rw [hp]

/-- An integer below `2 ^ 53` in absolute value is a double. -/
theorem toDouble_int (n : Int) (h : n.natAbs < 2 ^ 53) : toDouble (n : ℚ) = .num (n : ℚ) := by
  have e := Int.natAbs_eq n
  generalize n.natAbs = k at h e
  rcases e with e | e
  · subst e; simpa using toDouble_nat k h
  · subst e; simpa using toDouble_neg_nat k h

/-- The double nearest to a natural number of at least 1 is `Infinity` or a natural number
of at least 1. -/
theorem toDouble_nat_pos (n : Nat) (h : 1 ≤ n) :
    toDouble (n : ℚ) = .inf false ∨ ∃ m : Nat, 1 ≤ m ∧ toDouble (n : ℚ) = .num (m : ℚ) := by
  have hpos : (0 : ℚ) < (n : ℚ) := by exact_mod_cast h
  have h1 : (1 : ℚ) ≤ (n : ℚ) := by exact_mod_cast h
  unfold toDouble
  rw [if_neg (ne_of_gt hpos)]
  have habs : |(n : ℚ)| = (n : ℚ) := abs_of_pos hpos
  have hnn : ¬ ((n : ℚ) < 0) := by linarith
  simp only [habs, hnn, if_false, decide_False]
  obtain ⟨l, u⟩ := floorLog2_spec (n : ℚ) hpos
  have he0 : 0 ≤ floorLog2 (n : ℚ) := by
    by_contra hc
    have hc : floorLog2 (n : ℚ) + 1 ≤ 0 := by omega
    have : (2 : ℚ) ^ (floorLog2 (n : ℚ) + 1) ≤ (2 : ℚ) ^ (0 : ℤ) :=
      zpow_le_zpow_right₀ (by norm_num) hc
    simp at this
    linarith
  have hmax : max (floorLog2 (n : ℚ)) (-1022) = floorLog2 (n : ℚ) := max_eq_left (by omega)
  rw [hmax]
  simp only [pow2_eq]
  split
  · exact Or.inl rfl
  · right
    rcases le_or_lt (floorLog2 (n : ℚ)) 52 with hle | hgt
    · obtain ⟨k, hk⟩ : ∃ k : ℕ, floorLog2 (n : ℚ) - 52 = -(k : ℤ) :=
        ⟨(52 - floorLog2 (n : ℚ)).toNat, by omega⟩
      rw [hk]
      have hdiv : (n : ℚ) / (2 : ℚ) ^ (-(k : ℤ)) = ((n * 2 ^ k : ℕ) : ℤ) := by
        rw [zpow_neg, zpow_natCast]
        push_cast
        field_simp
      rw [hdiv, roundHalfEven_int]
      have hr : (((n * 2 ^ k : ℕ) : ℤ) : ℚ) * (2 : ℚ) ^ (-(k : ℤ)) = (n : ℚ) := by
        rw [zpow_neg, zpow_natCast]
        push_cast
        field_simp
      rw [hr]
      exact ⟨n, h, rfl⟩
    · obtain ⟨k, hk⟩ : ∃ k : ℕ, floorLog2 (n : ℚ) - 52 = (k : ℤ) :=
        ⟨(floorLog2 (n : ℚ) - 52).toNat, by omega⟩
      rw [hk]
      have hge : (1 : ℤ) ≤ roundHalfEven ((n : ℚ) / (2 : ℚ) ^ (k : ℤ)) := by
        apply roundHalfEven_ge
        rw [le_div_iff₀ (by positivity)]
        have hkl : (2 : ℚ) ^ (k : ℤ) ≤ (2 : ℚ) ^ floorLog2 (n : ℚ) :=
          zpow_le_zpow_right₀ (by norm_num) (by omega)
        push_cast
        linarith
      obtain ⟨j, hj⟩ := Int.eq_ofNat_of_zero_le (le_trans (by norm_num) hge)
      refine ⟨j * 2 ^ k, ?_, ?_⟩
      · have : 1 ≤ j := by omega
        exact Nat.one_le_iff_ne_zero.mpr (Nat.mul_ne_zero (by omega) (by positivity))
      · rw [hj, zpow_natCast]
        push_cast
        rfl

/-- A number below `2 ^ 1023` in absolute value rounds to a finite double. -/
theorem toDouble_finite (x : ℚ) (h : |x| < (2 : ℚ) ^ (1023 : ℤ)) : ∃ q, toDouble x = .num q := by
  unfold toDouble
  split
  · exact ⟨0, rfl⟩
  · rename_i h0
    have hpos : 0 < |x| := abs_pos.mpr h0
    obtain ⟨l, u⟩ := floorLog2_spec |x| hpos
    have he : floorLog2 |x| < 1023 := by
      by_contra hc
      have hc : (1023 : ℤ) ≤ floorLog2 |x| := by omega
      have : (2 : ℚ) ^ (1023 : ℤ) ≤ (2 : ℚ) ^ floorLog2 |x| :=
        zpow_le_zpow_right₀ (by norm_num) hc
      linarith
    simp only [pow2_eq]
    have two : (0 : ℚ) < 2 := by norm_num
    have hu1 : floorLog2 |x| - 52 ≤ max (floorLog2 |x|) (-1022) - 52 := by
      have := le_max_left (floorLog2 |x|) (-1022); omega
    have hu2 : max (floorLog2 |x|) (-1022) - 52 ≤ 970 := by
      have : max (floorLog2 |x|) (-1022) ≤ 1022 := max_le (by omega) (by norm_num)
      omega
    have hq : |x| / (2 : ℚ) ^ (max (floorLog2 |x|) (-1022) - 52) ≤ ((2 ^ 53 : ℕ) : ℤ) := by
      rw [div_le_iff₀ (by positivity)]
      have e1 : (((2 ^ 53 : ℕ) : ℤ) : ℚ) = (2 : ℚ) ^ (53 : ℤ) := by norm_num
      rw [e1, ← zpow_add₀ (ne_of_gt two)]
      have : (2 : ℚ) ^ (floorLog2 |x| + 1) ≤
          (2 : ℚ) ^ (53 + (max (floorLog2 |x|) (-1022) - 52)) :=
        zpow_le_zpow_right₀ (by norm_num) (by omega)
      linarith
    have hr := roundHalfEven_le _ _ hq
    have hrq : (roundHalfEven (|x| / (2 : ℚ) ^ (max (floorLog2 |x|) (-1022) - 52)) : ℚ) ≤
        (2 : ℚ) ^ (53 : ℤ) := by
      have : (roundHalfEven (|x| / (2 : ℚ) ^ (max (floorLog2 |x|) (-1022) - 52)) : ℚ) ≤
          (((2 ^ 53 : ℕ) : ℤ) : ℚ) := by exact_mod_cast hr
      have e1 : (((2 ^ 53 : ℕ) : ℤ) : ℚ) = (2 : ℚ) ^ (53 : ℤ) := by norm_num
      rw [e1] at this
      exact this
    have hlt : ¬ ((2 : ℚ) ^ (1024 : ℤ) ≤
        (roundHalfEven (|x| / (2 : ℚ) ^ (max (floorLog2 |x|) (-1022) - 52)) : ℚ) *
          (2 : ℚ) ^ (max (floorLog2 |x|) (-1022) - 52)) := by
      intro hc
      have h1 : (roundHalfEven (|x| / (2 : ℚ) ^ (max (floorLog2 |x|) (-1022) - 52)) : ℚ) *
          (2 : ℚ) ^ (max (floorLog2 |x|) (-1022) - 52) ≤
          (2 : ℚ) ^ (53 : ℤ) * (2 : ℚ) ^ (max (floorLog2 |x|) (-1022) - 52) :=
        mul_le_mul_of_nonneg_right hrq (by positivity)
      rw [← zpow_add₀ (ne_of_gt two)] at h1
      have h2 : (2 : ℚ) ^ (53 + (max (floorLog2 |x|) (-1022) - 52)) ≤ (2 : ℚ) ^ (1023 : ℤ) :=
        zpow_le_zpow_right₀ (by norm_num) (by omega)
      have h3 : (2 : ℚ) ^ (1023 : ℤ) < (2 : ℚ) ^ (1024 : ℤ) :=
        zpow_lt_zpow_right₀ (by norm_num) (by norm_num)
      linarith
    rw [if_neg hlt]
    exact ⟨_, rfl⟩

/-! ## Compilation of the patterns, soundness of the matcher -/

set_option maxRecDepth 100000 in
theorem compile_notationStr : Re.compile notationStr = some notationRe := by decide

set_option maxRecDepth 100000 in
theorem compile_additionStr : Re.compile additionStr = some additionRe := by decide

set_option maxRecDepth 100000 in
theorem get_notation_g : get "notation" (some "g") false = some ⟨notationRe, true⟩ := by decide

set_option maxRecDepth 100000 in
theorem get_addition_g : get "addition" (some "g") false = some ⟨additionRe, true⟩ := by decide

set_option maxRecDepth 100000 in
theorem get_fudge_whole : get "fudge" none true = some ⟨fudgeWholeRe, false⟩ := by decide

set_option maxRecDepth 100000 in
/-- Every fragment of the table compiles, with and without anchors. -/
theorem get_fragments :
    ∀ name ∈ ["arithmeticOperator", "comparisonOperators", "fudge", "numberComparison",
      "explode", "dice", "diceFull", "addition", "notation"],
      ∀ whole ∈ [true, false], (get name none whole).isSome = true ∧
        (get name (some "g") whole).isSome = true := by
  decide

theorem clearCaps_nil (caps : Nat → Option (List Char)) : clearCaps [] caps = caps := by
  funext i; simp [clearCaps]

/-- Soundness of the quantifier loop, given soundness of the quantified atom. -/
theorem repeatMatcher_sound (r : Re)
    (ih : ∀ x k z, r.run x k = some z → ∃ y, Matches r x y ∧ k y = some z) :
    ∀ fuel lo hi x k z,
      repeatMatcher (fun y c => r.run y c) r.groups fuel lo hi x k = some z →
      ∃ y, Matches (.quant lo hi r) x y ∧ k y = some z := by
  intro fuel
  induction fuel with
  | zero => intro lo hi x k z h; simp [repeatMatcher] at h
  | succ fuel ihf =>
    intro lo hi x k z h
    rw [repeatMatcher] at h
    by_cases hhi : hi = some 0
    · rw [if_pos hhi] at h
      exact ⟨x, Matches.quantStop lo hi r x (Or.inr hhi), h⟩
    · rw [if_neg hhi] at h
      have step : ∀ z, r.run { x with caps := clearCaps r.groups x.caps }
          (fun y => if lo = 0 ∧ y.pos = x.pos then none
            else repeatMatcher (fun y c => r.run y c) r.groups fuel (lo - 1)
              (hi.map (fun h => h - 1)) y k) = some z →
          ∃ y, Matches (.quant lo hi r) x y ∧ k y = some z := by
        intro z hz
        obtain ⟨y, hy, hk⟩ := ih _ _ _ hz
        by_cases hc : lo = 0 ∧ y.pos = x.pos
        · simp [hc] at hk
        · rw [if_neg hc] at hk
          obtain ⟨y2, hy2, hk2⟩ := ihf _ _ _ _ _ hk
          exact ⟨y2, Matches.quantStep lo hi r x y y2 hhi hy (fun h0 hp => hc ⟨h0, hp⟩) hy2, hk2⟩
      by_cases hlo : lo = 0
      · rw [if_neg (not_not.mpr hlo)] at h
        split at h
        · rename_i z1 hz1
          cases h
          exact step _ hz1
        · exact ⟨x, Matches.quantStop lo hi r x (Or.inl hlo), h⟩
      · rw [if_pos hlo] at h
        exact step _ h

/-- Soundness of the matcher: a successful run goes through a state reached by `Matches`. -/
theorem run_sound (r : Re) : ∀ x k z, r.run x k = some z → ∃ y, Matches r x y ∧ k y = some z := by
  induction r with
  | empty => intro x k z h; exact ⟨x, Matches.empty x, by simpa [Re.run] using h⟩
  | char c =>
    intro x k z h
    rw [Re.run] at h
    split at h
    · rename_i d t hr
      by_cases hd : d = c
      · rw [if_pos hd] at h
        exact ⟨x.next t, Matches.char c x t (by rw [hr, hd]), h⟩
      · rw [if_neg hd] at h; cases h
    · cases h
  | cls rs =>
    intro x k z h
    rw [Re.run] at h
    split at h
    · rename_i d t hr
      by_cases hd : inRanges rs d = true
      · rw [if_pos hd] at h
        exact ⟨x.next t, Matches.cls rs x d t hr hd, h⟩
      · rw [if_neg hd] at h; cases h
    · cases h
  | seq a b iha ihb =>
    intro x k z h
    rw [Re.run] at h
    obtain ⟨y, hy, hk⟩ := iha _ _ _ h
    obtain ⟨y2, hy2, hk2⟩ := ihb _ _ _ hk
    exact ⟨y2, Matches.seq a b x y y2 hy hy2, hk2⟩
  | alt a b iha ihb =>
    intro x k z h
    rw [Re.run] at h
    split at h
    · rename_i z1 hz1
      cases h
      obtain ⟨y, hy, hk⟩ := iha _ _ _ hz1
      exact ⟨y, Matches.altL a b x y hy, hk⟩
    · obtain ⟨y, hy, hk⟩ := ihb _ _ _ h
      exact ⟨y, Matches.altR a b x y hy, hk⟩
  | quant lo hi r ih =>
    intro x k z h
    rw [Re.run] at h
    exact repeatMatcher_sound r ih _ _ _ _ _ _ h
  | group i r ih =>
    intro x k z h
    rw [Re.run] at h
    obtain ⟨y, hy, hk⟩ := ih _ _ _ h
    exact ⟨_, Matches.group i r x y hy, hk⟩
  | neglook r _ =>
    intro x k z h
    rw [Re.run] at h
    split at h
    · cases h
    · rename_i hn
      exact ⟨x, Matches.neglook r x hn, h⟩
  | bol =>
    intro x k z h
    rw [Re.run] at h
    by_cases hp : x.pos = 0
    · rw [if_pos hp] at h; exact ⟨x, Matches.bol x hp, h⟩
    · rw [if_neg hp] at h; cases h
  | eol =>
    intro x k z h
    rw [Re.run] at h
    by_cases hp : x.rest = []
    · rw [if_pos hp] at h; exact ⟨x, Matches.eol x hp, h⟩
    · rw [if_neg hp] at h; cases h

/-! ## Inversion of matches -/

/-- Every match only moves forward: the input before is the consumed text followed by the input after. -/
theorem Matches.advance {r : Re} {x y : MState} (h : Matches r x y) :
    ∃ ds, x.rest = ds ++ y.rest ∧ y.pos = x.pos + ds.length := by
  induction h with
  | empty x => exact ⟨[], rfl, rfl⟩
  | char c x t hr => exact ⟨[c], by simpa [MState.next] using hr, rfl⟩
  | cls rs x d t hr _ => exact ⟨[d], by simpa [MState.next] using hr, rfl⟩
  | seq a b x y z _ _ iha ihb =>
    obtain ⟨d1, h1, p1⟩ := iha
    obtain ⟨d2, h2, p2⟩ := ihb
    exact ⟨d1 ++ d2, by rw [h1, h2, List.append_assoc], by rw [p2, p1, List.length_append, Nat.add_assoc]⟩
  | altL a b x y _ ih => exact ih
  | altR a b x y _ ih => exact ih
  | quantStop lo hi r x _ => exact ⟨[], rfl, rfl⟩
  | quantStep lo hi r x y z _ _ _ _ iha ihb =>
    obtain ⟨d1, h1, p1⟩ := iha
    obtain ⟨d2, h2, p2⟩ := ihb
    exact ⟨d1 ++ d2, by simpa [h2] using h1, by rw [p2, p1, List.length_append, Nat.add_assoc]⟩
  | group i r x y _ ih => exact ih
  | neglook r x _ => exact ⟨[], rfl, rfl⟩
  | bol x _ => exact ⟨[], rfl, rfl⟩
  | eol x _ => exact ⟨[], rfl, rfl⟩

/-- A match leaves the groups that do not occur in the pattern as they were. -/
theorem Matches.frame {r : Re} {x y : MState} (h : Matches r x y) :
    ∀ i, i ∉ r.groups → y.caps i = x.caps i := by
  induction h with
  | empty x => intro i _; rfl
  | char c x t hr => intro i _; rfl
  | cls rs x d t hr _ => intro i _; rfl
  | seq a b x y z _ _ iha ihb =>
    intro i hi
    simp only [Re.groups, List.mem_append, not_or] at hi
    rw [ihb i hi.2, iha i hi.1]
  | altL a b x y _ ih =>
    intro i hi
    simp only [Re.groups, List.mem_append, not_or] at hi
    exact ih i hi.1
  | altR a b x y _ ih =>
    intro i hi
    simp only [Re.groups, List.mem_append, not_or] at hi
    exact ih i hi.2
  | quantStop lo hi r x _ => intro i _; rfl
  | quantStep lo hi r x y z _ _ _ _ iha ihb =>
    intro i hi
    simp only [Re.groups] at hi
    rw [ihb i (by simpa [Re.groups] using hi), iha i hi]
    simp [clearCaps, hi]
  | group i r x y _ ih =>
    intro j hj
    simp only [Re.groups, List.mem_cons, not_or] at hj
    simp only [setCap, if_neg hj.1]
    exact ih j hj.2
  | neglook r x _ => intro i _; rfl
  | bol x _ => intro i _; rfl
  | eol x _ => intro i _; rfl

/-- The text captured by a group is the text its body consumed. -/
theorem take_consumed {x y : MState} {ds : List Char}
    (h : x.rest = ds ++ y.rest) (p : y.pos = x.pos + ds.length) :
    x.rest.take (y.pos - x.pos) = ds := by
  rw [h, p, Nat.add_sub_cancel_left, List.take_left]

theorem Matches.group_inv {i : Nat} {r : Re} {x y : MState} (h : Matches (.group i r) x y) :
    ∃ y1, Matches r x y1 ∧ y = { y1 with caps := setCap y1.caps i (x.rest.take (y1.pos - x.pos)) } := by
  cases h with
  | group _ _ _ y1 h1 => exact ⟨y1, h1, rfl⟩

theorem Matches.seq_inv {a b : Re} {x z : MState} (h : Matches (.seq a b) x z) :
    ∃ y, Matches a x y ∧ Matches b y z := by
  cases h with
  | seq _ _ _ y _ h1 h2 => exact ⟨y, h1, h2⟩

theorem Matches.alt_inv {a b : Re} {x y : MState} (h : Matches (.alt a b) x y) :
    Matches a x y ∨ Matches b x y := by
  cases h with
  | altL _ _ _ _ h1 => exact Or.inl h1
  | altR _ _ _ _ h1 => exact Or.inr h1

theorem Matches.char_inv {c : Char} {x y : MState} (h : Matches (.char c) x y) :
    x.rest = c :: y.rest ∧ y.pos = x.pos + 1 ∧ y.caps = x.caps := by
  cases h with
  | char _ _ t hr => exact ⟨hr, rfl, rfl⟩

theorem Matches.cls_inv {rs : List (Char × Char)} {x y : MState} (h : Matches (.cls rs) x y) :
    ∃ d, inRanges rs d = true ∧ x.rest = d :: y.rest ∧ y.pos = x.pos + 1 ∧ y.caps = x.caps := by
  cases h with
  | cls _ _ d t hr hd => exact ⟨d, hd, hr, rfl, rfl⟩

/-- A quantifier whose upper bound is used up matches the empty text only. -/
theorem Matches.quant_zero_inv {lo : Nat} {r : Re} {x y : MState}
    (h : Matches (.quant lo (some 0) r) x y) : y = x := by
  cases h with
  | quantStop _ _ _ _ _ => rfl
  | quantStep _ _ _ _ _ _ h0 _ _ _ => exact absurd rfl h0

/-- An optional pattern either is skipped or matches once, from cleared groups. -/
theorem Matches.opt_inv {r : Re} {x y : MState} (h : Matches (.quant 0 (some 1) r) x y) :
    y = x ∨ Matches r { x with caps := clearCaps r.groups x.caps } y := by
  cases h with
  | quantStop _ _ _ _ _ => exact Or.inl rfl
  | quantStep _ _ _ _ y1 _ _ h1 _ h2 =>
    have : y = y1 := Matches.quant_zero_inv h2
    exact Or.inr (this ▸ h1)

/-- Texts matched by a quantified one-character pattern: the characters all
satisfy the pattern, and their number respects the bounds. -/
theorem Matches.quant_single_inv {r : Re} (P : Char → Prop) (hg : r.groups = [])
    (hr : ∀ x y, Matches r x y → ∃ d, P d ∧ x.rest = d :: y.rest ∧ y.pos = x.pos + 1 ∧ y.caps = x.caps)
    {q : Re} {x y : MState} (h : Matches q x y) :
    ∀ lo hi, q = .quant lo hi r →
    ∃ ds, (∀ d ∈ ds, P d) ∧ x.rest = ds ++ y.rest ∧ y.pos = x.pos + ds.length ∧ y.caps = x.caps ∧
      ((∀ n, hi = some n → lo ≤ n) → lo ≤ ds.length) ∧ ∀ n, hi = some n → ds.length ≤ n := by
  induction h with
  | quantStop lo1 hi1 r1 x hs =>
    intro lo hi hq
    cases hq
    refine ⟨[], by simp, rfl, rfl, rfl, ?_, by simp⟩
    rcases hs with h0 | h0
    · simp [h0]
    · intro hw; have := hw 0 h0; omega
  | quantStep lo1 hi1 r1 x y z hne h1 _ h2 _ ih2 =>
    intro lo hi hq
    cases hq
    obtain ⟨d, hd, hrest, hpos, hcaps⟩ := hr _ _ h1
    obtain ⟨ds, hds, hrest2, hpos2, hcaps2, hlo, hhi⟩ := ih2 _ _ rfl
    refine ⟨d :: ds, ?_, ?_, ?_, ?_, ?_, ?_⟩
    · intro e he
      rcases List.mem_cons.mp he with rfl | he
      · exact hd
      · exact hds e he
    · simpa [hrest2] using hrest
    · rw [hpos2, hpos]; simp; omega
    · rw [hcaps2, hcaps, hg]; exact clearCaps_nil _
    · intro hw
      have := hlo (fun n hn => by
        cases hi1 with
        | none => simp at hn
        | some m =>
          simp at hn
          have := hw m rfl
          omega)
      simp; omega
    · intro n hn
      subst hn
      have := hhi (n - 1) (by simp)
      have hn0 : n ≠ 0 := fun h => hne (by rw [h])
      simp; omega
  | _ => intro lo hi hq; cases hq

/-- The quantifier loop calls its continuation only on states reached by `Matches`. -/
theorem repeatMatcher_congr (r : Re)
    (ih : ∀ x k1 k2, (∀ y, Matches r x y → k1 y = k2 y) → r.run x k1 = r.run x k2) :
    ∀ fuel lo hi x k1 k2, (∀ y, Matches (.quant lo hi r) x y → k1 y = k2 y) →
      repeatMatcher (fun y c => r.run y c) r.groups fuel lo hi x k1 =
        repeatMatcher (fun y c => r.run y c) r.groups fuel lo hi x k2 := by
  intro fuel
  induction fuel with
  | zero => intro lo hi x k1 k2 _; rfl
  | succ fuel ihf =>
    intro lo hi x k1 k2 h
    rw [repeatMatcher, repeatMatcher]
    by_cases hhi : hi = some 0
    · rw [if_pos hhi, if_pos hhi]
      exact h x (Matches.quantStop lo hi r x (Or.inr hhi))
    · rw [if_neg hhi, if_neg hhi]
      have hstep : r.run { x with caps := clearCaps r.groups x.caps }
          (fun y => if lo = 0 ∧ y.pos = x.pos then none
            else repeatMatcher (fun y c => r.run y c) r.groups fuel (lo - 1)
              (hi.map (fun h => h - 1)) y k1) =
          r.run { x with caps := clearCaps r.groups x.caps }
          (fun y => if lo = 0 ∧ y.pos = x.pos then none
            else repeatMatcher (fun y c => r.run y c) r.groups fuel (lo - 1)
              (hi.map (fun h => h - 1)) y k2) := by
        apply ih
        intro y hy
        by_cases hc : lo = 0 ∧ y.pos = x.pos
        · simp only [hc, and_self, if_true]
        · simp only [hc, if_false]
          apply ihf
          intro z hz
          exact h z (Matches.quantStep lo hi r x y z hhi hy (fun h0 hp => hc ⟨h0, hp⟩) hz)
      simp only []
      rw [hstep]
      by_cases hlo : lo = 0
      · rw [if_neg (not_not.mpr hlo), if_neg (not_not.mpr hlo),
          h x (Matches.quantStop lo hi r x (Or.inl hlo))]
      · rw [if_pos hlo, if_pos hlo]

/-- The matcher calls its continuation only on states reached by `Matches`: continuations
that agree on those states give the same result. -/
theorem run_congr (r : Re) :
    ∀ x k1 k2, (∀ y, Matches r x y → k1 y = k2 y) → r.run x k1 = r.run x k2 := by
  induction r with
  | empty => intro x k1 k2 h; exact h x (Matches.empty x)
  | char c =>
    intro x k1 k2 h
    rw [Re.run, Re.run]
    split
    · rename_i d t hr
      by_cases hd : d = c
      · rw [if_pos hd, if_pos hd]
        exact h _ (Matches.char c x t (by rw [hr, hd]))
      · rw [if_neg hd, if_neg hd]
    · rfl
  | cls rs =>
    intro x k1 k2 h
    rw [Re.run, Re.run]
    split
    · rename_i d t hr
      by_cases hd : inRanges rs d = true
      · rw [if_pos hd, if_pos hd]
        exact h _ (Matches.cls rs x d t hr hd)
      · rw [if_neg hd, if_neg hd]
    · rfl
  | seq a b iha ihb =>
    intro x k1 k2 h
    rw [Re.run, Re.run]
    apply iha
    intro y hy
    apply ihb
    intro z hz
    exact h z (Matches.seq a b x y z hy hz)
  | alt a b iha ihb =>
    intro x k1 k2 h
    rw [Re.run, Re.run]
    rw [iha x k1 k2 (fun y hy => h y (Matches.altL a b x y hy)),
      ihb x k1 k2 (fun y hy => h y (Matches.altR a b x y hy))]
  | quant lo hi r ih =>
    intro x k1 k2 h
    rw [Re.run, Re.run]
    exact repeatMatcher_congr r ih _ _ _ _ _ _ h
  | group i r ih =>
    intro x k1 k2 h
    rw [Re.run, Re.run]
    apply ih
    intro y hy
    exact h _ (Matches.group i r x y hy)
  | neglook r _ =>
    intro x k1 k2 h
    rw [Re.run, Re.run]
    cases hn : r.run x some with
    | some z => rfl
    | none => exact h x (Matches.neglook r x hn)
  | bol =>
    intro x k1 k2 h
    rw [Re.run, Re.run]
    by_cases hp : x.pos = 0
    · rw [if_pos hp, if_pos hp]; exact h x (Matches.bol x hp)
    · rw [if_neg hp, if_neg hp]
  | eol =>
    intro x k1 k2 h
    rw [Re.run, Re.run]
    by_cases hp : x.rest = []
    · rw [if_pos hp, if_pos hp]; exact h x (Matches.eol x hp)
    · rw [if_neg hp, if_neg hp]

/-- The fuel of the quantifier loop is never used up: above the lower bound plus the length
of the remaining input, every amount of fuel gives the same result. -/
theorem repeatMatcher_fuel (r : Re) :
    ∀ fuel1 fuel2 lo hi x k, lo + x.rest.length < fuel1 → lo + x.rest.length < fuel2 →
      repeatMatcher (fun y c => r.run y c) r.groups fuel1 lo hi x k =
        repeatMatcher (fun y c => r.run y c) r.groups fuel2 lo hi x k := by
  intro fuel1
  induction fuel1 with
  | zero => intro fuel2 lo hi x k h; omega
  | succ f1 ih =>
    intro fuel2 lo hi x k h1 h2
    obtain ⟨f2, rfl⟩ : ∃ f2, fuel2 = f2 + 1 := ⟨fuel2 - 1, by omega⟩
    rw [repeatMatcher, repeatMatcher]
    by_cases hhi : hi = some 0
    · rw [if_pos hhi, if_pos hhi]
    · rw [if_neg hhi, if_neg hhi]
      have hstep : r.run { x with caps := clearCaps r.groups x.caps }
          (fun y => if lo = 0 ∧ y.pos = x.pos then none
            else repeatMatcher (fun y c => r.run y c) r.groups f1 (lo - 1)
              (hi.map (fun h => h - 1)) y k) =
          r.run { x with caps := clearCaps r.groups x.caps }
          (fun y => if lo = 0 ∧ y.pos = x.pos then none
            else repeatMatcher (fun y c => r.run y c) r.groups f2 (lo - 1)
              (hi.map (fun h => h - 1)) y k) := by
        apply run_congr
        intro y hy
        by_cases hc : lo = 0 ∧ y.pos = x.pos
        · simp only [hc, and_self, if_true]
        · simp only [hc, if_false]
          obtain ⟨ds, hr, hp⟩ := Matches.advance hy
          simp only at hr hp
          have hlen := congrArg List.length hr
          simp only [List.length_append] at hlen
          have hb : lo - 1 + y.rest.length < f1 ∧ lo - 1 + y.rest.length < f2 := by
            by_cases hlo : lo = 0
            · have : y.pos ≠ x.pos := fun e => hc ⟨hlo, e⟩
              omega
            · omega
          exact ih f2 _ _ y k hb.1 hb.2
      simp only []
      rw [hstep]

theorem char_of_toNat {d : Char} {n : Nat} (h : d.toNat = n) : d = Char.ofNat n := by
  rw [← h, Char.ofNat_toNat]

theorem inRanges_single {c d : Char} (h : inRanges [(c, c)] d = true) : d = c := by
  simp [inRanges] at h
  have : d.toNat = c.toNat := by omega
  rw [← Char.ofNat_toNat d, this, Char.ofNat_toNat]

theorem inRanges_cons (r : Char × Char) (rs : List (Char × Char)) (d : Char) :
    inRanges (r :: rs) d = ((decide (r.1.toNat ≤ d.toNat) && decide (d.toNat ≤ r.2.toNat)) || inRanges rs d) := by
  simp [inRanges]

theorem numeral_inv {x y : MState} (h : Matches numeralRe x y) :
    ∃ t, IsNumeral t ∧ x.rest = t ++ y.rest ∧ y.pos = x.pos + t.length ∧ y.caps = x.caps := by
  obtain ⟨y1, h1, h2⟩ := Matches.seq_inv h
  obtain ⟨c, hc, hr, hp, hcaps⟩ := Matches.cls_inv h1
  obtain ⟨ds, hds, hr2, hp2, hcaps2, _, _⟩ :=
    Matches.quant_single_inv (fun d => inRanges [('0', '9')] d = true) (r := digitCls) rfl
      (fun x y hm => Matches.cls_inv hm) h2 0 none rfl
  refine ⟨c :: ds, ⟨c, ds, rfl, hc, hds⟩, ?_, ?_, ?_⟩
  · rw [hr, hr2]; rfl
  · rw [hp2, hp]; simp; omega
  · rw [hcaps2, hcaps]

/-- Texts of the sides group. -/
theorem sides_inv {x y : MState} (h : Matches sidesRe x y) :
    ∃ t, (IsNumeral t ∨ t = ['%'] ∨ t = ['F'] ∨ t = ['F', '.', '1'] ∨ t = ['F', '.', '2']) ∧
      x.rest = t ++ y.rest ∧ y.pos = x.pos + t.length := by
  rcases Matches.alt_inv h with h | h
  · obtain ⟨t, ht, hr, hp, _⟩ := numeral_inv h
    exact ⟨t, Or.inl ht, hr, hp⟩
  · rcases Matches.alt_inv h with h | h
    · obtain ⟨hr, hp, _⟩ := Matches.char_inv h
      exact ⟨['%'], by simp, hr, hp⟩
    · obtain ⟨y1, h1, h2⟩ := Matches.seq_inv h
      obtain ⟨hr, hp, _⟩ := Matches.char_inv h1
      rcases Matches.opt_inv h2 with h2 | h2
      · subst h2
        exact ⟨['F'], by simp, hr, hp⟩
      · obtain ⟨y2, h3, h4⟩ := Matches.seq_inv h2
        obtain ⟨hr3, hp3, _⟩ := Matches.char_inv h3
        obtain ⟨y3, h5, h6⟩ := Matches.group_inv h4
        obtain ⟨d, hd, hr5, hp5, _⟩ := Matches.cls_inv h5
        have hy : y.rest = y3.rest ∧ y.pos = y3.pos := by rw [h6]; exact ⟨rfl, rfl⟩
        simp only at hr3 hp3
        have hd2 : d = '1' ∨ d = '2' := by
          rw [inRanges_cons] at hd
          simp only [Bool.or_eq_true] at hd
          rcases hd with hd | hd
          · exact Or.inl (inRanges_single (by simpa [inRanges] using hd))
          · exact Or.inr (inRanges_single hd)
        rcases hd2 with rfl | rfl
        · exact ⟨['F', '.', '1'], by simp, by rw [hr, hr3, hr5, hy.1]; rfl, by rw [hy.2, hp5, hp3, hp]; rfl⟩
        · exact ⟨['F', '.', '2'], by simp, by rw [hr, hr3, hr5, hy.1]; rfl, by rw [hy.2, hp5, hp3, hp]; rfl⟩

/-- Texts of the explode group. -/
theorem explode_inv {x y : MState} (h : Matches explodeRe x y) :
    ∃ t, (t = ['!'] ∨ t = ['!', '!'] ∨ t = ['!', 'p'] ∨ t = ['!', '!', 'p']) ∧
      x.rest = t ++ y.rest ∧ y.pos = x.pos + t.length ∧ y.caps = x.caps := by
  obtain ⟨y1, h1, h2⟩ := Matches.seq_inv h
  obtain ⟨ds, hds, hr, hp, hcaps, hlo, hhi⟩ :=
    Matches.quant_single_inv (fun d => d = '!') (r := .char '!') rfl
      (fun x y hm => ⟨'!', rfl, Matches.char_inv hm⟩) h1 1 (some 2) rfl
  have hlen1 := hlo (by intro n hn; cases hn; decide)
  have hlen2 := hhi 2 rfl
  have hds2 : ds = ['!'] ∨ ds = ['!', '!'] := by
    match ds, hds, hlen1, hlen2 with
    | [a], hds, _, _ => left; rw [hds a (by simp)]
    | [a, b], hds, _, _ => right; rw [hds a (by simp), hds b (by simp)]
    | [], _, h, _ => simp at h
    | _ :: _ :: _ :: _, _, _, h => simp at h
  rcases Matches.opt_inv h2 with h2 | h2
  · subst h2
    rcases hds2 with rfl | rfl
    · exact ⟨_, Or.inl rfl, hr, hp, hcaps⟩
    · exact ⟨_, Or.inr (Or.inl rfl), hr, hp, hcaps⟩
  · obtain ⟨hr2, hp2, hcaps2⟩ := Matches.char_inv h2
    simp only at hr2 hp2 hcaps2
    have hc : y.caps = x.caps := by
      rw [hcaps2, hcaps]; exact clearCaps_nil _
    rcases hds2 with rfl | rfl
    · exact ⟨_, Or.inr (Or.inr (Or.inl rfl)), by rw [hr, hr2]; rfl, by rw [hp2, hp]; rfl, hc⟩
    · exact ⟨_, Or.inr (Or.inr (Or.inr rfl)), by rw [hr, hr2]; rfl, by rw [hp2, hp]; rfl, hc⟩

/-- Texts of the comparison operator group are not empty. -/
theorem compOp_inv {x y : MState} (h : Matches compOpRe x y) :
    ∃ t, t ≠ [] ∧ x.rest = t ++ y.rest ∧ y.pos = x.pos + t.length := by
  obtain ⟨t, hr, hp⟩ := Matches.advance h
  refine ⟨t, ?_, hr, hp⟩
  intro ht
  subst ht
  simp only [List.length_nil, Nat.add_zero] at hp
  rcases Matches.alt_inv h with h | h
  · obtain ⟨y1, h1, h2⟩ := Matches.seq_inv h
    obtain ⟨t1, _, hp1⟩ := Matches.advance h1
    obtain ⟨ds, hds, hr2, hp2, hcaps, hlo, hhi⟩ :=
      Matches.quant_single_inv (fun d => d = '=') (r := .char '=') rfl
        (fun x y hm => ⟨'=', rfl, Matches.char_inv hm⟩) h2 1 (some 3) rfl
    have hlen1 := hlo (by intro n hn; cases hn; decide)
    omega
  · obtain ⟨d, _, _, hp1, _⟩ := Matches.cls_inv h
    omega

/-- The number comparison sets groups 6 and 7: a non-empty operator and a non-empty run of digits. -/
theorem comp_inv {x y : MState} (h : Matches compRe x y) :
    ∃ o v, y.caps 6 = some o ∧ o ≠ [] ∧ y.caps 7 = some v ∧ v ≠ [] ∧
      (∀ d ∈ v, inRanges [('0', '9')] d = true) ∧
      x.rest = o ++ v ++ y.rest ∧ y.pos = x.pos + (o ++ v).length := by
  obtain ⟨y1, h1, h2⟩ := Matches.seq_inv h
  obtain ⟨y6, h6, e6⟩ := Matches.group_inv h1
  obtain ⟨y7, h7, e7⟩ := Matches.group_inv h2
  obtain ⟨o, ho, hr6, hp6⟩ := compOp_inv h6
  obtain ⟨v, hv, hr7, hp7, hcaps7, hlo, _⟩ :=
    Matches.quant_single_inv (fun d => inRanges [('0', '9')] d = true) (r := digitCls) rfl
      (fun x y hm => Matches.cls_inv hm) h7 1 none rfl
  have hlen := hlo (by intro n hn; cases hn)
  have h1r : y1.rest = y6.rest ∧ y1.pos = y6.pos := by rw [e6]; exact ⟨rfl, rfl⟩
  rw [h1r.1] at hr7
  rw [h1r.2] at hp7
  refine ⟨o, v, ?_, ho, ?_, ?_, hv, ?_, ?_⟩
  · rw [e7]
    simp only [setCap]
    rw [if_neg (by decide), hcaps7, e6]
    simp only [setCap, if_true]
    rw [take_consumed hr6 hp6]
  · rw [e7]
    simp only [setCap, if_true]
    rw [take_consumed (x := y1) (by rw [h1r.1]; exact hr7) (by rw [h1r.2]; exact hp7)]
  · intro hv0; subst hv0; simp at hlen
  · rw [e7]; simp only; rw [hr6, hr7, List.append_assoc]
  · rw [e7]; simp only; rw [hp7, hp6, List.length_append, Nat.add_assoc]

/-- The groups after a match of the notation pattern that started with no group set,
and the text consumed, which contains the letter `d`. -/
theorem notation_inv {x y : MState} (h : Matches notationRe x y) (hx : x.caps = noCaps) :
    NotationCaps y.caps ∧
      ∃ ds, 'd' ∈ ds ∧ x.rest = ds ++ y.rest ∧ y.pos = x.pos + ds.length := by
  obtain ⟨y1, hA, hA'⟩ := Matches.seq_inv h
  obtain ⟨y2, hB, hB'⟩ := Matches.seq_inv hA'
  obtain ⟨y3, hC, hC'⟩ := Matches.seq_inv hB'
  obtain ⟨y4, hD, hT⟩ := Matches.seq_inv hC'
  obtain ⟨y5, hE, hE'⟩ := Matches.seq_inv hT
  obtain ⟨y6, hF, hG⟩ := Matches.seq_inv hE'
  have x0 : ∀ i, x.caps i = none := fun i => by rw [hx]; rfl
  -- positions
  obtain ⟨d1, r1, p1⟩ := Matches.advance hA
  obtain ⟨d2, r2, p2⟩ := Matches.advance hB
  obtain ⟨r3, p3, _⟩ := Matches.char_inv hC
  obtain ⟨d4, r4, p4⟩ := Matches.advance hC'
  refine ⟨⟨?_, ?_, ?_, ?_, ?_, ?_⟩, d1 ++ d2 ++ 'd' :: d4, by simp, ?_, ?_⟩
  · -- group 1
    rw [Matches.frame hA' 1 (by decide)]
    rcases Matches.opt_inv hA with e | hm
    · left; rw [e]; exact x0 1
    · right
      obtain ⟨y0, h0, e0⟩ := Matches.group_inv hm
      obtain ⟨c, hc, hr, hp, _⟩ := Matches.cls_inv h0
      refine ⟨c, hc, ?_⟩
      rw [e0]
      simp only [setCap, if_true]
      rw [@take_consumed _ _ [c] hr hp]
  · -- group 2
    rw [Matches.frame hB' 2 (by decide)]
    rcases Matches.opt_inv hB with e | hm
    · left; rw [e, Matches.frame hA 2 (by decide)]; exact x0 2
    · right
      obtain ⟨y0, h0, e0⟩ := Matches.group_inv hm
      obtain ⟨t, ht, hr, hp, _⟩ := numeral_inv h0
      refine ⟨t, ht, ?_⟩
      rw [e0]
      simp only [setCap, if_true]
      rw [take_consumed hr hp]
  · -- group 3
    rw [Matches.frame hT 3 (by decide)]
    obtain ⟨y0, h0, e0⟩ := Matches.group_inv hD
    obtain ⟨t, ht, hr, hp⟩ := sides_inv h0
    refine ⟨t, ?_, ht⟩
    rw [e0]
    simp only [setCap, if_true]
    rw [take_consumed hr hp]
  · -- group 5
    rw [Matches.frame hE' 5 (by decide)]
    rcases Matches.opt_inv hE with e | hm
    · left
      rw [e, Matches.frame hD 5 (by decide), Matches.frame hC 5 (by decide),
        Matches.frame hB 5 (by decide), Matches.frame hA 5 (by decide)]
      exact x0 5
    · right
      obtain ⟨y0, h0, e0⟩ := Matches.group_inv hm
      obtain ⟨t, ht, hr, hp, _⟩ := explode_inv h0
      have : y5.caps 5 = some t := by
        rw [e0]
        simp only [setCap, if_true]
        rw [take_consumed hr hp]
      rw [this]
      rcases ht with rfl | rfl | rfl | rfl <;> simp
  · -- groups 6 and 7
    rw [Matches.frame hG 6 (by decide), Matches.frame hG 7 (by decide)]
    rcases Matches.opt_inv hF with e | hm
    · left
      have back : ∀ i, i ∉ [1, 2, 3, 4, 5] → y5.caps i = none := by
        intro i hi
        simp only [List.mem_cons, List.mem_singleton, not_or, List.not_mem_nil, or_false] at hi
        rw [Matches.frame hE i (by simp [Re.groups, explodeRe]; omega),
          Matches.frame hD i (by simp [Re.groups, sidesRe, numeralRe, nzCls, digitCls, fudgeRe]; omega),
          Matches.frame hC i (by simp [Re.groups]),
          Matches.frame hB i (by simp [Re.groups, numeralRe, nzCls, digitCls]; omega),
          Matches.frame hA i (by simp [Re.groups, arithCls]; omega)]
        exact x0 i
      rw [e]
      exact ⟨back 6 (by decide), back 7 (by decide)⟩
    · right
      obtain ⟨o, v, h6, ho, h7, hv, hd, _, _⟩ := comp_inv hm
      exact ⟨o, v, h6, ho, h7, hv, hd⟩
  · -- group 8
    obtain ⟨y0, h0, e0⟩ := Matches.group_inv hG
    rw [e0]
    exact ⟨y6.rest.take (y0.pos - y6.pos), by simp [setCap]⟩
  · rw [r1, r2, r3, r4]; simp
  · rw [p4, p3, p2, p1]; simp; omega

/-- What `search` returns is a match of the pattern at the reported position. -/
theorem search_sound (re : Re) : ∀ rest pos i y, re.search pos rest = some (i, y) →
    ∃ pre suf y0, rest = pre ++ suf ∧ i = pos + pre.length ∧
      Matches re ⟨i, suf, noCaps⟩ y0 ∧ y.pos = y0.pos ∧ y.rest = y0.rest ∧
      ∀ j, j ≠ 0 → y.caps j = y0.caps j := by
  intro rest
  induction rest with
  | nil =>
    intro pos i y h
    rw [Re.search] at h
    cases hr : re.run ⟨pos, [], noCaps⟩ some with
    | none => rw [hr] at h; cases h
    | some y1 =>
      rw [hr] at h
      simp only [Option.map_some', Option.some.injEq, Prod.mk.injEq] at h
      obtain ⟨y0, hm, hk⟩ := run_sound re _ _ _ hr
      cases hk
      obtain ⟨hi, hy⟩ := h
      subst hi
      subst hy
      exact ⟨[], [], y1, rfl, rfl, hm, rfl, rfl, fun j hj => by simp [setCap, hj]⟩
  | cons c t ih =>
    intro pos i y h
    rw [Re.search] at h
    cases hr : re.run ⟨pos, c :: t, noCaps⟩ some with
    | none =>
      rw [hr] at h
      obtain ⟨pre, suf, y0, h1, h2, h3⟩ := ih _ _ _ h
      exact ⟨c :: pre, suf, y0, by rw [h1]; rfl, by rw [h2]; simp; omega, h3⟩
    | some y1 =>
      rw [hr] at h
      simp only [Option.some.injEq, Prod.mk.injEq] at h
      obtain ⟨y0, hm, hk⟩ := run_sound re _ _ _ hr
      cases hk
      obtain ⟨hi, hy⟩ := h
      subst hi
      subst hy
      exact ⟨[], c :: t, y1, rfl, rfl, hm, rfl, rfl, fun j hj => by simp [setCap, hj]⟩

/-- A failed `exec` of a global pattern resets `lastIndex` to 0. -/
theorem exec_none (re : Re) (li : Nat) (text : List Char) (li1 : Nat)
    (h : (RegExp.mk re true).exec li text = (none, li1)) : li1 = 0 := by
  simp only [RegExp.exec, if_true] at h
  split at h
  · cases h; rfl
  · split at h
    · cases h; rfl
    · cases h

/-- A successful `exec` of a global pattern: the match found is a match of the
pattern inside the input, at or after `lastIndex`, and `lastIndex` moves to its end. -/
theorem exec_some (re : Re) (li : Nat) (text : List Char) (m : Match) (li1 : Nat)
    (h : (RegExp.mk re true).exec li text = (some m, li1)) :
    li1 = m.endIndex ∧ li ≤ m.index ∧
    ∃ suf y0, Matches re ⟨m.index, suf, noCaps⟩ y0 ∧ m.endIndex = y0.pos ∧
      (∀ j, j ≠ 0 → m.caps j = y0.caps j) ∧
      m.index + suf.length = text.length ∧ suf <:+ text ∧ m.size = re.groups.length + 1 := by
  simp only [RegExp.exec, if_true] at h
  split at h
  · cases h
  · rename_i hlen
    split at h
    · cases h
    · rename_i i y hs
      simp only [Prod.mk.injEq, Option.some.injEq] at h
      obtain ⟨hm, hli⟩ := h
      subst hm
      obtain ⟨pre, suf, y0, h1, h2, h3, h4, _, h6⟩ := search_sound re _ _ _ _ hs
      refine ⟨by rw [← hli], by simp only; omega, suf, y0, h3, h4, h6, ?_, ?_, rfl⟩
      · have := congrArg List.length h1
        simp at this
        simp only
        omega
      · have : text = text.take li ++ (pre ++ suf) := by rw [← h1, List.take_append_drop]
        exact ⟨text.take li ++ pre, by rw [List.append_assoc, ← this]⟩

/-- A successful `exec` of the global notation pattern moves `lastIndex` forward, within the
input, and its groups are those of a notation match. -/
theorem exec_notation_some (li : Nat) (text : List Char) (m : Match) (li1 : Nat)
    (h : (RegExp.mk notationRe true).exec li text = (some m, li1)) :
    NotationCaps m.caps ∧ li < li1 ∧ li1 ≤ text.length ∧ 'd' ∈ text ∧ m.size = 11 := by
  obtain ⟨h1, h2, suf, y0, hm, he, hc, hlen, hsuf, hsize⟩ := exec_some _ _ _ _ _ h
  obtain ⟨hcaps, ds, hd, hr, hp⟩ := notation_inv hm rfl
  simp only at hr hp
  refine ⟨?_, ?_, ?_, ?_, hsize⟩
  · exact
      { op := by rw [hc 1 (by decide)]; exact hcaps.op
        qty := by rw [hc 2 (by decide)]; exact hcaps.qty
        sides := by rw [hc 3 (by decide)]; exact hcaps.sides
        explode := by rw [hc 5 (by decide)]; exact hcaps.explode
        comp := by rw [hc 6 (by decide), hc 7 (by decide)]; exact hcaps.comp
        adds := by rw [hc 8 (by decide)]; exact hcaps.adds }
  · have : 0 < ds.length := List.length_pos_of_mem hd
    omega
  · have := congrArg List.length hr
    simp at this
    omega
  · exact hsuf.subset (by rw [hr]; simp [hd])

/-- A successful `exec` of the global addition pattern moves `lastIndex` forward, within the input. -/
theorem exec_addition_some (li : Nat) (text : List Char) (m : Match) (li1 : Nat)
    (h : (RegExp.mk additionRe true).exec li text = (some m, li1)) :
    li < li1 ∧ li1 ≤ text.length := by
  obtain ⟨h1, h2, suf, y0, hm, he, hc, hlen, hsuf, _⟩ := exec_some _ _ _ _ _ h
  obtain ⟨y1, hA, hB⟩ := Matches.seq_inv hm
  obtain ⟨y2, hA2, e2⟩ := Matches.group_inv hA
  obtain ⟨d, _, hr, hp, _⟩ := Matches.cls_inv hA2
  obtain ⟨ds, hr2, hp2⟩ := Matches.advance hB
  have hy1 : y1.rest = y2.rest ∧ y1.pos = y2.pos := by rw [e2]; exact ⟨rfl, rfl⟩
  simp only at hr hp
  rw [hy1.1] at hr2
  rw [hy1.2] at hp2
  have l1 := congrArg List.length hr
  have l2 := congrArg List.length hr2
  simp only [List.length_cons, List.length_append] at l1 l2
  constructor
  · omega
  · omega

/-! ## Termination of the loops, invariants of the trace -/

/-- The inner loop always finishes, and leaves the addition pattern at position 0. -/
theorem additionsLoop_total (text : List Char) : ∀ fuel li acc,
    text.length < li + fuel → 1 ≤ fuel →
    ∃ adds, additionsLoop text fuel li acc = some (adds, 0) := by
  intro fuel
  induction fuel with
  | zero => intro li acc _ h; omega
  | succ fuel ih =>
    intro li acc hlen _
    rw [additionsLoop, get_addition_g]
    simp only
    cases he : (RegExp.mk additionRe true).exec li text with
    | mk om li1 =>
      cases om with
      | none =>
        have := exec_none _ _ _ _ he
        subst this
        exact ⟨acc, rfl⟩
      | some m =>
        obtain ⟨h1, h2⟩ := exec_addition_some _ _ _ _ he
        exact ih _ _ (by omega) (by omega)

/-- The fudge test never raises. -/
theorem fudgeOf_total (sides : Value) : ∃ f, fudgeOf sides = some f := by
  cases sides with
  | str s =>
    simp only [fudgeOf, get_fudge_whole]
    cases (RegExp.exec ⟨fudgeWholeRe, false⟩ 0 s.toList).1 with
    | none => exact ⟨_, rfl⟩
    | some m => exact ⟨_, rfl⟩
  | _ => exact ⟨_, rfl⟩

/-- The loop body never raises. -/
theorem dieOfMatch_total (m : Match) (ai : Nat) :
    ∃ die ai1, dieOfMatch m ai = some (die, ai1) ∧ (ai1 = 0 ∨ ai1 = ai) := by
  obtain ⟨f, hf⟩ := fudgeOf_total (if isNumeric (m.get 3) then parseInt (m.get 3) else m.get 3)
  by_cases h8 : (m.get 8).truthy = true
  · obtain ⟨adds, ha⟩ := additionsLoop_total (m.get 8).toText ((m.get 8).toText.length + 1) ai []
      (by omega) (by omega)
    unfold dieOfMatch
    simp only [hf, h8, if_true, ha]
    exact ⟨_, _, rfl, Or.inl rfl⟩
  · unfold dieOfMatch
    simp only [hf, h8]
    exact ⟨_, _, rfl, Or.inr rfl⟩

/-- The outer loop always finishes, and leaves the notation pattern at position 0. -/
theorem parseLoop_total (text : List Char) : ∀ fuel cache acc,
    text.length < cache.notationIdx + fuel → 1 ≤ fuel →
    ∃ tr c1, parseLoop ⟨notationRe, true⟩ text fuel cache acc = some (tr, c1) ∧
      c1.notationIdx = 0 := by
  intro fuel
  induction fuel with
  | zero => intro cache acc _ h; omega
  | succ fuel ih =>
    intro cache acc hlen _
    rw [parseLoop]
    cases he : (RegExp.mk notationRe true).exec cache.notationIdx text with
    | mk om li1 =>
      cases om with
      | none =>
        have := exec_none _ _ _ _ he
        subst this
        exact ⟨acc, _, rfl, rfl⟩
      | some m =>
        obtain ⟨_, h1, h2, _⟩ := exec_notation_some _ _ _ _ he
        obtain ⟨die, ai1, hd, _⟩ := dieOfMatch_total m cache.additionIdx
        simp only [hd]
        exact ih _ _ (show text.length < li1 + fuel by omega) (by omega)

/-- Whatever holds of every step of the outer loop holds of everything it returns. -/
theorem parseLoop_forall (P : List Value × Die → Prop) (pattern : RegExp) (text : List Char)
    (hstep : ∀ li m li1 ai die ai1, pattern.exec li text = (some m, li1) →
      dieOfMatch m ai = some (die, ai1) → P (m.toArray, die)) :
    ∀ fuel cache acc tr c1, parseLoop pattern text fuel cache acc = some (tr, c1) →
      (∀ p ∈ acc, P p) → ∀ p ∈ tr, P p := by
  intro fuel
  induction fuel with
  | zero => intro cache acc tr c1 h; simp [parseLoop] at h
  | succ fuel ih =>
    intro cache acc tr c1 h hacc
    rw [parseLoop] at h
    cases he : pattern.exec cache.notationIdx text with
    | mk om li1 =>
      rw [he] at h
      cases om with
      | none =>
        simp only [Option.some.injEq, Prod.mk.injEq] at h
        rw [← h.1]; exact hacc
      | some m =>
        simp only at h
        cases hd : dieOfMatch m cache.additionIdx with
        | none => rw [hd] at h; cases h
        | some r =>
          obtain ⟨die, ai1⟩ := r
          rw [hd] at h
          simp only at h
          refine ih _ _ _ _ h ?_
          intro p hp
          rcases List.mem_append.mp hp with hp | hp
          · exact hacc p hp
          · rw [List.mem_singleton.mp hp]
            exact hstep _ _ _ _ _ _ he hd

/-- Every step recorded by `parseNotationTrace` is the array of a match of the notation
pattern together with the die the loop body builds from it. -/
theorem trace_steps (cache : PatternCache) (text : Value) (tr : List (List Value × Die))
    (c1 : PatternCache) (h : parseNotationTrace cache text = some (tr, c1)) :
    ∀ p ∈ tr, ∃ m, p.1 = m.toArray ∧ m.size = 11 ∧ NotationCaps m.caps ∧
      ∃ ai ai1, dieOfMatch m ai = some (p.2, ai1) := by
  unfold parseNotationTrace at h
  by_cases ht : text.truthy = true
  · rw [if_pos ht, get_notation_g] at h
    simp only at h
    refine parseLoop_forall _ _ _ ?_ _ _ _ _ _ h (by simp)
    intro li m li1 ai die ai1 he hd
    exact ⟨m, rfl, (exec_notation_some _ _ _ _ he).2.2.2.2, (exec_notation_some _ _ _ _ he).1,
      ai, ai1, hd⟩
  · rw [if_neg ht] at h
    simp only [Option.some.injEq, Prod.mk.injEq] at h
    rw [← h.1]; simp

/-- The dice returned by `parseNotation` are the dice of the steps of the trace. -/
theorem parseNotation_steps (text : Value) (dice : List Die)
    (h : parseNotation text = some dice) :
    ∀ die ∈ dice, ∃ m, NotationCaps m.caps ∧ ∃ ai ai1, dieOfMatch m ai = some (die, ai1) := by
  unfold parseNotation at h
  cases ht : parseNotationTrace ⟨0, 0⟩ text with
  | none => rw [ht] at h; cases h
  | some r =>
    obtain ⟨tr, c1⟩ := r
    rw [ht] at h
    simp only [Option.map_some', Option.some.injEq] at h
    intro die hdie
    rw [← h] at hdie
    obtain ⟨p, hp, rfl⟩ := List.mem_map.mp hdie
    obtain ⟨m, _, _, h1, h2⟩ := trace_steps _ _ _ _ ht p hp
    exact ⟨m, h1, h2⟩

/-- The parser finishes without raising, from any state of the cached patterns. -/
theorem parseNotationTrace_total (cache : PatternCache) (text : Value) :
    ∃ tr c1, parseNotationTrace cache text = some (tr, c1) := by
  unfold parseNotationTrace
  by_cases ht : text.truthy = true
  · rw [if_pos ht, get_notation_g]
    simp only
    obtain ⟨tr, c1, h, _⟩ := parseLoop_total text.toText (text.toText.length + 1) cache []
      (by omega) (by omega)
    exact ⟨tr, c1, h⟩
  · rw [if_neg ht]; exact ⟨_, _, rfl⟩

/-! ## Numerals and the fields of a die -/

theorem inRanges_one {lo hi d : Char} :
    inRanges [(lo, hi)] d = true ↔ lo.toNat ≤ d.toNat ∧ d.toNat ≤ hi.toNat := by
  simp [inRanges]

theorem parseDigits_ge : ∀ cs acc, acc ≤ parseDigits cs acc := by
  intro cs
  induction cs with
  | nil => intro acc; simp [parseDigits]
  | cons c cs ih =>
    intro acc
    rw [parseDigits]
    split
    · have := ih (10 * acc + digitValue c); omega
    · exact Nat.le_refl _

/-- On a numeral `parseInt` returns its value, which is at least 1. -/
theorem parseInt_numeral {t : List Char} (h : IsNumeral t) :
    parseInt (.str (String.mk t)) = toDouble (parseDigits t 0 : Nat) ∧ 1 ≤ parseDigits t 0 := by
  obtain ⟨c, cs, rfl, hc, _⟩ := h
  rw [inRanges_one] at hc
  have h1 : ('1' : Char).toNat = 49 := by decide
  have h9 : ('9' : Char).toNat = 57 := by decide
  rw [h1, h9] at hc
  have hd : isDigit c = true := by simp [isDigit]; omega
  have hw : isWhiteSpace c = false := by
    simp [isWhiteSpace]; omega
  have hm : c ≠ '-' := by
    intro e; rw [e] at hc; revert hc; decide
  have hp : c ≠ '+' := by
    intro e; rw [e] at hc; revert hc; decide
  constructor
  · simp only [parseInt, parseIntText, Value.toText, String.toList]
    rw [List.dropWhile_cons_of_neg (by simp [hw])]
    split
    · rename_i heq; simp at heq; exact absurd heq.1 hm
    · rename_i heq; simp at heq; exact absurd heq.1 hp
    · simp [parseUnsigned, hd]
  · rw [parseDigits, if_pos hd]
    have := parseDigits_ge cs (10 * 0 + digitValue c)
    have : 1 ≤ digitValue c := by simp [digitValue]; omega
    omega

/-- A numeral is numeric exactly when the integer it writes rounds to a finite double. -/
theorem isNumeric_numeral {t : List Char} (h : IsNumeral t) :
    isNumeric (.str (String.mk t)) = (toDouble (parseDigits t 0 : Nat)).isFinite := by
  have hne : (Value.str (String.mk t) != Value.nan) = true := by simp
  rw [isNumeric, (parseInt_numeral h).1, hne, Bool.true_and]

/-- A numeral whose value is below `2 ^ 53` is numeric, and `parseInt` returns the
value. -/
theorem numeral_small {t : List Char} (h : IsNumeral t) (hb : parseDigits t 0 < 2 ^ 53) :
    isNumeric (.str (String.mk t)) = true ∧
      parseInt (.str (String.mk t)) = .num (parseDigits t 0 : Nat) := by
  rw [isNumeric_numeral h, (parseInt_numeral h).1, toDouble_nat _ hb]
  exact ⟨rfl, rfl⟩

/-- What `parseInt` and `isNumeric` make of a numeral: a natural number of at least 1, or
`Infinity`, which is not numeric. -/
theorem numeral_cases {t : List Char} (h : IsNumeral t) :
    (parseInt (.str (String.mk t)) = .inf false ∧ isNumeric (.str (String.mk t)) = false) ∨
    (∃ m : Nat, 1 ≤ m ∧ parseInt (.str (String.mk t)) = .num (m : ℚ) ∧
      isNumeric (.str (String.mk t)) = true) := by
  rw [isNumeric_numeral h, (parseInt_numeral h).1]
  rcases toDouble_nat_pos _ (parseInt_numeral h).2 with e | ⟨m, hm, e⟩
  · left; rw [e]; exact ⟨rfl, rfl⟩
  · right; rw [e]; exact ⟨m, hm, rfl, rfl⟩

theorem truthy_numeral {t : List Char} (h : IsNumeral t) :
    (Value.str (String.mk t)).truthy = true := by
  obtain ⟨c, cs, rfl, _⟩ := h
  simp [Value.truthy]
  intro e
  have := congrArg String.data e
  simp at this

/-- On a text that starts with a digit `parseInt` returns the value of its digits. -/
theorem parseInt_digits {c : Char} {cs : List Char} (hc : inRanges [('0', '9')] c = true) :
    parseInt (.str (String.mk (c :: cs))) = toDouble (parseDigits (c :: cs) 0 : Nat) := by
  rw [inRanges_one] at hc
  have h0 : ('0' : Char).toNat = 48 := by decide
  have h9 : ('9' : Char).toNat = 57 := by decide
  rw [h0, h9] at hc
  have hd : isDigit c = true := by simp [isDigit]; omega
  have hw : isWhiteSpace c = false := by
    simp [isWhiteSpace]; omega
  have hm : c ≠ '-' := by
    intro e; rw [e] at hc; revert hc; decide
  have hp : c ≠ '+' := by
    intro e; rw [e] at hc; revert hc; decide
  simp only [parseInt, parseIntText, Value.toText, String.toList]
  rw [List.dropWhile_cons_of_neg (by simp [hw])]
  split
  · rename_i heq; simp at heq; exact absurd heq.1 hm
  · rename_i heq; simp at heq; exact absurd heq.1 hp
  · simp [parseUnsigned, hd]

/-- The fields of the die built by the loop body, read off the match. -/
theorem dieOfMatch_fields {m : Match} {ai ai1 : Nat} {die : Die}
    (h : dieOfMatch m ai = some (die, ai1)) :
    die.operator = (m.get 1).or (.str "+") ∧
    die.qty = (if (m.get 2).truthy then parseInt (m.get 2) else .num 1) ∧
    die.sides = (if isNumeric (m.get 3) then parseInt (m.get 3) else m.get 3) ∧
    fudgeOf die.sides = some die.fudge ∧
    die.explode = (m.get 5).truthy ∧
    die.penetrate = (decide (m.get 5 = .str "!p") || decide (m.get 5 = .str "!!p")) ∧
    die.compound = (decide (m.get 5 = .str "!!") || decide (m.get 5 = .str "!!p")) ∧
    die.comparePoint = comparePointOf m die.explode die.fudge die.sides := by
  unfold dieOfMatch at h
  simp only at h
  split at h
  · cases h
  · rename_i f hf
    split at h
    · cases h
    · rename_i adds li ha
      simp only [Option.some.injEq, Prod.mk.injEq] at h
      obtain ⟨h, _⟩ := h
      subst h
      exact ⟨rfl, rfl, rfl, hf, rfl, rfl, rfl, rfl⟩

set_option maxRecDepth 100000 in
theorem fudgeOf_percent : fudgeOf (.str "%") = some none := by decide

set_option maxRecDepth 100000 in
theorem fudgeOf_F : fudgeOf (.str "F") = some (some [.str "F", .undefined]) := by decide

set_option maxRecDepth 100000 in
theorem fudgeOf_F1 : fudgeOf (.str "F.1") = some (some [.str "F.1", .str "1"]) := by decide

set_option maxRecDepth 100000 in
theorem fudgeOf_F2 : fudgeOf (.str "F.2") = some (some [.str "F.2", .str "2"]) := by decide

/-- The fudge pattern does not match a text that starts with a digit 1-9: the fudge field of
a die whose sides are such a text is false. -/
theorem fudgeOf_numeral {t : List Char} (h : IsNumeral t) :
    fudgeOf (.str (String.mk t)) = some none := by
  obtain ⟨c, cs, rfl, hc, _⟩ := h
  have hF : c ≠ 'F' := by
    intro e; rw [e] at hc; revert hc; decide
  have hsr : fudgeWholeRe.search 0 (c :: cs) = none := by
    cases hs : fudgeWholeRe.search 0 (c :: cs) with
    | none => rfl
    | some p =>
      exfalso
      obtain ⟨i, y⟩ := p
      obtain ⟨pre, suf, y0, h1, h2, h3, _⟩ := search_sound _ _ _ _ _ hs
      obtain ⟨y1, hb, hr⟩ := Matches.seq_inv h3
      obtain ⟨y2, hch, _⟩ := Matches.seq_inv hr
      have hpos : i = 0 ∧ y1 = ⟨i, suf, noCaps⟩ := by
        cases hb with
        | bol _ hp => exact ⟨hp, rfl⟩
      obtain ⟨hi, hy1⟩ := hpos
      subst hy1
      have hpre : pre = [] := by
        have : pre.length = 0 := by omega
        exact List.length_eq_zero.mp this
      subst hpre
      have hsuf := (Matches.char_inv hch).1
      simp only [List.nil_append] at h1
      simp only at hsuf
      rw [← h1] at hsuf
      simp only [List.cons.injEq] at hsuf
      exact hF hsuf.1
  simp [fudgeOf, get_fudge_whole, RegExp.exec, hsr]

/-- The sides of a die built from a notation match, with its fudge field: a number of at
least 1, a numeral too large for a finite double (kept as the text it is), `%`, or a fudge
marker. -/
theorem sides_cases {m : Match} {ai ai1 : Nat} {die : Die}
    (hc : NotationCaps m.caps) (h : dieOfMatch m ai = some (die, ai1)) :
    (∃ n : Nat, 1 ≤ n ∧ die.sides = .num n ∧ die.fudge = none) ∨
    (∃ t, IsNumeral t ∧ parseInt (.str (String.mk t)) = .inf false ∧
      die.sides = .str (String.mk t) ∧ die.fudge = none) ∨
    (die.sides = .str "%" ∧ die.fudge = none) ∨
    (die.sides = .str "F" ∧ die.fudge = some [.str "F", .undefined]) ∨
    (die.sides = .str "F.1" ∧ die.fudge = some [.str "F.1", .str "1"]) ∨
    (die.sides = .str "F.2" ∧ die.fudge = some [.str "F.2", .str "2"]) := by
  obtain ⟨_, _, hs, hf, _⟩ := dieOfMatch_fields h
  obtain ⟨t, ht, hcase⟩ := hc.sides
  have hg : m.get 3 = .str (String.mk t) := by simp [Match.get, ht]
  rw [hg] at hs
  rcases hcase with hn | rfl | rfl | rfl | rfl
  · rcases numeral_cases hn with ⟨hi, hnum⟩ | ⟨k, hk, hp, hnum⟩
    · right; left
      rw [hnum] at hs
      simp only [Bool.false_eq_true, if_false] at hs
      rw [hs, fudgeOf_numeral hn] at hf
      exact ⟨t, hn, hi, hs, by simpa using hf.symm⟩
    · left
      rw [hnum, if_pos rfl, hp] at hs
      refine ⟨k, hk, hs, ?_⟩
      rw [hs] at hf
      simpa [fudgeOf] using hf.symm
  · right; right; left
    have : die.sides = .str "%" := by rw [hs]; decide
    rw [this, fudgeOf_percent] at hf
    exact ⟨this, by simpa using hf.symm⟩
  · right; right; right; left
    have : die.sides = .str "F" := by rw [hs]; decide
    rw [this, fudgeOf_F] at hf
    exact ⟨this, by simpa using hf.symm⟩
  · right; right; right; right; left
    have : die.sides = .str "F.1" := by rw [hs]; decide
    rw [this, fudgeOf_F1] at hf
    exact ⟨this, by simpa using hf.symm⟩
  · right; right; right; right; right
    have : die.sides = .str "F.2" := by rw [hs]; decide
    rw [this, fudgeOf_F2] at hf
    exact ⟨this, by simpa using hf.symm⟩

theorem arith_cases {c : Char}
    (h : inRanges [('+', '+'), ('-', '-'), ('*', '*'), ('/', '/')] c = true) :
    c = '+' ∨ c = '-' ∨ c = '*' ∨ c = '/' := by
  rw [inRanges_cons, Bool.or_eq_true] at h
  rcases h with h | h
  · exact Or.inl (inRanges_single (by simpa [inRanges] using h))
  rw [inRanges_cons, Bool.or_eq_true] at h
  rcases h with h | h
  · exact Or.inr (Or.inl (inRanges_single (by simpa [inRanges] using h)))
  rw [inRanges_cons, Bool.or_eq_true] at h
  rcases h with h | h
  · exact Or.inr (Or.inr (Or.inl (inRanges_single (by simpa [inRanges] using h))))
  · exact Or.inr (Or.inr (Or.inr (inRanges_single h)))

/-- Entries of the match array of a notation match. -/
theorem toArray_getD {m : Match} (hs : m.size = 11) (j : Nat) (hj : j < 11) :
    m.toArray.getD j .undefined = m.get j := by
  unfold Match.toArray
  rw [hs]
  interval_cases j <;> rfl

theorem get_of_none {m : Match} {j : Nat} (h : m.caps j = none) : m.get j = .undefined := by
  simp [Match.get, h]

theorem get_of_some {m : Match} {j : Nat} {t : List Char} (h : m.caps j = some t) :
    m.get j = .str (String.mk t) := by
  simp [Match.get, h]

theorem truthy_mk {t : List Char} (h : t ≠ []) : (Value.str (String.mk t)).truthy = true := by
  simp [Value.truthy]
  intro e
  exact h (by simpa using congrArg String.data e)

/-- The operator and the quantity of a die built from a notation match. -/
theorem operator_qty_cases {m : Match} {ai ai1 : Nat} {die : Die}
    (hc : NotationCaps m.caps) (h : dieOfMatch m ai = some (die, ai1)) :
    (die.operator = .str "+" ∨ die.operator = .str "-" ∨ die.operator = .str "*" ∨
      die.operator = .str "/") ∧
    ((∃ n : Nat, 1 ≤ n ∧ die.qty = .num n) ∨
      (die.qty = .inf false ∧ parseInt (m.get 2) = .inf false)) ∧
    (m.get 2 = .undefined → die.qty = .num 1) := by
  obtain ⟨ho, hq, _⟩ := dieOfMatch_fields h
  refine ⟨?_, ?_, ?_⟩
  · rcases hc.op with h1 | ⟨c, hc1, h1⟩
    · left; rw [ho, get_of_none h1]; rfl
    · rw [ho, get_of_some h1]
      rcases arith_cases hc1 with rfl | rfl | rfl | rfl
      · left; decide
      · right; left; decide
      · right; right; left; decide
      · right; right; right; decide
  · rcases hc.qty with h2 | ⟨t, ht, h2⟩
    · exact Or.inl ⟨1, Nat.le_refl 1, by rw [hq, get_of_none h2]; simp [Value.truthy]⟩
    · rw [hq, get_of_some h2, truthy_numeral ht, if_pos rfl]
      rcases numeral_cases ht with ⟨hi, _⟩ | ⟨k, hk, hp, _⟩
      · exact Or.inr ⟨hi, hi⟩
      · exact Or.inl ⟨k, hk, hp⟩
  · intro hu
    rw [hq, hu]; rfl

/-- C5 (amended): for every input value and every state of the cached patterns, every term
that `parseNotation` builds (`p.2`, with its match array `p.1`) has an operator among
`+ - * /`; a quantity that is an integer at least 1 (1 when the quantity group is absent
from the match), or `Infinity` when the quantity written is beyond the range of doubles;
and sides that are an integer at least 1, or a decimal numeral beyond the range of doubles
left as the text it is, or `%`, or a fudge marker. -/
theorem parseNotation_term_fields (cache : PatternCache) (text : Value)
    (tr : List (List Value × Die)) (c1 : PatternCache)
    (h : parseNotationTrace cache text = some (tr, c1))
    (p : List Value × Die) (hp : p ∈ tr) :
    (p.2.operator = .str "+" ∨ p.2.operator = .str "-" ∨ p.2.operator = .str "*" ∨
      p.2.operator = .str "/") ∧
    ((∃ n : Nat, 1 ≤ n ∧ p.2.qty = .num n) ∨
      (p.2.qty = .inf false ∧ parseInt (p.1.getD 2 .undefined) = .inf false)) ∧
    (p.1.getD 2 .undefined = .undefined → p.2.qty = .num 1) ∧
    ((∃ n : Nat, 1 ≤ n ∧ p.2.sides = .num n) ∨
      (∃ t, IsNumeral t ∧ parseInt (.str (String.mk t)) = .inf false ∧
        p.2.sides = .str (String.mk t)) ∨
      p.2.sides = .str "%" ∨ p.2.sides = .str "F" ∨
      p.2.sides = .str "F.1" ∨ p.2.sides = .str "F.2") := by
  obtain ⟨m, harr, hsize, hc, ai, ai1, hd⟩ := trace_steps cache text tr c1 h p hp
  obtain ⟨h1, h2, h3⟩ := operator_qty_cases hc hd
  refine ⟨h1, ?_, ?_, ?_⟩
  · rw [harr, toArray_getD hsize 2 (by decide)]; exact h2
  · rw [harr, toArray_getD hsize 2 (by decide)]; exact h3
  · rcases sides_cases hc hd with ⟨n, hn, hs, _⟩ | ⟨t, ht, hi, hs, _⟩ | ⟨hs, _⟩ | ⟨hs, _⟩ |
      ⟨hs, _⟩ | ⟨hs, _⟩
    · exact Or.inl ⟨n, hn, hs⟩
    · exact Or.inr (Or.inl ⟨t, ht, hi, hs⟩)
    · exact Or.inr (Or.inr (Or.inl hs))
    · exact Or.inr (Or.inr (Or.inr (Or.inl hs)))
    · exact Or.inr (Or.inr (Or.inr (Or.inr (Or.inl hs))))
    · exact Or.inr (Or.inr (Or.inr (Or.inr (Or.inr hs))))

/-- C8: for every term returned by `parseNotation`, the fudge field is truthy exactly when
sides is one of the fudge markers `F`, `F.1`, `F.2`; it is then the match array of the fudge
pattern, whose group holds the weighting variant (undefined, `1`, `2`); and it is false
when sides is a number or `%`. -/
theorem parseNotation_fudge (text : Value) (dice : List Die)
    (h : parseNotation text = some dice) (die : Die) (hd : die ∈ dice) :
    (die.fudge.isSome = true ↔
      (die.sides = .str "F" ∨ die.sides = .str "F.1" ∨ die.sides = .str "F.2")) ∧
    (die.sides = .str "F" → die.fudge = some [.str "F", .undefined]) ∧
    (die.sides = .str "F.1" → die.fudge = some [.str "F.1", .str "1"]) ∧
    (die.sides = .str "F.2" → die.fudge = some [.str "F.2", .str "2"]) ∧
    ((∃ n, die.sides = .num n) ∨ die.sides = .str "%" → die.fudge = none) := by
  obtain ⟨m, hc, ai, ai1, hdie⟩ := parseNotation_steps text dice h die hd
  rcases sides_cases hc hdie with ⟨n, hn, hs, hf⟩ | ⟨t, ht, _, hs, hf⟩ | ⟨hs, hf⟩ | ⟨hs, hf⟩ |
      ⟨hs, hf⟩ | ⟨hs, hf⟩
  · simp [hs, hf]
  · obtain ⟨c, cs, rfl, hc1, _⟩ := ht
    have e1 : String.mk (c :: cs) ≠ "F" := by
      intro e
      have := congrArg String.data e
      simp at this
      rw [this.1] at hc1; revert hc1; decide
    have e2 : String.mk (c :: cs) ≠ "F.1" := by
      intro e
      have := congrArg String.data e
      simp at this
      rw [this.1] at hc1; revert hc1; decide
    have e3 : String.mk (c :: cs) ≠ "F.2" := by
      intro e
      have := congrArg String.data e
      simp at this
      rw [this.1] at hc1; revert hc1; decide
    have e4 : String.mk (c :: cs) ≠ "%" := by
      intro e
      have := congrArg String.data e
      simp at this
      rw [this.1] at hc1; revert hc1; decide
    simp [hs, hf, e1, e2, e3, e4]
  · simp [hs, hf]
  · simp [hs, hf]
  · simp [hs, hf]
  · simp [hs, hf]

/-- C4 (amended): for every term that `parseNotation` builds (`p.2`, with its match array
`p.1`): entry 6 of the array (the compare operator) is either undefined or a string; when it
is a string `o`, entry 7 is a string of digits and the compare point is `o` with the double
nearest to the number entry 7 writes, which is that number when it is below `2 ^ 53`; when
entry 6 is undefined and explode is set, the compare point has operator `=` and value 1 for
a fudge die, 100 for sides `%`, and the sides field in every other case, which is the
numeric side count, or the unparsed numeral when the side count is beyond the range of
doubles; when entry 6 is undefined and explode is not set, the compare point is false. -/
theorem parseNotation_comparePoint (cache : PatternCache) (text : Value)
    (tr : List (List Value × Die)) (c1 : PatternCache)
    (h : parseNotationTrace cache text = some (tr, c1))
    (p : List Value × Die) (hp : p ∈ tr) :
    (p.1.getD 6 .undefined = .undefined ∨ ∃ o, p.1.getD 6 .undefined = .str o) ∧
    (∀ o, p.1.getD 6 .undefined = .str o →
      ∃ v, p.1.getD 7 .undefined = .str v ∧
        p.2.comparePoint = some ⟨.str o, toDouble (parseDigits v.toList 0 : Nat)⟩ ∧
        (parseDigits v.toList 0 < 2 ^ 53 →
          p.2.comparePoint = some ⟨.str o, .num (parseDigits v.toList 0 : Nat)⟩)) ∧
    (p.1.getD 6 .undefined = .undefined → p.2.explode = true →
      (p.2.fudge.isSome = true → p.2.comparePoint = some ⟨.str "=", .num 1⟩) ∧
      (p.2.sides = .str "%" → p.2.comparePoint = some ⟨.str "=", .num 100⟩) ∧
      (p.2.fudge = none → p.2.sides ≠ .str "%" →
        p.2.comparePoint = some ⟨.str "=", p.2.sides⟩ ∧
        ((∃ n : Nat, 1 ≤ n ∧ p.2.sides = .num n) ∨
          ∃ t, IsNumeral t ∧ parseInt (.str (String.mk t)) = .inf false ∧
            p.2.sides = .str (String.mk t)))) ∧
    (p.1.getD 6 .undefined = .undefined → p.2.explode = false → p.2.comparePoint = none) := by
  obtain ⟨m, harr, hsize, hc, ai, ai1, hd⟩ := trace_steps cache text tr c1 h p hp
  obtain ⟨_, _, _, _, _, _, _, hcp⟩ := dieOfMatch_fields hd
  rw [harr, toArray_getD hsize 6 (by decide), toArray_getD hsize 7 (by decide)]
  rcases hc.comp with ⟨h6, h7⟩ | ⟨o, v, h6, ho, h7, hv, hdig⟩
  · have g6 := get_of_none h6
    refine ⟨Or.inl g6, ?_, ?_, ?_⟩
    · intro o ho; rw [g6] at ho; cases ho
    · intro _ hex
      have hcp2 : p.2.comparePoint = some ⟨.str "=", if p.2.fudge.isSome then .num 1
          else if p.2.sides = .str "%" then .num 100 else p.2.sides⟩ := by
        rw [hcp, comparePointOf, g6, hex]; rfl
      rcases sides_cases hc hd with ⟨n, hn, hs, hf⟩ | ⟨t, ht, hi, hs, hf⟩ | ⟨hs, hf⟩ | ⟨hs, hf⟩ |
        ⟨hs, hf⟩ | ⟨hs, hf⟩
      · refine ⟨by simp [hf], by simp [hs], fun _ _ => ⟨?_, Or.inl ⟨n, hn, hs⟩⟩⟩
        rw [hcp2, hf, hs]; simp
      · refine ⟨by simp [hf], ?_, fun _ hne => ⟨?_, Or.inr ⟨t, ht, hi, hs⟩⟩⟩
        · intro hp2; rw [hcp2, hf, hp2]; simp
        · rw [hcp2, hf, if_neg hne]; simp
      · simp [hcp2, hs, hf]
      · simp [hcp2, hs, hf]
      · simp [hcp2, hs, hf]
      · simp [hcp2, hs, hf]
    · intro _ hex
      rw [hcp, comparePointOf, g6, hex]; rfl
  · have g6 := get_of_some h6
    have g7 := get_of_some h7
    obtain ⟨c, cs, rfl⟩ := List.exists_cons_of_ne_nil hv
    have hpi := @parseInt_digits c cs (hdig c (by simp))
    have hcp3 : p.2.comparePoint =
        some ⟨.str (String.mk o), toDouble (parseDigits (c :: cs) 0 : Nat)⟩ := by
      rw [hcp, comparePointOf, if_pos (by rw [g6]; exact truthy_mk ho), g7, hpi, g6]
    refine ⟨Or.inr ⟨_, g6⟩, ?_, ?_, ?_⟩
    · intro o1 ho1
      rw [g6] at ho1
      cases ho1
      refine ⟨_, g7, hcp3, ?_⟩
      intro hb
      have hb2 : parseDigits (c :: cs) 0 < 2 ^ 53 := hb
      rw [hcp3, toDouble_nat _ hb2]
      rfl
    · intro hu; rw [g6] at hu; cases hu
    · intro hu; rw [g6] at hu; cases hu

/-- A first `exec` that finds nothing makes `parseNotation` return the empty sequence. -/
theorem parseNotation_of_exec_none (s : String) (li : Nat)
    (h : (RegExp.mk notationRe true).exec 0 s.toList = (none, li)) :
    parseNotation (.str s) = some [] := by
  unfold parseNotation parseNotationTrace
  by_cases ht : (Value.str s).truthy = true
  · rw [if_pos ht, get_notation_g]
    simp only [Value.toText]
    rw [parseLoop]
    simp only [h]
    rfl
  · rw [if_neg ht]; rfl

set_option maxRecDepth 100000 in
theorem get_notation_plain : get "notation" none false = some ⟨notationRe, false⟩ := by decide

/-- C6: `parseNotation` is total and never raises (this holds from every state of the cached
patterns); it returns the empty sequence for the empty string, for `null` and `undefined`,
for every string in which the notation pattern matches nowhere, and for every string
without a lowercase `d`. -/
theorem parseNotation_total :
    (∀ (cache : PatternCache) (text : Value), ∃ r, parseNotationTrace cache text = some r) ∧
    (∀ text : Value, ∃ dice, parseNotation text = some dice) ∧
    parseNotation (.str "") = some [] ∧
    parseNotation .null = some [] ∧
    parseNotation .undefined = some [] ∧
    (∀ (s : String) (pattern : RegExp), get "notation" none false = some pattern →
      pattern.test s.toList = false → parseNotation (.str s) = some []) ∧
    (∀ s : String, 'd' ∉ s.toList → parseNotation (.str s) = some []) := by
  refine ⟨?_, ?_, rfl, rfl, rfl, ?_, ?_⟩
  · intro cache text
    obtain ⟨tr, c1, h⟩ := parseNotationTrace_total cache text
    exact ⟨_, h⟩
  · intro text
    obtain ⟨tr, c1, h⟩ := parseNotationTrace_total ⟨0, 0⟩ text
    exact ⟨tr.map Prod.snd, by simp [parseNotation, h]⟩
  · intro s pattern hg ht
    rw [get_notation_plain] at hg
    cases hg
    have hs : notationRe.search 0 s.toList = none := by
      simp only [RegExp.test, RegExp.exec, Bool.false_eq_true, if_false, Nat.not_lt_zero,
        List.drop_zero] at ht
      cases hsr : notationRe.search 0 s.toList with
      | none => rfl
      | some r => rw [hsr] at ht; simp at ht
    have hs2 : notationRe.search 0 s.data = none := hs
    exact parseNotation_of_exec_none s 0 (by simp [RegExp.exec, hs2])
  · intro s hd
    cases he : (RegExp.mk notationRe true).exec 0 s.toList with
    | mk om li =>
      cases om with
      | none => exact parseNotation_of_exec_none s li he
      | some m => exact absurd (exec_notation_some _ _ _ _ he).2.2.2.1 hd

/-! ## Forward runs of the matcher -/

theorem clearCaps_noCaps (gs : List Nat) : clearCaps gs noCaps = noCaps := by
  funext i; simp [clearCaps, noCaps]

/-- An optional pattern is skipped when its body cannot match. -/
theorem opt_run_skip (r : Re) (x : MState) (k : Cont)
    (h : ∀ k1, r.run { x with caps := clearCaps r.groups x.caps } k1 = none) :
    (Re.quant 0 (some 1) r).run x k = k x := by
  rw [Re.run, repeatMatcher]
  simp [h]

/-- An optional pattern is taken when its body matches some text and the rest succeeds. -/
theorem opt_run_taken (r : Re) (x : MState) (k : Cont) (z : MState) (hx : x.rest ≠ [])
    (h : r.run { x with caps := clearCaps r.groups x.caps }
      (fun y => if y.pos = x.pos then none else k y) = some z) :
    (Re.quant 0 (some 1) r).run x k = some z := by
  obtain ⟨c, t, hr⟩ := List.exists_cons_of_ne_nil hx
  rw [Re.run, repeatMatcher]
  have hd : ∀ y : MState,
      repeatMatcher (fun y c => r.run y c) r.groups x.rest.length 0 (some 0) y k = k y := by
    intro y; rw [hr]; simp [repeatMatcher]
  simp [hd, h]

/-- A starred pattern stops when its body cannot match. -/
theorem star_run_stop (r : Re) (x : MState) (k : Cont)
    (h : ∀ k1, r.run { x with caps := clearCaps r.groups x.caps } k1 = none) :
    (Re.quant 0 none r).run x k = k x := by
  rw [Re.run, repeatMatcher]
  simp [h]

/-- One unfolding of the loop of a starred pattern. -/
theorem repeat_star_succ (m : MState → Cont → Option MState) (gs : List Nat) (fuel : Nat)
    (x : MState) (k : Cont) :
    repeatMatcher m gs (fuel + 1) 0 none x k =
      match m { x with caps := clearCaps gs x.caps }
        (fun y => if y.pos = x.pos then none else repeatMatcher m gs fuel 0 none y k) with
      | some z => some z
      | none => k x := by
  rw [repeatMatcher]
  simp

theorem run_cls_cons (rs : List (Char × Char)) (d : Char) (t : List Char) (p : Nat)
    (caps : Nat → Option (List Char)) (k : Cont) :
    (Re.cls rs).run ⟨p, d :: t, caps⟩ k = if inRanges rs d then k ⟨p + 1, t, caps⟩ else none := rfl

theorem run_cls_nil (rs : List (Char × Char)) (p : Nat)
    (caps : Nat → Option (List Char)) (k : Cont) :
    (Re.cls rs).run ⟨p, [], caps⟩ k = none := rfl

theorem run_char_cons (c d : Char) (t : List Char) (p : Nat)
    (caps : Nat → Option (List Char)) (k : Cont) :
    (Re.char c).run ⟨p, d :: t, caps⟩ k = if d = c then k ⟨p + 1, t, caps⟩ else none := rfl

theorem run_char_nil (c : Char) (p : Nat) (caps : Nat → Option (List Char)) (k : Cont) :
    (Re.char c).run ⟨p, [], caps⟩ k = none := rfl

theorem run_seq (a b : Re) (x : MState) (k : Cont) :
    (Re.seq a b).run x k = a.run x (fun y => b.run y k) := rfl

theorem run_alt (a b : Re) (x : MState) (k : Cont) :
    (Re.alt a b).run x k = (match a.run x k with | some z => some z | none => b.run x k) := rfl

theorem run_group (i : Nat) (r : Re) (x : MState) (k : Cont) :
    (Re.group i r).run x k =
      r.run x (fun y => k { y with caps := setCap y.caps i (x.rest.take (y.pos - x.pos)) }) := rfl

theorem run_quant (lo : Nat) (hi : Option Nat) (r : Re) (x : MState) (k : Cont) :
    (Re.quant lo hi r).run x k =
      repeatMatcher (fun y c => r.run y c) r.groups (lo + x.rest.length + 1) lo hi x k := rfl

/-- The greedy run of `[0-9]*` over a maximal run of digits. -/
theorem star_digits_run : ∀ (cs : List Char), (∀ d ∈ cs, inRanges [('0', '9')] d = true) →
    ∀ (tail : List Char), (∀ t ts, tail = t :: ts → inRanges [('0', '9')] t = false) →
    ∀ (fuel p : Nat) (caps : Nat → Option (List Char)) (k : Cont) (z : MState),
      cs.length < fuel → k ⟨p + cs.length, tail, caps⟩ = some z →
      repeatMatcher (fun y c => digitCls.run y c) [] fuel 0 none ⟨p, cs ++ tail, caps⟩ k = some z := by
  intro cs
  induction cs with
  | nil =>
    intro _ tail htail fuel p caps k z hf hk
    obtain ⟨f, rfl⟩ : ∃ f, fuel = f + 1 := ⟨fuel - 1, by simp at hf; omega⟩
    rw [repeat_star_succ]
    simp only [List.nil_append, clearCaps_nil]
    have hfail : ∀ k1, digitCls.run ⟨p, tail, caps⟩ k1 = none := by
      intro k1
      cases tail with
      | nil => rfl
      | cons t ts => rw [digitCls, run_cls_cons, htail t ts rfl]; rfl
    rw [hfail]
    simpa using hk
  | cons c cs ih =>
    intro hcs tail htail fuel p caps k z hf hk
    obtain ⟨f, rfl⟩ : ∃ f, fuel = f + 1 := ⟨fuel - 1, by simp at hf; omega⟩
    rw [repeat_star_succ]
    simp only [clearCaps_nil, List.cons_append]
    have hc : inRanges [('0', '9')] c = true := hcs c (by simp)
    have hrec := ih (fun d hd => hcs d (by simp [hd])) tail htail f (p + 1) caps k z
        (by simp at hf; omega) (by rw [← hk]; congr 2; simp; omega)
    rw [digitCls, run_cls_cons, hc, if_pos rfl]
    simp only []
    rw [if_neg (by omega)]
    rw [digitCls] at hrec
    rw [hrec]

/-- The run of `[1-9][0-9]*` over a numeral that no digit follows. -/
theorem numeral_run {t : List Char} (ht : IsNumeral t) (tail : List Char)
    (htail : ∀ c cs, tail = c :: cs → inRanges [('0', '9')] c = false)
    (p : Nat) (caps : Nat → Option (List Char)) (k : Cont) (z : MState)
    (hk : k ⟨p + t.length, tail, caps⟩ = some z) :
    numeralRe.run ⟨p, t ++ tail, caps⟩ k = some z := by
  obtain ⟨c, cs, rfl, hc, hcs⟩ := ht
  rw [numeralRe, run_seq, nzCls, List.cons_append, run_cls_cons, hc, if_pos rfl, run_quant]
  exact star_digits_run cs hcs tail htail _ (p + 1) caps k z (by simp; omega)
    (by rw [← hk]; congr 2; simp; omega)

theorem nz_not_arith {c : Char} (h : inRanges [('1', '9')] c = true) :
    inRanges [('+', '+'), ('-', '-'), ('*', '*'), ('/', '/')] c = false := by
  rw [inRanges_one] at h
  have h1 : ('1' : Char).toNat = 49 := by decide
  have h9 : ('9' : Char).toNat = 57 := by decide
  rw [h1, h9] at h
  have e1 : ('+' : Char).toNat = 43 := by decide
  have e2 : ('-' : Char).toNat = 45 := by decide
  have e3 : ('*' : Char).toNat = 42 := by decide
  have e4 : ('/' : Char).toNat = 47 := by decide
  simp only [inRanges, List.any_cons, List.any_nil, e1, e2, e3, e4, Bool.or_false,
    Bool.or_eq_false_iff, Bool.and_eq_false_imp, decide_eq_true_eq, decide_eq_false_iff_not]
  omega

theorem arith_not_digit {c : Char}
    (h : inRanges [('+', '+'), ('-', '-'), ('*', '*'), ('/', '/')] c = true) :
    inRanges [('0', '9')] c = false := by
  rcases arith_cases h with rfl | rfl | rfl | rfl <;> decide

/-- Text that may follow the digits of a numeral: it does not start with a digit. -/
theorem noDigit_d (rest : List Char) :
    ∀ c cs, 'd' :: rest = c :: cs → inRanges [('0', '9')] c = false := by
  intro c cs h
  cases h
  decide

theorem run_alt_left (a b : Re) (x : MState) (k : Cont) (z : MState)
    (h : a.run x k = some z) : (Re.alt a b).run x k = some z := by
  rw [run_alt, h]

theorem run_alt_right (a b : Re) (x : MState) (k : Cont)
    (h : a.run x k = none) : (Re.alt a b).run x k = b.run x k := by
  rw [run_alt, h]

/-- A group around `[1-9][0-9]*` captures a numeral that no digit follows. -/
theorem group_numeral_run (i : Nat) {t : List Char} (ht : IsNumeral t) (tail : List Char)
    (htail : ∀ c cs, tail = c :: cs → inRanges [('0', '9')] c = false)
    (p : Nat) (caps : Nat → Option (List Char)) (k : Cont) (z : MState)
    (hk : k ⟨p + t.length, tail, setCap caps i t⟩ = some z) :
    (Re.group i numeralRe).run ⟨p, t ++ tail, caps⟩ k = some z := by
  rw [run_group]
  apply numeral_run ht tail htail
  simpa using hk

theorem numeral_ne_nil {t : List Char} (ht : IsNumeral t) : t ≠ [] := by
  obtain ⟨c, cs, rfl, _⟩ := ht
  simp

/-- The optional operator group is skipped in front of a numeral. -/
theorem opGroup_skip {q : List Char} (hq : IsNumeral q) (rest : List Char) (p : Nat)
    (caps : Nat → Option (List Char)) (k : Cont) :
    (Re.quant 0 (some 1) (.group 1 arithCls)).run ⟨p, q ++ rest, caps⟩ k =
      k ⟨p, q ++ rest, caps⟩ := by
  obtain ⟨c, cs, rfl, hc, _⟩ := hq
  apply opt_run_skip
  intro k1
  rw [run_group, arithCls, List.cons_append, run_cls_cons, nz_not_arith hc]
  rfl

/-- The optional operator group takes an operator character. -/
theorem opGroup_taken {op : Char}
    (hop : inRanges [('+', '+'), ('-', '-'), ('*', '*'), ('/', '/')] op = true)
    (rest : List Char) (p : Nat) (caps : Nat → Option (List Char)) (k : Cont) (z : MState)
    (hk : k ⟨p + 1, rest, setCap (clearCaps [1] caps) 1 [op]⟩ = some z) :
    (Re.quant 0 (some 1) (.group 1 arithCls)).run ⟨p, op :: rest, caps⟩ k = some z := by
  apply opt_run_taken
  · simp
  · rw [run_group, arithCls, run_cls_cons, hop, if_pos rfl]
    simp only []
    rw [if_neg (by omega)]
    simp only [Re.groups, List.take_succ_cons, List.take_zero, Nat.add_sub_cancel_left]
    exact hk

/-- The optional quantity group takes a numeral followed by the letter d. -/
theorem qtyGroup_taken {q : List Char} (hq : IsNumeral q) (rest : List Char) (p : Nat)
    (caps : Nat → Option (List Char)) (k : Cont) (z : MState)
    (hk : k ⟨p + q.length, 'd' :: rest, setCap (clearCaps [2] caps) 2 q⟩ = some z) :
    (Re.quant 0 (some 1) (.group 2 numeralRe)).run ⟨p, q ++ 'd' :: rest, caps⟩ k = some z := by
  have hne := numeral_ne_nil hq
  apply opt_run_taken
  · simp
  · apply group_numeral_run 2 hq _ (noDigit_d _)
    simp only []
    rw [if_neg (by have := List.length_pos.mpr hne; omega)]
    simpa [Re.groups, numeralRe, nzCls, digitCls] using hk

/-- The sides group takes a numeral that no digit follows. -/
theorem sidesGroup_numeral {s : List Char} (hs : IsNumeral s) (tail : List Char)
    (htail : ∀ c cs, tail = c :: cs → inRanges [('0', '9')] c = false)
    (p : Nat) (caps : Nat → Option (List Char)) (k : Cont) (z : MState)
    (hk : k ⟨p + s.length, tail, setCap caps 3 s⟩ = some z) :
    (Re.group 3 sidesRe).run ⟨p, s ++ tail, caps⟩ k = some z := by
  rw [run_group, sidesRe]
  apply run_alt_left
  apply numeral_run hs tail htail
  simpa using hk

/-- The head of the notation pattern on `q d s` (no operator), numeric sides. -/
theorem head_run_plain {q s : List Char} (hq : IsNumeral q) (hs : IsNumeral s)
    (tail : List Char) (htail : ∀ c cs, tail = c :: cs → inRanges [('0', '9')] c = false)
    (p : Nat) (caps : Nat → Option (List Char)) (k : Cont) (z : MState)
    (hk : tailRe.run ⟨p + q.length + 1 + s.length, tail,
      setCap (setCap (clearCaps [2] caps) 2 q) 3 s⟩ k = some z) :
    notationRe.run ⟨p, q ++ 'd' :: (s ++ tail), caps⟩ k = some z := by
  rw [notationRe, run_seq, opGroup_skip hq, run_seq]
  apply qtyGroup_taken hq
  rw [run_seq, run_char_cons, if_pos rfl, run_seq]
  exact sidesGroup_numeral hs tail htail _ _ _ _ hk

/-- The head of the notation pattern on `op q d s`, numeric sides. -/
theorem head_run_op {op : Char}
    (hop : inRanges [('+', '+'), ('-', '-'), ('*', '*'), ('/', '/')] op = true)
    {q s : List Char} (hq : IsNumeral q) (hs : IsNumeral s)
    (tail : List Char) (htail : ∀ c cs, tail = c :: cs → inRanges [('0', '9')] c = false)
    (p : Nat) (caps : Nat → Option (List Char)) (k : Cont) (z : MState)
    (hk : tailRe.run ⟨p + 1 + q.length + 1 + s.length, tail,
      setCap (setCap (clearCaps [2] (setCap (clearCaps [1] caps) 1 [op])) 2 q) 3 s⟩ k = some z) :
    notationRe.run ⟨p, op :: (q ++ 'd' :: (s ++ tail)), caps⟩ k = some z := by
  rw [notationRe, run_seq]
  apply opGroup_taken hop
  rw [run_seq]
  apply qtyGroup_taken hq
  rw [run_seq, run_char_cons, if_pos rfl, run_seq]
  exact sidesGroup_numeral hs tail htail _ _ _ _ hk

/-- The explode and compare groups are skipped in front of an operator character. -/
theorem explode_comp_skip {op : Char}
    (hop : inRanges [('+', '+'), ('-', '-'), ('*', '*'), ('/', '/')] op = true)
    (rest : List Char) (p : Nat) (caps : Nat → Option (List Char)) (k : Cont) (r : Re) :
    (Re.seq (.quant 0 (some 1) (.group 5 explodeRe)) (.seq (.quant 0 (some 1) compRe) r)).run
      ⟨p, op :: rest, caps⟩ k = r.run ⟨p, op :: rest, caps⟩ k := by
  rcases arith_cases hop with rfl | rfl | rfl | rfl <;>
    simp [explodeRe, compRe, compOpRe, Re.run, repeatMatcher, MState.next, inRanges, Re.groups,
      clearCaps_nil, Nat.add_assoc]

/-- The explode and compare groups are skipped at the end of the input. -/
theorem explode_comp_skip_nil (p : Nat) (caps : Nat → Option (List Char)) (k : Cont) (r : Re) :
    (Re.seq (.quant 0 (some 1) (.group 5 explodeRe)) (.seq (.quant 0 (some 1) compRe) r)).run
      ⟨p, [], caps⟩ k = r.run ⟨p, [], caps⟩ k := by
  simp [explodeRe, compRe, compOpRe, Re.run, repeatMatcher, MState.next, inRanges, Re.groups,
    clearCaps_nil]

/-- When digits are cut off the front of digits followed by the letter d, digits followed
by the letter d remain. -/
theorem digits_suffix : ∀ (ds q rest r3 : List Char),
    (∀ d ∈ ds, inRanges [('0', '9')] d = true) → (∀ d ∈ q, inRanges [('0', '9')] d = true) →
    q ++ 'd' :: rest = ds ++ r3 →
    ∃ q1, (∀ d ∈ q1, inRanges [('0', '9')] d = true) ∧ r3 = q1 ++ 'd' :: rest := by
  intro ds
  induction ds with
  | nil => intro q rest r3 _ hq h; exact ⟨q, hq, by simpa using h.symm⟩
  | cons d ds ih =>
    intro q rest r3 hds hq h
    cases q with
    | nil =>
      simp only [List.nil_append, List.cons_append, List.cons.injEq] at h
      have := hds d (by simp)
      rw [← h.1] at this
      exact absurd this (by decide)
    | cons c q0 =>
      simp only [List.cons_append, List.cons.injEq] at h
      exact ih q0 rest r3 (fun e he => hds e (by simp [he])) (fun e he => hq e (by simp [he])) h.2

/-- The lookahead body `[0-9]*d` matches in front of digits followed by the letter d. -/
theorem look_run_some (q : List Char) (hq : ∀ d ∈ q, inRanges [('0', '9')] d = true)
    (rest : List Char) (p : Nat) (caps : Nat → Option (List Char)) :
    lookRe.run ⟨p, q ++ 'd' :: rest, caps⟩ some = some ⟨p + q.length + 1, rest, caps⟩ := by
  rw [lookRe, run_seq, run_quant]
  apply star_digits_run q hq _ (noDigit_d _)
  · simp; omega
  · rw [run_char_cons, if_pos rfl]

theorem nz_is_digit {c : Char} (h : inRanges [('1', '9')] c = true) :
    inRanges [('0', '9')] c = true := by
  rw [inRanges_one] at h ⊢
  have h0 : ('0' : Char).toNat = 48 := by decide
  have h1 : ('1' : Char).toNat = 49 := by decide
  rw [h1] at h
  rw [h0]
  omega

theorem numeral_digits {q : List Char} (hq : IsNumeral q) :
    ∀ d ∈ q, inRanges [('0', '9')] d = true := by
  obtain ⟨c, cs, rfl, hc, hcs⟩ := hq
  intro d hd
  rcases List.mem_cons.mp hd with rfl | hd
  · exact nz_is_digit hc
  · exact hcs d hd

/-- The value of an addition cannot be taken from the quantity of a following dice term:
on a numeral followed by the letter d the value pattern fails. -/
theorem addValue_fails {q : List Char} (hq : IsNumeral q) (rest : List Char)
    (x : MState) (hx : x.rest = q ++ 'd' :: rest) (k : Cont) :
    addValueRe.run x k = none := by
  cases hrun : addValueRe.run x k with
  | none => rfl
  | some z =>
    exfalso
    obtain ⟨y, hm, _⟩ := run_sound _ _ _ _ hrun
    have hdig := numeral_digits hq
    obtain ⟨c, cs, hqc, hc, _⟩ := hq
    rcases Matches.alt_inv hm with hm | hm
    · obtain ⟨y1, h1, h2⟩ := Matches.seq_inv hm
      obtain ⟨y2, h3, h4⟩ := Matches.seq_inv h2
      obtain ⟨ds, hds, hr1, _, _, _, _⟩ :=
        Matches.quant_single_inv (fun d => inRanges [('1', '9')] d = true) (r := nzCls) rfl
          (fun x y hm => Matches.cls_inv hm) h1 1 none rfl
      obtain ⟨zs, hr2, _⟩ := Matches.advance h3
      have hzs : ∀ d ∈ zs, inRanges [('0', '9')] d = true := by
        rcases Matches.opt_inv h3 with e | hz
        · rw [e] at hr2
          have : zs = [] := by simpa using hr2
          rw [this]; simp
        · obtain ⟨hr0, _, _⟩ := Matches.char_inv hz
          simp only at hr0
          rw [hr0] at hr2
          have : zs = ['0'] := by
            have := congrArg List.length hr2
            match zs, hr2 with
            | [a], h => simp at h; rw [h]
            | [], h => simp at this
            | _ :: _ :: _, h => simp at this; omega
          rw [this]
          intro d hd
          rw [List.mem_singleton.mp hd]
          decide
      have hn : lookRe.run y2 some = none := by
        cases h4 with
        | neglook _ _ hn => exact hn
      · obtain ⟨q1, hq1, hr3⟩ := digits_suffix (ds ++ zs) q rest y2.rest
          (by
            intro d hd
            rcases List.mem_append.mp hd with hd | hd
            · exact nz_is_digit (hds d hd)
            · exact hzs d hd)
          hdig (by rw [← hx, hr1, hr2, List.append_assoc])
        have := look_run_some q1 hq1 rest y2.pos y2.caps
        rw [← hr3] at this
        rw [hn] at this
        cases this
    · rcases Matches.alt_inv hm with hm | hm
      · obtain ⟨hr, _, _⟩ := Matches.char_inv hm
        rw [hx, hqc] at hr
        simp only [List.cons_append, List.cons.injEq] at hr
        rw [hr.1] at hc
        exact absurd hc (by decide)
      · obtain ⟨hr, _, _⟩ := Matches.char_inv hm
        rw [hx, hqc] at hr
        simp only [List.cons_append, List.cons.injEq] at hr
        rw [hr.1] at hc
        exact absurd hc (by decide)

/-- An addition cannot start at the operator of a following dice term. -/
theorem addition_fails (i j : Nat) (op : Char) {q : List Char} (hq : IsNumeral q)
    (rest : List Char) (p : Nat) (caps : Nat → Option (List Char)) (k : Cont) :
    (additionIn i j).run ⟨p, op :: (q ++ 'd' :: rest), caps⟩ k = none := by
  rw [additionIn, run_seq, run_group, arithCls, run_cls_cons]
  split
  · simp only []
    rw [run_group]
    exact addValue_fails hq rest _ rfl _
  · rfl

/-- The tail of the notation pattern in front of a following dice term: no explode token,
no compare point, and an empty additions text. -/
theorem tail_run_next {op : Char}
    (hop : inRanges [('+', '+'), ('-', '-'), ('*', '*'), ('/', '/')] op = true)
    {q : List Char} (hq : IsNumeral q) (rest : List Char) (p : Nat)
    (caps : Nat → Option (List Char)) (k : Cont) :
    tailRe.run ⟨p, op :: (q ++ 'd' :: rest), caps⟩ k =
      k ⟨p, op :: (q ++ 'd' :: rest), setCap caps 8 []⟩ := by
  rw [tailRe, explode_comp_skip hop, run_group, star_run_stop]
  · simp
  · intro k1
    exact addition_fails 9 10 op hq rest p _ k1

/-- The tail of the notation pattern at the end of the input. -/
theorem tail_run_nil (p : Nat) (caps : Nat → Option (List Char)) (k : Cont) :
    tailRe.run ⟨p, [], caps⟩ k = k ⟨p, [], setCap caps 8 []⟩ := by
  rw [tailRe, explode_comp_skip_nil, run_group, star_run_stop]
  · simp
  · intro k1
    rfl

/-! ## Decimal texts -/

theorem digitChar_toNat (k : Nat) (h : k < 10) : (Nat.digitChar k).toNat = 48 + k := by
  interval_cases k <;> rfl

theorem inRanges_digit (d : Char) : inRanges [('0', '9')] d = isDigit d := by
  simp [inRanges, isDigit]

theorem parseDigits_append : ∀ (a b : List Char) (acc : Nat),
    (∀ d ∈ a, inRanges [('0', '9')] d = true) →
    parseDigits (a ++ b) acc = parseDigits b (parseDigits a acc) := by
  intro a
  induction a with
  | nil => intro b acc _; rfl
  | cons c a ih =>
    intro b acc h
    have hc : isDigit c = true := by rw [← inRanges_digit]; exact h c (by simp)
    simp only [List.cons_append, parseDigits, hc, if_true]
    exact ih b _ (fun d hd => h d (by simp [hd]))

/-- The decimal digits printed for `n`: all digits, no leading zero when `n` is positive,
and read back as `n`. -/
theorem toDigitsCore_spec : ∀ (fuel n : Nat) (ds : List Char), n < fuel →
    ∃ t, Nat.toDigitsCore 10 fuel n ds = t ++ ds ∧ t ≠ [] ∧
      (∀ d ∈ t, inRanges [('0', '9')] d = true) ∧
      (1 ≤ n → ∃ c cs, t = c :: cs ∧ inRanges [('1', '9')] c = true) ∧
      parseDigits t 0 = n := by
  intro fuel
  induction fuel with
  | zero => intro n ds h; omega
  | succ fuel ih =>
    intro n ds h
    have hmod : n % 10 < 10 := Nat.mod_lt _ (by decide)
    have hcode := digitChar_toNat (n % 10) hmod
    have hdig : inRanges [('0', '9')] (Nat.digitChar (n % 10)) = true := by
      rw [inRanges_one, hcode]
      have h0 : ('0' : Char).toNat = 48 := by decide
      have h9 : ('9' : Char).toNat = 57 := by decide
      rw [h0, h9]; omega
    have hval : digitValue (Nat.digitChar (n % 10)) = n % 10 := by
      simp [digitValue, hcode]
    rw [Nat.toDigitsCore]
    by_cases h0 : n / 10 = 0
    · simp only [h0, if_true]
      have hn : n % 10 = n := Nat.mod_eq_of_lt (by omega)
      refine ⟨[Nat.digitChar (n % 10)], rfl, by simp, ?_, ?_, ?_⟩
      · intro d hd; rw [List.mem_singleton.mp hd]; exact hdig
      · intro h1
        refine ⟨_, [], rfl, ?_⟩
        rw [inRanges_one, hcode]
        have e1 : ('1' : Char).toNat = 49 := by decide
        have e9 : ('9' : Char).toNat = 57 := by decide
        rw [e1, e9]; omega
      · have hd2 : isDigit (Nat.digitChar (n % 10)) = true := by rw [← inRanges_digit]; exact hdig
        simp only [parseDigits, hd2, if_true, hval]
        omega
    · simp only [h0, if_false]
      obtain ⟨t, ht, _, hdt, hnz, hv⟩ := ih (n / 10) (Nat.digitChar (n % 10) :: ds) (by omega)
      refine ⟨t ++ [Nat.digitChar (n % 10)], by rw [ht]; simp, by simp, ?_, ?_, ?_⟩
      · intro d hd
        rcases List.mem_append.mp hd with hd | hd
        · exact hdt d hd
        · rw [List.mem_singleton.mp hd]; exact hdig
      · intro _
        obtain ⟨c, cs, rfl, hc⟩ := hnz (by omega)
        exact ⟨c, cs ++ [Nat.digitChar (n % 10)], rfl, hc⟩
      · have hd2 : isDigit (Nat.digitChar (n % 10)) = true := by rw [← inRanges_digit]; exact hdig
        rw [parseDigits_append _ _ _ hdt, hv]
        simp only [parseDigits, hd2, if_true, hval]
        omega

/-- The decimal text of a positive number is a numeral. -/
theorem repr_numeral {n : Nat} (h : 1 ≤ n) : IsNumeral (Nat.repr n).toList := by
  obtain ⟨t, ht, _, hdt, hnz, _⟩ := toDigitsCore_spec (n + 1) n [] (by omega)
  obtain ⟨c, cs, rfl, hc⟩ := hnz h
  have : (Nat.repr n).toList = c :: cs := by
    show Nat.toDigits 10 n = c :: cs
    rw [Nat.toDigits, ht]; simp
  rw [this]
  exact ⟨c, cs, rfl, hc, fun d hd => hdt d (by simp [hd])⟩

/-- Reading the decimal text of a number gives the number back. -/
theorem parseDigits_repr (n : Nat) : parseDigits (Nat.repr n).toList 0 = n := by
  obtain ⟨t, ht, _, _, _, hv⟩ := toDigitsCore_spec (n + 1) n [] (by omega)
  have : (Nat.repr n).toList = t := by
    show Nat.toDigits 10 n = t
    rw [Nat.toDigits, ht]; simp
  rw [this, hv]

/-! ## The loops on simple dice terms -/

/-- A match at the very position where the scan starts is the one `search` returns. -/
theorem search_hit (re : Re) (pos : Nat) (rest : List Char) (y : MState)
    (h : re.run ⟨pos, rest, noCaps⟩ some = some y) :
    re.search pos rest =
      some (pos, { y with caps := setCap y.caps 0 (rest.take (y.pos - pos)) }) := by
  cases rest with
  | nil => rw [Re.search, h]; simp
  | cons c t => rw [Re.search, h]

/-- `exec` of a global pattern whose `lastIndex` is where a match starts. -/
theorem exec_hit (re : Re) (pre rest : List Char) (y : MState)
    (h : re.run ⟨pre.length, rest, noCaps⟩ some = some y) :
    (RegExp.mk re true).exec pre.length (pre ++ rest) =
      (some ⟨pre.length, y.pos, setCap y.caps 0 (rest.take (y.pos - pre.length)),
        re.groups.length + 1⟩, y.pos) := by
  simp only [RegExp.exec, if_true]
  rw [if_neg (by simp), List.drop_left, search_hit re _ _ _ h]

/-- `exec` of the global notation pattern at the end of the input finds nothing. -/
theorem exec_notation_end (text : List Char) :
    (RegExp.mk notationRe true).exec text.length text = (none, 0) := by
  cases he : (RegExp.mk notationRe true).exec text.length text with
  | mk om li =>
    cases om with
    | none => rw [exec_none _ _ _ _ he]
    | some m =>
      have := exec_notation_some _ _ _ _ he
      omega

theorem arith_inRanges {op : Char} (h : isArith op) :
    inRanges [('+', '+'), ('-', '-'), ('*', '*'), ('/', '/')] op = true := by
  rcases h with rfl | rfl | rfl | rfl <;> decide

/-- The die built from a match of a simple dice term. -/
theorem dieOfMatch_plain (m : Match) (ai : Nat) (opv : Value) {q s : List Char}
    (hq : IsNumeral q) (hs : IsNumeral s)
    (h1 : m.get 1 = opv) (h2 : m.caps 2 = some q) (h3 : m.caps 3 = some s)
    (h5 : m.caps 5 = none) (h6 : m.caps 6 = none) (h8 : m.caps 8 = some []) :
    dieOfMatch m ai = some (
      { operator := opv.or (.str "+"), qty := parseInt (.str (String.mk q)),
        sides := if isNumeric (.str (String.mk s)) then parseInt (.str (String.mk s))
          else .str (String.mk s),
        fudge := none, explode := false,
        penetrate := false, compound := false, comparePoint := none, additions := [] }, ai) := by
  have g2 := get_of_some h2
  have g3 := get_of_some h3
  have g5 := get_of_none h5
  have g6 := get_of_none h6
  have g8 : m.get 8 = .str "" := get_of_some h8
  have hf : fudgeOf (if isNumeric (.str (String.mk s)) then parseInt (.str (String.mk s))
      else .str (String.mk s)) = some none := by
    rcases numeral_cases hs with ⟨_, hn⟩ | ⟨k, _, hp, hn⟩
    · rw [hn]; simp only [Bool.false_eq_true, if_false]; exact fudgeOf_numeral hs
    · rw [hn, if_pos rfl, hp]; rfl
  unfold dieOfMatch
  simp only [h1, g2, g3, g5, g6, g8, hf, truthy_numeral hq, if_true]
  simp [Value.truthy, comparePointOf, g5, g6]

theorem TermStart.noDigit {tail : List Char} (h : TermStart tail) :
    ∀ c cs, tail = c :: cs → inRanges [('0', '9')] c = false := by
  intro c cs hc
  rcases h with rfl | ⟨op, q, rest, hop, _, rfl⟩
  · cases hc
  · cases hc
    exact arith_not_digit (arith_inRanges hop)

theorem tail_run_start {tail : List Char} (h : TermStart tail) (p : Nat)
    (caps : Nat → Option (List Char)) (k : Cont) :
    tailRe.run ⟨p, tail, caps⟩ k = k ⟨p, tail, setCap caps 8 []⟩ := by
  rcases h with rfl | ⟨op, q, rest, hop, hq, rfl⟩
  · exact tail_run_nil p caps k
  · exact tail_run_next (arith_inRanges hop) hq rest p caps k

theorem joinTerms_start (ts : List (Char × Nat × Nat))
    (h : ∀ t ∈ ts, isArith t.1 ∧ 1 ≤ t.2.1 ∧ 1 ≤ t.2.2) : TermStart (joinTerms ts).toList := by
  cases ts with
  | nil => left; rfl
  | cons t ts =>
    right
    obtain ⟨hop, hq, _⟩ := h t (by simp)
    refine ⟨t.1, (Nat.repr t.2.1).toList, (Nat.repr t.2.2).toList ++ (joinTerms ts).toList,
      hop, repr_numeral hq, ?_⟩
    simp [joinTerms, diceText, String.singleton]

theorem string_singleton (op : Char) : String.mk [op] = String.singleton op := rfl

theorem or_plus_singleton (op : Char) :
    (Value.str (String.singleton op)).or (.str "+") = .str (String.singleton op) := by
  have : (Value.str (String.singleton op)).truthy = true := truthy_mk (t := [op]) (by simp)
  simp [Value.or, this]

/-- The outer loop over the remaining simple dice terms of the input. -/
theorem parseLoop_terms : ∀ (ts : List (Char × Nat × Nat)),
    (∀ t ∈ ts, isArith t.1 ∧ 1 ≤ t.2.1 ∧ 1 ≤ t.2.2) →
    ∀ (pre : List Char) (fuel : Nat) (acc : List (List Value × Die)),
      (joinTerms ts).toList.length < fuel →
      ∃ tr, parseLoop ⟨notationRe, true⟩ (pre ++ (joinTerms ts).toList) fuel ⟨pre.length, 0⟩ acc =
          some (tr, ⟨0, 0⟩) ∧
        tr.map Prod.snd = acc.map Prod.snd ++ ts.map (fun t => termDie t.1 t.2.1 t.2.2) := by
  intro ts
  induction ts with
  | nil =>
    intro _ pre fuel acc hf
    obtain ⟨f, rfl⟩ : ∃ f, fuel = f + 1 := ⟨fuel - 1, by omega⟩
    refine ⟨acc, ?_, by simp⟩
    rw [parseLoop]
    have : (pre ++ (joinTerms []).toList) = pre := by simp [joinTerms]
    rw [this]
    simp only [exec_notation_end]
  | cons t ts ih =>
    intro h pre fuel acc hf
    obtain ⟨f, rfl⟩ : ∃ f, fuel = f + 1 := ⟨fuel - 1, by omega⟩
    obtain ⟨hop, hq1, hs1⟩ := h t (by simp)
    have hts : ∀ t ∈ ts, isArith t.1 ∧ 1 ≤ t.2.1 ∧ 1 ≤ t.2.2 := fun u hu => h u (by simp [hu])
    have hq := repr_numeral hq1
    have hs := repr_numeral hs1
    have hstart := joinTerms_start ts hts
    have htext : (joinTerms (t :: ts)).toList =
        t.1 :: ((Nat.repr t.2.1).toList ++ 'd' :: ((Nat.repr t.2.2).toList ++ (joinTerms ts).toList)) := by
      simp [joinTerms, diceText, String.singleton]
    have hrun := head_run_op (arith_inRanges hop) hq hs (joinTerms ts).toList hstart.noDigit
      pre.length noCaps some _ (by rw [tail_run_start hstart])
    rw [← htext] at hrun
    rw [parseLoop]
    simp only [exec_hit notationRe pre _ _ hrun]
    rw [dieOfMatch_plain _ 0 (.str (String.singleton t.1)) hq hs
      (by simp [Match.get, setCap, clearCaps, string_singleton])
      (by simp [setCap]) (by simp [setCap]) (by simp [setCap, clearCaps, noCaps])
      (by simp [setCap, clearCaps, noCaps]) (by simp [setCap])]
    simp only [or_plus_singleton]
    have hpre : pre ++ (joinTerms (t :: ts)).toList =
        (pre ++ (t.1 :: ((Nat.repr t.2.1).toList ++ 'd' :: (Nat.repr t.2.2).toList))) ++
          (joinTerms ts).toList := by
      rw [htext]; simp
    have hlen : (pre ++ (t.1 :: ((Nat.repr t.2.1).toList ++ 'd' :: (Nat.repr t.2.2).toList))).length =
        pre.length + 1 + (Nat.repr t.2.1).toList.length + 1 + (Nat.repr t.2.2).toList.length := by
      simp; omega
    rw [hpre, ← hlen]
    obtain ⟨tr, h1, h2⟩ := ih hts _ f
      (acc ++ [(Match.toArray _, termDie t.1 t.2.1 t.2.2)])
      (by rw [htext] at hf; simp at hf ⊢; omega)
    refine ⟨tr, ?_, ?_⟩
    · exact h1
    · rw [h2]; simp

/-- Below `2 ^ 53` the die of a simple dice term holds its quantity and its sides. -/
theorem termDie_small (op : Char) {q s : Nat} (hq : 1 ≤ q) (hq2 : q < 2 ^ 53) (hs : 1 ≤ s)
    (hs2 : s < 2 ^ 53) : termDie op q s = plainDie op q s := by
  have h1 := numeral_small (repr_numeral hq) (by rw [parseDigits_repr]; exact hq2)
  have h2 := numeral_small (repr_numeral hs) (by rw [parseDigits_repr]; exact hs2)
  rw [parseDigits_repr] at h1 h2
  have e1 : String.mk (Nat.repr q).toList = Nat.repr q := rfl
  have e2 : String.mk (Nat.repr s).toList = Nat.repr s := rfl
  rw [e1] at h1
  rw [e2] at h2
  unfold termDie plainDie
  rw [h1.2, h2.1, h2.2]
  rfl

theorem truthy_of_toList {s : String} {c : Char} {t : List Char} (h : s.toList = c :: t) :
    (Value.str s).truthy = true := by
  simp only [Value.truthy, bne_iff_ne, ne_eq]
  intro e
  rw [e] at h
  cases h

/-- A notation made of simple dice terms `q d s` joined by arithmetic operators parses into
exactly one term per dice term, in textual order: the die the parser builds from the texts of
the quantity and the sides, with the operator of the term (`+` for the first). -/
theorem parseNotation_terms (q s : Nat) (ts : List (Char × Nat × Nat))
    (hq : 1 ≤ q) (hs : 1 ≤ s) (hts : ∀ t ∈ ts, isArith t.1 ∧ 1 ≤ t.2.1 ∧ 1 ≤ t.2.2) :
    parseNotation (.str (diceText q s ++ joinTerms ts)) =
      some (termDie '+' q s :: ts.map (fun t => termDie t.1 t.2.1 t.2.2)) := by
  have hqn := repr_numeral hq
  have hsn := repr_numeral hs
  have hstart := joinTerms_start ts hts
  have htext : (diceText q s ++ joinTerms ts).toList =
      (Nat.repr q).toList ++ 'd' :: ((Nat.repr s).toList ++ (joinTerms ts).toList) := by
    simp [diceText]
  obtain ⟨c, cs, hc, _⟩ := hqn
  have hqn := repr_numeral hq
  have htruthy : (Value.str (diceText q s ++ joinTerms ts)).truthy = true :=
    truthy_of_toList (c := c) (t := cs ++ 'd' :: ((Nat.repr s).toList ++ (joinTerms ts).toList))
      (by rw [htext, hc]; rfl)
  have hrun := head_run_plain hqn hsn (joinTerms ts).toList hstart.noDigit
    0 noCaps some _ (by rw [tail_run_start hstart])
  have hexec := exec_hit notationRe [] _ _ hrun
  simp only [List.length_nil, List.nil_append] at hexec
  unfold parseNotation parseNotationTrace
  rw [if_pos htruthy, get_notation_g]
  simp only [Value.toText]
  rw [htext, parseLoop]
  simp only [hexec]
  rw [dieOfMatch_plain _ 0 .undefined hqn hsn
    (by simp [Match.get, setCap, clearCaps, noCaps])
    (by simp [setCap]) (by simp [setCap]) (by simp [setCap, clearCaps, noCaps])
    (by simp [setCap, clearCaps, noCaps]) (by simp [setCap])]
  have key : ∀ (arr : List Value) (fuel idx : Nat),
      idx = ((Nat.repr q).toList ++ 'd' :: (Nat.repr s).toList).length →
      (joinTerms ts).toList.length < fuel →
      Option.map (fun r : List (List Value × Die) × PatternCache => List.map Prod.snd r.1)
        (parseLoop ⟨notationRe, true⟩
          ((Nat.repr q).toList ++ 'd' :: ((Nat.repr s).toList ++ (joinTerms ts).toList))
          fuel ⟨idx, 0⟩ ([] ++ [(arr, termDie '+' q s)])) =
      some (termDie '+' q s :: ts.map (fun t => termDie t.1 t.2.1 t.2.2)) := by
    intro arr fuel idx hidx hf
    have hpre : (Nat.repr q).toList ++ 'd' :: ((Nat.repr s).toList ++ (joinTerms ts).toList) =
        ((Nat.repr q).toList ++ 'd' :: (Nat.repr s).toList) ++ (joinTerms ts).toList := by simp
    obtain ⟨tr, h1, h2⟩ := parseLoop_terms ts hts
      ((Nat.repr q).toList ++ 'd' :: (Nat.repr s).toList) fuel
      ([] ++ [(arr, termDie '+' q s)]) hf
    rw [hpre, hidx, h1, Option.map_some', h2]
    rfl
  exact key _ _ _ (by simp; omega) (by simp; omega)

/-- C2 (amended): a notation made of simple dice terms `q d s` joined by arithmetic operators
parses into exactly one term per dice term, in textual order, each with the operator of its
term (`+` for the first), no flags, no compare point and empty additions, and with the
quantity and sides that `parseInt` reads from its texts; when every quantity and every side
count is below `2 ^ 53`, these are the quantity and the sides written. -/
theorem parseNotation_simple_terms (q s : Nat) (ts : List (Char × Nat × Nat))
    (hq : 1 ≤ q) (hs : 1 ≤ s) (hts : ∀ t ∈ ts, isArith t.1 ∧ 1 ≤ t.2.1 ∧ 1 ≤ t.2.2) :
    parseNotation (.str (diceText q s ++ joinTerms ts)) =
      some (termDie '+' q s :: ts.map (fun t => termDie t.1 t.2.1 t.2.2)) ∧
    (q < 2 ^ 53 → s < 2 ^ 53 → (∀ t ∈ ts, t.2.1 < 2 ^ 53 ∧ t.2.2 < 2 ^ 53) →
      parseNotation (.str (diceText q s ++ joinTerms ts)) =
        some (plainDie '+' q s :: ts.map (fun t => plainDie t.1 t.2.1 t.2.2))) := by
  refine ⟨parseNotation_terms q s ts hq hs hts, ?_⟩
  intro hq2 hs2 hb
  rw [parseNotation_terms q s ts hq hs hts, termDie_small '+' hq hq2 hs hs2]
  congr 2
  apply List.map_congr_left
  intro t ht
  exact termDie_small t.1 (hts t ht).2.1 (hb t ht).1 (hts t ht).2.2 (hb t ht).2

set_option maxRecDepth 100000 in
/-- Witness of C2 on the text `2d20+1d6*3d4`. -/
theorem parseNotation_simple_terms_witness :
    (1 ≤ 2 ∧ 1 ≤ 20 ∧ ∀ t ∈ [('+', 1, 6), ('*', 3, 4)], isArith t.1 ∧ 1 ≤ t.2.1 ∧ 1 ≤ t.2.2) ∧
    (2 < 2 ^ 53 ∧ 20 < 2 ^ 53 ∧
      ∀ t ∈ [(('+' : Char), 1, 6), ('*', 3, 4)], t.2.1 < 2 ^ 53 ∧ t.2.2 < 2 ^ 53) ∧
    parseNotation (.str "2d20+1d6*3d4") =
      some [plainDie '+' 2 20, plainDie '+' 1 6, plainDie '*' 3 4] :=
  ⟨⟨by decide, by decide, by decide⟩, ⟨by decide, by decide, by decide⟩,
    (parseNotation_simple_terms 2 20 [('+', 1, 6), ('*', 3, 4)] (by decide) (by decide)
      (by decide)).2 (by decide) (by decide) (by decide)⟩

set_option maxRecDepth 100000 in
set_option exponentiation.threshold 2000 in
/-- C2 at the input `1d9007199254740993`: the sides of the term are the double nearest to
the number written, 9007199254740992, not the number written. -/
theorem parseNotation_sides_rounded :
    parseNotation (.str "1d9007199254740993") = some [plainDie '+' 1 9007199254740992] ∧
    plainDie '+' 1 9007199254740992 ≠ plainDie '+' 1 9007199254740993 := by
  decide!

set_option maxRecDepth 100000 in
set_option exponentiation.threshold 2000 in
/-- The number `10 ^ 309` is beyond the range of doubles. -/
theorem toDouble_huge : toDouble ((10 ^ 309 : Nat) : ℚ) = .inf false := by
  decide!

theorem mk_toList (s : String) : String.mk s.toList = s := rfl

set_option exponentiation.threshold 2000 in
/-- C5 at the inputs `1d` and `d6` with the numeral of `10 ^ 309` (a one followed by 309
zeros) for the sides, respectively the quantity: the sides of the term are the text of the
numeral, not a number, and the quantity of the term is `Infinity`. -/
theorem parseNotation_huge_numeral :
    parseNotation (.str (diceText 1 (10 ^ 309))) =
      some [{ plainDie '+' 1 1 with sides := .str (Nat.repr (10 ^ 309)) }] ∧
    parseNotation (.str (diceText (10 ^ 309) 6)) =
      some [{ plainDie '+' 1 6 with qty := .inf false }] := by
  have hbig : 1 ≤ 10 ^ 309 := Nat.one_le_pow _ _ (by decide)
  have hn := repr_numeral hbig
  have e1 := mk_toList (Nat.repr (10 ^ 309))
  have hp := (parseInt_numeral hn).1
  have hi := isNumeric_numeral hn
  rw [parseDigits_repr, toDouble_huge, e1] at hp hi
  have h1 := numeral_small (repr_numeral (Nat.le_refl 1)) (by rw [parseDigits_repr]; decide)
  have h6 := numeral_small (repr_numeral (show 1 ≤ 6 by decide)) (by rw [parseDigits_repr]; decide)
  rw [parseDigits_repr] at h1 h6
  have e2 := mk_toList (Nat.repr 1)
  have e3 := mk_toList (Nat.repr 6)
  rw [e2] at h1
  rw [e3] at h6
  constructor
  · have := parseNotation_terms 1 (10 ^ 309) [] (Nat.le_refl 1) hbig (by simp)
    simp only [joinTerms, String.append_empty, List.map_nil] at this
    rw [this]
    unfold termDie plainDie
    rw [hi, h1.2]
    rfl
  · have := parseNotation_terms (10 ^ 309) 6 [] hbig (by decide) (by simp)
    simp only [joinTerms, String.append_empty, List.map_nil] at this
    rw [this]
    unfold termDie plainDie
    rw [hp, h6.1, h6.2]
    rfl

/-- The tail of the notation pattern on a trailing modifier token that ends the input. -/
theorem tail_token_run (token : List Char)
    (ht : token = [] ∨ token = ['!'] ∨ token = ['!', '!'] ∨ token = ['!', 'p'] ∨
      token = ['!', '!', 'p'])
    (p : Nat) (caps : Nat → Option (List Char)) :
    ∃ y, tailRe.run ⟨p, token, caps⟩ some = some y ∧ y.pos = p + token.length ∧ y.rest = [] ∧
      y.caps 5 = (if token = [] then caps 5 else some token) ∧
      ∀ i, i ≠ 5 → i ≠ 8 → y.caps i = caps i := by
  rcases ht with rfl | rfl | rfl | rfl | rfl
  · rw [tail_run_nil]
    exact ⟨_, rfl, rfl, rfl, by simp [setCap], fun i _ h8 => by simp [setCap, h8]⟩
  all_goals
    simp [tailRe, explodeRe, compRe, compOpRe, additionIn, arithCls, addValueRe, Re.run,
      repeatMatcher, MState.next, inRanges, Re.groups, clearCaps_nil, Nat.add_assoc, setCap,
      clearCaps]
    intro i h5 h8
    simp [h5, h8]

/-- The sides group and the tail of the notation pattern on a percentile or fudge marker
followed by a trailing modifier token that ends the input. -/
theorem sides_token_run (sides token : List Char)
    (hs : sides = ['%'] ∨ sides = ['F'] ∨ sides = ['F', '.', '1'] ∨ sides = ['F', '.', '2'])
    (ht : token = [] ∨ token = ['!'] ∨ token = ['!', '!'] ∨ token = ['!', 'p'] ∨
      token = ['!', '!', 'p'])
    (p : Nat) (caps : Nat → Option (List Char)) :
    ∃ y, (Re.seq (.group 3 sidesRe) tailRe).run ⟨p, sides ++ token, caps⟩ some = some y ∧
      y.pos = p + sides.length + token.length ∧ y.rest = [] ∧ y.caps 3 = some sides ∧
      y.caps 5 = (if token = [] then caps 5 else some token) ∧
      ∀ i, i ≠ 3 → i ≠ 4 → i ≠ 5 → i ≠ 8 → y.caps i = caps i := by
  rcases hs with rfl | rfl | rfl | rfl <;> rcases ht with rfl | rfl | rfl | rfl | rfl
  all_goals
    simp [tailRe, sidesRe, numeralRe, nzCls, digitCls, fudgeRe, explodeRe, compRe, compOpRe,
      additionIn, arithCls, addValueRe, Re.run, repeatMatcher, MState.next, inRanges, Re.groups,
      clearCaps_nil, Nat.add_assoc, setCap, clearCaps]
    intro i h3 h4 h5 h8
    simp [h3, h4, h5, h8]

/-- The head of the notation pattern on a quantity and the letter d: what is left to match
is the sides group and the tail. -/
theorem head_run_qty {q : List Char} (hq : IsNumeral q) (rest : List Char)
    (p : Nat) (caps : Nat → Option (List Char)) (k : Cont) (z : MState)
    (hk : (Re.seq (.group 3 sidesRe) tailRe).run
      ⟨p + q.length + 1, rest, setCap (clearCaps [2] caps) 2 q⟩ k = some z) :
    notationRe.run ⟨p, q ++ 'd' :: rest, caps⟩ k = some z := by
  rw [notationRe, run_seq, opGroup_skip hq, run_seq]
  apply qtyGroup_taken hq
  rw [run_seq, run_char_cons, if_pos rfl]
  exact hk

theorem token_noDigit {token : List Char}
    (ht : token = [] ∨ token = ['!'] ∨ token = ['!', '!'] ∨ token = ['!', 'p'] ∨
      token = ['!', '!', 'p']) :
    ∀ c cs, token = c :: cs → inRanges [('0', '9')] c = false := by
  intro c cs h
  rcases ht with rfl | rfl | rfl | rfl | rfl <;> cases h <;> decide

/-- The notation pattern on a dice core followed by a trailing modifier token: the match
covers the whole text, and group 5 holds the token when there is one. -/
theorem core_token_run {q : List Char} (hq : IsNumeral q) (sides token : List Char)
    (hs : IsNumeral sides ∨ sides = ['%'] ∨ sides = ['F'] ∨ sides = ['F', '.', '1'] ∨
      sides = ['F', '.', '2'])
    (ht : token = [] ∨ token = ['!'] ∨ token = ['!', '!'] ∨ token = ['!', 'p'] ∨
      token = ['!', '!', 'p']) :
    ∃ y, notationRe.run ⟨0, q ++ 'd' :: (sides ++ token), noCaps⟩ some = some y ∧
      y.pos = (q ++ 'd' :: (sides ++ token)).length ∧
      y.caps 5 = (if token = [] then none else some token) := by
  rcases hs with hs | hs
  · obtain ⟨y, hy, hpos, _, h5, _⟩ := tail_token_run token ht (0 + q.length + 1 + sides.length)
      (setCap (setCap (clearCaps [2] noCaps) 2 q) 3 sides)
    refine ⟨y, head_run_plain hq hs token (token_noDigit ht) 0 noCaps some y hy, ?_, ?_⟩
    · rw [hpos]; simp; omega
    · rw [h5]; simp [setCap, clearCaps, noCaps]
  · obtain ⟨y, hy, hpos, _, _, h5, _⟩ := sides_token_run sides token hs ht (0 + q.length + 1)
      (setCap (clearCaps [2] noCaps) 2 q)
    refine ⟨y, head_run_qty hq _ 0 noCaps some y hy, ?_, ?_⟩
    · rw [hpos]; simp; omega
    · rw [h5]; simp [setCap, clearCaps, noCaps]

/-- A text that the notation pattern matches from its first character to its last parses
into the single die built from that match. -/
theorem parseNotation_single (text : String) (y : MState) (die : Die) (ai : Nat)
    (hrun : notationRe.run ⟨0, text.toList, noCaps⟩ some = some y)
    (hend : y.pos = text.toList.length)
    (hdie : dieOfMatch ⟨0, y.pos, setCap y.caps 0 (text.toList.take (y.pos - 0)),
      notationRe.groups.length + 1⟩ 0 = some (die, ai)) :
    parseNotation (.str text) = some [die] := by
  have hpos : 0 < text.toList.length := by
    have := exec_hit notationRe [] _ _ hrun
    have := (exec_notation_some _ _ _ _ this).2.1
    simp only [List.length_nil] at this
    omega
  obtain ⟨c, t, hct⟩ := List.exists_cons_of_ne_nil (List.length_pos.mp hpos)
  have hexec := exec_hit notationRe [] _ _ hrun
  simp only [List.length_nil, List.nil_append] at hexec
  unfold parseNotation parseNotationTrace
  rw [if_pos (truthy_of_toList hct), get_notation_g]
  simp only [Value.toText]
  rw [parseLoop]
  simp only [hexec, hdie]
  obtain ⟨f, hf⟩ : ∃ f, text.toList.length = f + 1 := ⟨text.toList.length - 1, by omega⟩
  rw [hf, parseLoop]
  simp only []
  rw [hend, exec_notation_end]
  rfl

/-- C3: a valid dice core (`NdS`, `Nd%`, `NdF`, `NdF.1`, `NdF.2`) followed by at most one
trailing modifier token parses into a single term whose flags are: no token, all false;
`!`, explode only; `!!`, explode and compound; `!p`, explode and penetrate; `!!p`, all
three. -/
theorem parseNotation_flags (n : Nat) (hn : 1 ≤ n) (sides token : String)
    (hs : (∃ s, 1 ≤ s ∧ sides = Nat.repr s) ∨ sides = "%" ∨ sides = "F" ∨ sides = "F.1" ∨
      sides = "F.2")
    (ht : token = "" ∨ token = "!" ∨ token = "!!" ∨ token = "!p" ∨ token = "!!p") :
    ∃ die, parseNotation (.str (Nat.repr n ++ "d" ++ sides ++ token)) = some [die] ∧
      die.explode = decide (token ≠ "") ∧
      die.compound = decide (token = "!!" ∨ token = "!!p") ∧
      die.penetrate = decide (token = "!p" ∨ token = "!!p") := by
  have hq := repr_numeral hn
  have hs2 : IsNumeral sides.toList ∨ sides.toList = ['%'] ∨ sides.toList = ['F'] ∨
      sides.toList = ['F', '.', '1'] ∨ sides.toList = ['F', '.', '2'] := by
    rcases hs with ⟨s, h1, rfl⟩ | rfl | rfl | rfl | rfl
    · exact Or.inl (repr_numeral h1)
    · exact Or.inr (Or.inl rfl)
    · exact Or.inr (Or.inr (Or.inl rfl))
    · exact Or.inr (Or.inr (Or.inr (Or.inl rfl)))
    · exact Or.inr (Or.inr (Or.inr (Or.inr rfl)))
  have ht2 : token.toList = [] ∨ token.toList = ['!'] ∨ token.toList = ['!', '!'] ∨
      token.toList = ['!', 'p'] ∨ token.toList = ['!', '!', 'p'] := by
    rcases ht with rfl | rfl | rfl | rfl | rfl
    · exact Or.inl rfl
    · exact Or.inr (Or.inl rfl)
    · exact Or.inr (Or.inr (Or.inl rfl))
    · exact Or.inr (Or.inr (Or.inr (Or.inl rfl)))
    · exact Or.inr (Or.inr (Or.inr (Or.inr rfl)))
  have htext : (Nat.repr n ++ "d" ++ sides ++ token).toList =
      (Nat.repr n).toList ++ 'd' :: (sides.toList ++ token.toList) := by simp
  obtain ⟨y, hrun, hpos, h5⟩ := core_token_run hq sides.toList token.toList hs2 ht2
  rw [← htext] at hrun hpos
  obtain ⟨die, ai, hdie, _⟩ := dieOfMatch_total
    ⟨0, y.pos, setCap y.caps 0 ((Nat.repr n ++ "d" ++ sides ++ token).toList.take (y.pos - 0)),
      notationRe.groups.length + 1⟩ 0
  refine ⟨die, parseNotation_single _ y die ai hrun hpos hdie, ?_⟩
  obtain ⟨_, _, _, _, hex, hpen, hcomp, _⟩ := dieOfMatch_fields hdie
  rw [hex, hpen, hcomp]
  have hcap : ∀ t, y.caps 5 = t →
      (Match.mk 0 y.pos (setCap y.caps 0
        ((Nat.repr n ++ "d" ++ sides ++ token).toList.take (y.pos - 0)))
        (notationRe.groups.length + 1)).caps 5 = t := by
    intro t h; simp [setCap, h]
  rcases ht with rfl | rfl | rfl | rfl | rfl
  · have g := get_of_none (hcap _ (by rw [h5]; rfl))
    rw [g]; decide
  all_goals
    have g := get_of_some (hcap _ (by rw [h5]; rfl))
    rw [g]; decide

set_option maxRecDepth 100000 in
/-- Witness of C3 on the text `4dF.1!!p`. -/
theorem parseNotation_flags_witness :
    (1 ≤ 4 ∧
      ((∃ s, 1 ≤ s ∧ "F.1" = Nat.repr s) ∨ "F.1" = "%" ∨ "F.1" = "F" ∨ "F.1" = "F.1" ∨
        "F.1" = "F.2") ∧
      ("!!p" = "" ∨ "!!p" = "!" ∨ "!!p" = "!!" ∨ "!!p" = "!p" ∨ "!!p" = "!!p")) ∧
    ∃ die, parseNotation (.str "4dF.1!!p") = some [die] ∧
      die.explode = true ∧ die.compound = true ∧ die.penetrate = true :=
  ⟨⟨by decide, Or.inr (Or.inr (Or.inr (Or.inl rfl))), by decide⟩,
    parseNotation_flags 4 (by decide) "F.1" "!!p" (Or.inr (Or.inr (Or.inr (Or.inl rfl))))
      (by decide)⟩

/-- The tail of the notation pattern on an operator followed by the marker `H` or `L` that
ends the input: the additions text is the operator and the marker. -/
theorem tail_marker_run (op marker : Char) (hop : isArith op) (hm : marker = 'H' ∨ marker = 'L')
    (p : Nat) (caps : Nat → Option (List Char)) :
    ∃ y, tailRe.run ⟨p, [op, marker], caps⟩ some = some y ∧ y.pos = p + 2 ∧ y.rest = [] ∧
      y.caps 8 = some [op, marker] ∧
      ∀ i, i ≠ 8 → i ≠ 9 → i ≠ 10 → y.caps i = caps i := by
  rcases hop with rfl | rfl | rfl | rfl <;> rcases hm with rfl | rfl
  all_goals
    simp [tailRe, explodeRe, compRe, compOpRe, additionIn, arithCls, addValueRe, nzCls, lookRe,
      digitCls, Re.run, repeatMatcher, MState.next, inRanges, Re.groups, clearCaps_nil,
      Nat.add_assoc, setCap, clearCaps]
    intro i h8 h9 h10
    simp [h8, h9, h10]

set_option maxRecDepth 100000 in
/-- The inner loop on an operator followed by the marker `H` or `L`. -/
theorem additionsLoop_marker (op marker : Char) (hop : isArith op)
    (hm : marker = 'H' ∨ marker = 'L') :
    additionsLoop [op, marker] 3 0 [] =
      some ([⟨.str (String.singleton op), .str (String.singleton marker)⟩], 0) := by
  rcases hop with rfl | rfl | rfl | rfl <;> rcases hm with rfl | rfl <;> decide

/-- The die built from a match of a simple dice term with an additions text. -/
theorem dieOfMatch_additions (m : Match) (ai li : Nat) (adds : List Addition) {q s : List Char}
    (a : List Char) (hq : IsNumeral q) (hs : IsNumeral s) (ha : a ≠ [])
    (h1 : m.caps 1 = none) (h2 : m.caps 2 = some q) (h3 : m.caps 3 = some s)
    (h5 : m.caps 5 = none) (h6 : m.caps 6 = none) (h8 : m.caps 8 = some a)
    (hadd : additionsLoop a (a.length + 1) ai [] = some (adds, li)) :
    dieOfMatch m ai = some (
      { operator := .str "+", qty := parseInt (.str (String.mk q)),
        sides := if isNumeric (.str (String.mk s)) then parseInt (.str (String.mk s))
          else .str (String.mk s),
        fudge := none, explode := false,
        penetrate := false, compound := false, comparePoint := none, additions := adds }, li) := by
  have g1 := get_of_none h1
  have g2 := get_of_some h2
  have g3 := get_of_some h3
  have g5 := get_of_none h5
  have g6 := get_of_none h6
  have g8 := get_of_some h8
  have t8 : (Value.str (String.mk a)).truthy = true := truthy_mk ha
  have x8 : (Value.str (String.mk a)).toText = a := rfl
  have hf : fudgeOf (if isNumeric (.str (String.mk s)) then parseInt (.str (String.mk s))
      else .str (String.mk s)) = some none := by
    rcases numeral_cases hs with ⟨_, hn⟩ | ⟨k, _, hp, hn⟩
    · rw [hn]; simp only [Bool.false_eq_true, if_false]; exact fudgeOf_numeral hs
    · rw [hn, if_pos rfl, hp]; rfl
  unfold dieOfMatch
  simp only [g1, g2, g3, g5, g6, g8, hf, truthy_numeral hq, if_true, t8, x8, hadd]
  simp [Value.truthy, comparePointOf, g5, g6, Value.or]

/-- C7: a dice core `NdS` followed by an arithmetic operator and the marker `H`
(respectively `L`) parses into a single term whose additions are exactly that operator with
the marker kept as the string `H` (respectively `L`); the rest of the term is the die of
`NdS`, which holds the quantity `N` and the sides `S` when they are below `2 ^ 53`. -/
theorem parseNotation_marker_addition (n s : Nat) (hn : 1 ≤ n) (hs : 1 ≤ s) (op marker : Char)
    (hop : isArith op) (hm : marker = 'H' ∨ marker = 'L') :
    (∃ die, parseNotation (.str (diceText n s ++ String.mk [op, marker])) = some [die] ∧
      die.additions = [⟨.str (String.singleton op), .str (String.singleton marker)⟩] ∧
      die = { termDie '+' n s with
        additions := [⟨.str (String.singleton op), .str (String.singleton marker)⟩] }) ∧
    (n < 2 ^ 53 → s < 2 ^ 53 →
      parseNotation (.str (diceText n s ++ String.mk [op, marker])) =
        some [{ plainDie '+' n s with
          additions := [⟨.str (String.singleton op), .str (String.singleton marker)⟩] }]) := by
  have hqn := repr_numeral hn
  have hsn := repr_numeral hs
  have htext : (diceText n s ++ String.mk [op, marker]).toList =
      (Nat.repr n).toList ++ 'd' :: ((Nat.repr s).toList ++ [op, marker]) := by
    simp [diceText]
  obtain ⟨y, hy, hpos, _, h8, hcaps⟩ := tail_marker_run op marker hop hm
    (0 + (Nat.repr n).toList.length + 1 + (Nat.repr s).toList.length)
    (setCap (setCap (clearCaps [2] noCaps) 2 (Nat.repr n).toList) 3 (Nat.repr s).toList)
  have hrun := head_run_plain hqn hsn [op, marker]
    (by intro c cs h; cases h; exact arith_not_digit (arith_inRanges hop)) 0 noCaps some y hy
  rw [← htext] at hrun
  have hd := dieOfMatch_additions
    ⟨0, y.pos, setCap y.caps 0 ((diceText n s ++ String.mk [op, marker]).toList.take (y.pos - 0)),
      notationRe.groups.length + 1⟩ 0 0
    [⟨.str (String.singleton op), .str (String.singleton marker)⟩] [op, marker] hqn hsn
    (by simp)
    (by simp [setCap, hcaps, clearCaps, noCaps])
    (by simp [setCap, hcaps])
    (by simp [setCap, hcaps])
    (by simp [setCap, hcaps, clearCaps, noCaps])
    (by simp [setCap, hcaps, clearCaps, noCaps])
    (by simp [setCap, h8])
    (additionsLoop_marker op marker hop hm)
  have hparse : parseNotation (.str (diceText n s ++ String.mk [op, marker])) =
      some [{ termDie '+' n s with
        additions := [⟨.str (String.singleton op), .str (String.singleton marker)⟩] }] := by
    refine parseNotation_single _ y _ 0 hrun (by rw [hpos, htext]; simp; omega) ?_
    rw [hd]
    rfl
  refine ⟨⟨_, hparse, rfl, rfl⟩, ?_⟩
  intro hn2 hs2
  rw [hparse, termDie_small '+' hn hn2 hs hs2]

set_option maxRecDepth 100000 in
/-- Witness of C7 on the text `3d6-L`. -/
theorem parseNotation_marker_addition_witness :
    (1 ≤ 3 ∧ 1 ≤ 6 ∧ isArith '-' ∧ ('L' = 'H' ∨ 'L' = 'L')) ∧ (3 < 2 ^ 53 ∧ 6 < 2 ^ 53) ∧
    parseNotation (.str "3d6-L") =
      some [{ plainDie '+' 3 6 with additions := [⟨.str "-", .str "L"⟩] }] :=
  ⟨⟨by decide, by decide, by decide, by decide⟩, ⟨by decide, by decide⟩,
    (parseNotation_marker_addition 3 6 (by decide) (by decide) '-' 'L' (by decide)
      (by decide)).2 (by decide) (by decide)⟩

/-! ## The roll log -/

/-- Importing entries that the Roll Evaluator imports back to rolls with the same display
appends rolls with the displays of the originals. -/
theorem importEntries_inverse {R : Type} (ev : RollEvaluator R) :
    ∀ (entries : List Data) (history : List R),
      List.Forall₂ (fun e r => ∃ r1, ev.importRoll e = some r1 ∧ ev.display r1 = ev.display r)
        entries history →
      ∀ acc, ∃ rs, importEntries ev entries acc = (acc ++ rs, none) ∧
        rs.map ev.display = history.map ev.display := by
  intro entries history h
  induction h with
  | nil => intro acc; exact ⟨[], by simp [importEntries], rfl⟩
  | cons hhead _ ih =>
    rename_i e r es rs0
    intro acc
    obtain ⟨r1, h1, h2⟩ := hhead
    obtain ⟨rs, h3, h4⟩ := ih (acc ++ [r1])
    refine ⟨r1 :: rs, ?_, ?_⟩
    · rw [importEntries, h1]
      simp only []
      rw [h3]
      simp
    · simp [h2, h4]

/-- Import of the parsed export envelope. -/
theorem importData_envelope {R : Type} (ev : RollEvaluator R) (env : JsEnv) (entries : List Data)
    (hobj : env.parse "[object Object]" = none) (fuel : Nat) (log : List R) :
    importData ev env (fuel + 1) log (.obj [("log", .arr entries)]) =
      importEntries ev entries log := by
  have hj : isJson env (.obj [("log", .arr entries)]) = false := by
    simp [isJson, Data.truthy, Data.toText, hobj]
  have hb : isBase64 env (.obj [("log", .arr entries)]) = false := by
    simp only [isBase64, Data.truthy, if_true]
    split
    · rfl
    · split
      · rename_i h; cases h
      · rfl
  rw [importData]
  simp [hj, hb, Data.truthy, Data.isObjectType, Data.log, Data.isArray, Data.items, List.lookup]

/-- Import of the JSON text of the export envelope. -/
theorem importData_json {R : Type} (ev : RollEvaluator R) (env : JsEnv) (text : String)
    (entries : List Data) (htext : text ≠ "")
    (hparse : env.parse text = some (.obj [("log", .arr entries)]))
    (hobj : env.parse "[object Object]" = none) (fuel : Nat) (log : List R) :
    importData ev env (fuel + 2) log (.str text) = importEntries ev entries log := by
  have hj : isJson env (.str text) = true := by
    simp [isJson, Data.truthy, Data.toText, hparse, htext, Data.isObjectType]
  rw [importData]
  simp only [hj, Data.truthy, Data.toText, hparse, if_true]
  rw [if_neg (by simp [htext])]
  exact importData_envelope ev env entries hobj fuel log

/-- The serialized entries of a history are imported back to rolls with the same display,
when the Roll Evaluator's import inverts its own serialization up to display. -/
theorem entries_inverse {R : Type} (ev : RollEvaluator R) (history : List R)
    (hinv : ∀ r ∈ history, ∃ r1, ev.importRoll (ev.toJSON r) = some r1 ∧
      ev.display r1 = ev.display r) :
    List.Forall₂ (fun e r => ∃ r1, ev.importRoll e = some r1 ∧ ev.display r1 = ev.display r)
      (history.map ev.toJSON) history := by
  induction history with
  | nil => exact .nil
  | cons r rs ih =>
    exact .cons (hinv r (by simp)) (ih (fun x hx => hinv x (by simp [hx])))

/-- C10: for the formats JSON and BASE_64, importing the text returned by `export` into a
fresh roll log yields a history of the same length, in the same order, with the same
display output, when the Roll Evaluator imports the serialization of each roll of the
history back to a roll with the same display, and the JSON and base64 primitives behave as
the environment's do (parsing the JSON text of the envelope `toJSON` builds gives that
envelope back, the JSON text is not empty, `[object Object]` is not JSON, the base64 text
decodes to the JSON text and is not itself JSON of an object). Fuel 3 is enough. -/
theorem import_export_roundtrip {R : Type} (ev : RollEvaluator R) (env : JsEnv)
    (history : List R) (format : Data) (text : String)
    (hformat : format = exportFormats.JSON ∨ format = exportFormats.BASE_64)
    (hexport : exportLog ev env history format = .ok text)
    (hJ : env.stringify (toJSON ev history) ≠ "")
    (hparse : env.parse (env.stringify (toJSON ev history)) = some (toJSON ev history))
    (hinv : ∀ r ∈ history, ∃ r1, ev.importRoll (ev.toJSON r) = some r1 ∧
      ev.display r1 = ev.display r)
    (hobj : env.parse "[object Object]" = none)
    (hb64 : format = exportFormats.BASE_64 → text ≠ "" ∧
      env.atob text = some (env.stringify (toJSON ev history)) ∧
      ∀ v, env.parse text = some v → (v.truthy && v.isObjectType) = false)
    (fuel : Nat) (hfuel : 3 ≤ fuel) :
    ∃ log1, importFresh ev env fuel (.str text) = (log1, none) ∧
      log1.length = history.length ∧
      log1.map ev.display = history.map ev.display ∧
      output ev log1 = output ev history := by
  obtain ⟨rs, hrs, hdisp⟩ := importEntries_inverse ev (history.map ev.toJSON) history
    (entries_inverse ev history hinv) []
  have hparse2 : env.parse (env.stringify (toJSON ev history)) =
      some (.obj [("log", .arr (history.map ev.toJSON))]) := hparse
  obtain ⟨f, rfl⟩ : ∃ f, fuel = f + 3 := ⟨fuel - 3, by omega⟩
  have hlen : rs.length = history.length := by
    have := congrArg List.length hdisp
    simpa using this
  refine ⟨rs, ?_, hlen, hdisp, by simp [output, hdisp]⟩
  rw [importFresh]
  rcases hformat with rfl | rfl
  · have : text = env.stringify (toJSON ev history) := by
      simp [exportLog, exportFormats.JSON, Data.truthy] at hexport
      exact hexport.symm
    subst this
    rw [importData_json ev env _ _ hJ hparse2 hobj (f + 1) [], hrs]
    rfl
  · obtain ⟨htext, hatob, hnj⟩ := hb64 rfl
    have hbtoa : env.btoa (env.stringify (toJSON ev history)) = some text := by
      simp only [exportLog, exportFormats.BASE_64, Data.truthy] at hexport
      cases hb : env.btoa (env.stringify (toJSON ev history)) with
      | none => rw [hb] at hexport; simp at hexport
      | some t =>
        rw [hb] at hexport
        simp at hexport
        rw [hexport]
    have hj : isJson env (.str text) = false := by
      simp only [isJson, Data.truthy, Data.toText]
      rw [if_pos (by simp [htext])]
      cases hp : env.parse text with
      | none => rfl
      | some v => exact hnj v hp
    have hb : isBase64 env (.str text) = true := by
      simp [isBase64, Data.truthy, Data.toText, htext, hatob, hbtoa]
    rw [importData]
    simp only [hj, hb, Data.truthy, Data.toText, hatob, if_true]
    rw [if_neg (by simp [htext])]
    simp only [Bool.false_eq_true, if_false]
    rw [importData_json ev env _ _ hJ hparse2 hobj f [], hrs]
    rfl

set_option maxRecDepth 100000 in
/-- The JSON text that the printer gives for the envelope of the log `[1, 2]`. -/
theorem demoJson_eq : (toJSON demoEvaluator [1, 2]).json = "\x7b\"log\":[1,2]\x7d" := by
  decide

set_option maxRecDepth 100000 in
theorem demoJson_ne : printEnv.stringify (toJSON demoEvaluator [1, 2]) ≠ "" := by
  decide

set_option maxRecDepth 100000 in
/-- The environment reads the JSON text of the envelope of the log `[1, 2]` back. -/
theorem demoParse_eq : printEnv.parse (printEnv.stringify (toJSON demoEvaluator [1, 2])) =
    some (toJSON demoEvaluator [1, 2]) := by
  rfl

set_option maxRecDepth 100000 in
theorem demoParse_object : printEnv.parse "[object Object]" = none := by
  rfl

theorem demoInverse : ∀ r ∈ [1, 2], ∃ r1,
    demoEvaluator.importRoll (demoEvaluator.toJSON r) = some r1 ∧
      demoEvaluator.display r1 = demoEvaluator.display r := by
  intro r _
  exact ⟨r, by simp [demoEvaluator], rfl⟩

set_option maxRecDepth 100000 in
theorem demoBase64 : "b64:" ++ (toJSON demoEvaluator [1, 2]).json ≠ "" ∧
    printEnv.atob ("b64:" ++ (toJSON demoEvaluator [1, 2]).json) =
      some (printEnv.stringify (toJSON demoEvaluator [1, 2])) ∧
    ∀ v, printEnv.parse ("b64:" ++ (toJSON demoEvaluator [1, 2]).json) = some v →
      (v.truthy && v.isObjectType) = false := by
  refine ⟨by decide, by decide, ?_⟩
  intro v hv
  have : printEnv.parse ("b64:" ++ (toJSON demoEvaluator [1, 2]).json) = none := rfl
  rw [this] at hv
  cases hv

set_option maxRecDepth 100000 in
/-- Witness of C10: the log `[1, 2]` exported as BASE_64 and as JSON by an environment that
prints JSON, and imported into a fresh log. -/
theorem import_export_roundtrip_witness :
    (exportLog demoEvaluator printEnv [1, 2] exportFormats.BASE_64 =
        .ok ("b64:" ++ (toJSON demoEvaluator [1, 2]).json) ∧
      (toJSON demoEvaluator [1, 2]).json = "\x7b\"log\":[1,2]\x7d" ∧
      printEnv.parse (printEnv.stringify (toJSON demoEvaluator [1, 2])) =
        some (toJSON demoEvaluator [1, 2]) ∧
      (∀ r ∈ [1, 2], ∃ r1, demoEvaluator.importRoll (demoEvaluator.toJSON r) = some r1 ∧
        demoEvaluator.display r1 = demoEvaluator.display r) ∧
      printEnv.parse "[object Object]" = none) ∧
    (∃ log1, importFresh demoEvaluator printEnv 3
        (.str ("b64:" ++ (toJSON demoEvaluator [1, 2]).json)) = (log1, none) ∧
      log1.length = [1, 2].length ∧
      log1.map demoEvaluator.display = [1, 2].map demoEvaluator.display ∧
      output demoEvaluator log1 = output demoEvaluator [1, 2]) ∧
    (∃ log1, importFresh demoEvaluator printEnv 3
        (.str (toJSON demoEvaluator [1, 2]).json) = (log1, none) ∧
      log1.length = [1, 2].length ∧
      log1.map demoEvaluator.display = [1, 2].map demoEvaluator.display ∧
      output demoEvaluator log1 = output demoEvaluator [1, 2]) :=
  ⟨⟨rfl, demoJson_eq, demoParse_eq, demoInverse, demoParse_object⟩,
    import_export_roundtrip demoEvaluator printEnv [1, 2] exportFormats.BASE_64
      ("b64:" ++ (toJSON demoEvaluator [1, 2]).json) (Or.inr rfl) rfl demoJson_ne
      demoParse_eq demoInverse demoParse_object
      (fun _ => demoBase64) 3 (Nat.le_refl 3),
    import_export_roundtrip demoEvaluator printEnv [1, 2] exportFormats.JSON
      (toJSON demoEvaluator [1, 2]).json (Or.inl rfl) rfl demoJson_ne
      demoParse_eq demoInverse demoParse_object
      (fun h => by simp [exportFormats.JSON, exportFormats.BASE_64] at h) 3 (Nat.le_refl 3)⟩

/-! ## Instances and evaluations -/

set_option maxRecDepth 100000 in
/-- Witness of C5 on the second term of `2d20!>=15+d6`, whose quantity is omitted. -/
theorem parseNotation_term_fields_witness :
    (parseNotationTrace ⟨0, 0⟩ (.str "2d20!>=15+d6") =
        some ([(demoArray, demoDie), (demoArray2, plainDie '+' 1 6)], ⟨0, 0⟩) ∧
      (demoArray2, plainDie '+' 1 6) ∈ [(demoArray, demoDie), (demoArray2, plainDie '+' 1 6)]) ∧
    ((plainDie '+' 1 6).operator = .str "+" ∨ (plainDie '+' 1 6).operator = .str "-" ∨
      (plainDie '+' 1 6).operator = .str "*" ∨ (plainDie '+' 1 6).operator = .str "/") ∧
    ((∃ n : Nat, 1 ≤ n ∧ (plainDie '+' 1 6).qty = .num n) ∨
      ((plainDie '+' 1 6).qty = .inf false ∧
        parseInt (demoArray2.getD 2 .undefined) = .inf false)) ∧
    (demoArray2.getD 2 .undefined = .undefined → (plainDie '+' 1 6).qty = .num 1) ∧
    ((∃ n : Nat, 1 ≤ n ∧ (plainDie '+' 1 6).sides = .num n) ∨
      (∃ t, IsNumeral t ∧ parseInt (.str (String.mk t)) = .inf false ∧
        (plainDie '+' 1 6).sides = .str (String.mk t)) ∨
      (plainDie '+' 1 6).sides = .str "%" ∨ (plainDie '+' 1 6).sides = .str "F" ∨
      (plainDie '+' 1 6).sides = .str "F.1" ∨ (plainDie '+' 1 6).sides = .str "F.2") :=
  ⟨⟨by decide!, by simp⟩,
    parseNotation_term_fields ⟨0, 0⟩ (.str "2d20!>=15+d6")
      [(demoArray, demoDie), (demoArray2, plainDie '+' 1 6)] ⟨0, 0⟩ (by decide!)
      (demoArray2, plainDie '+' 1 6) (by simp)⟩

set_option maxRecDepth 100000 in
/-- Witness of C8 on the text `4dF.2`. -/
theorem parseNotation_fudge_witness :
    (parseNotation (.str "4dF.2") = some [demoFudgeDie] ∧ demoFudgeDie ∈ [demoFudgeDie]) ∧
    (demoFudgeDie.fudge.isSome = true ↔
      (demoFudgeDie.sides = .str "F" ∨ demoFudgeDie.sides = .str "F.1" ∨
        demoFudgeDie.sides = .str "F.2")) ∧
    (demoFudgeDie.sides = .str "F" → demoFudgeDie.fudge = some [.str "F", .undefined]) ∧
    (demoFudgeDie.sides = .str "F.1" → demoFudgeDie.fudge = some [.str "F.1", .str "1"]) ∧
    (demoFudgeDie.sides = .str "F.2" → demoFudgeDie.fudge = some [.str "F.2", .str "2"]) ∧
    ((∃ n, demoFudgeDie.sides = .num n) ∨ demoFudgeDie.sides = .str "%" →
      demoFudgeDie.fudge = none) :=
  ⟨⟨by decide!, by simp⟩,
    parseNotation_fudge (.str "4dF.2") [demoFudgeDie] (by decide!) demoFudgeDie (by simp)⟩

set_option maxRecDepth 100000 in
/-- Witness of C4 on the first term of `2d20!>=15+d6`, which carries a compare token. -/
theorem parseNotation_comparePoint_witness :
    (parseNotationTrace ⟨0, 0⟩ (.str "2d20!>=15+d6") =
        some ([(demoArray, demoDie), (demoArray2, plainDie '+' 1 6)], ⟨0, 0⟩) ∧
      (demoArray, demoDie) ∈ [(demoArray, demoDie), (demoArray2, plainDie '+' 1 6)]) ∧
    (demoArray.getD 6 .undefined = .undefined ∨ ∃ o, demoArray.getD 6 .undefined = .str o) ∧
    (∀ o, demoArray.getD 6 .undefined = .str o →
      ∃ v, demoArray.getD 7 .undefined = .str v ∧
        demoDie.comparePoint = some ⟨.str o, toDouble (parseDigits v.toList 0 : Nat)⟩ ∧
        (parseDigits v.toList 0 < 2 ^ 53 →
          demoDie.comparePoint = some ⟨.str o, .num (parseDigits v.toList 0 : Nat)⟩)) ∧
    (demoArray.getD 6 .undefined = .undefined → demoDie.explode = true →
      (demoDie.fudge.isSome = true → demoDie.comparePoint = some ⟨.str "=", .num 1⟩) ∧
      (demoDie.sides = .str "%" → demoDie.comparePoint = some ⟨.str "=", .num 100⟩) ∧
      (demoDie.fudge = none → demoDie.sides ≠ .str "%" →
        demoDie.comparePoint = some ⟨.str "=", demoDie.sides⟩ ∧
        ((∃ n : Nat, 1 ≤ n ∧ demoDie.sides = .num n) ∨
          ∃ t, IsNumeral t ∧ parseInt (.str (String.mk t)) = .inf false ∧
            demoDie.sides = .str (String.mk t)))) ∧
    (demoArray.getD 6 .undefined = .undefined → demoDie.explode = false →
      demoDie.comparePoint = none) :=
  ⟨⟨by decide!, by simp⟩,
    parseNotation_comparePoint ⟨0, 0⟩ (.str "2d20!>=15+d6")
      [(demoArray, demoDie), (demoArray2, plainDie '+' 1 6)] ⟨0, 0⟩ (by decide!)
      (demoArray, demoDie) (by simp)⟩

set_option maxRecDepth 100000 in
set_option exponentiation.threshold 2000 in
/-- C4 at the input `1d6>9007199254740993`: the value of the compare point is the double
nearest to the number of the compare token, 9007199254740992, not that number. -/
theorem parseNotation_comparePoint_rounded :
    parseNotation (.str "1d6>9007199254740993") =
      some [{ plainDie '+' 1 6 with
        comparePoint := some ⟨.str ">", .num 9007199254740992⟩ }] ∧
    Value.num 9007199254740992 ≠ Value.num 9007199254740993 := by
  decide!

set_option maxRecDepth 100000 in
/-- Witness of C6: a text without the letter d, and a text the pattern matches nowhere. -/
theorem parseNotation_total_witness :
    ('d' ∉ "3x6+2".toList ∧ parseNotation (.str "3x6+2") = some []) ∧
    ((get "notation" none false = some ⟨notationRe, false⟩ ∧
      (RegExp.mk notationRe false).test "dd0".toList = false) ∧
      parseNotation (.str "dd0") = some []) :=
  ⟨⟨by decide, parseNotation_total.2.2.2.2.2.2 "3x6+2" (by decide)⟩,
    ⟨by decide, by decide⟩,
    parseNotation_total.2.2.2.2.2.1 "dd0" ⟨notationRe, false⟩ (by decide) (by decide)⟩

set_option maxRecDepth 100000 in
/-- C1 at the input `1d6+100`: the code returns one term whose single addition has the
value 10, where the claim says 100; the final `0` of the text is left unread. -/
theorem parseNotation_addition_hundred :
    parseNotation (.str "1d6+100") =
      some [{ plainDie '+' 1 6 with additions := [⟨.str "+", .num 10⟩] }] := by
  decide!

set_option maxRecDepth 100000 in
/-- C9 at the fragment `comparisonOperators`: the pattern `get` returns with `matchWhole`
accepts `=x` (a match of a proper prefix) and `x<` (a match of a proper suffix), texts that
the fragment's own pattern does not match as a whole. -/
theorem get_matchWhole_comparisonOperators :
    (get "comparisonOperators" none true).map (fun p => p.test "=x".toList) = some true ∧
    (Re.compile comparisonOperatorsStr).map (fun r => r.matchesWhole "=x".toList) = some false ∧
    (get "comparisonOperators" none true).map (fun p => p.test "x<".toList) = some true ∧
    (Re.compile comparisonOperatorsStr).map (fun r => r.matchesWhole "x<".toList) = some false := by
  decide

/-! ## Arithmetic, comparison and random numbers -/

/-- The decimal text of a natural number starts with a digit. -/
theorem repr_digits (n : Nat) :
    ∃ c cs, (Nat.repr n).toList = c :: cs ∧ inRanges [('0', '9')] c = true ∧
      ∀ d ∈ cs, inRanges [('0', '9')] d = true := by
  obtain ⟨t, ht, hne, hdt, _, _⟩ := toDigitsCore_spec (n + 1) n [] (by omega)
  have : (Nat.repr n).toList = t := by
    show Nat.toDigits 10 n = t
    rw [Nat.toDigits, ht]; simp
  obtain ⟨c, cs, rfl⟩ := List.exists_cons_of_ne_nil hne
  exact ⟨c, cs, this, hdt c (by simp), fun d hd => hdt d (by simp [hd])⟩

/-- An integer below `2 ^ 53` in absolute value is numeric, and `parseInt` and `parseFloat`
return it as it is. -/
theorem isNumeric_int (n : Int) (h : n.natAbs < 2 ^ 53) :
    parseInt (.num n) = .num n ∧ isNumeric (.num n) = true ∧ parseFloat (.num n) = .num n := by
  have hden : ((n : ℚ)).den = 1 := Rat.den_intCast n
  have habs : |(n : ℚ)| < 1000000000000000000000 := by
    have h1 : |(n : ℚ)| = ((n.natAbs : ℕ) : ℚ) := by
      rw [Nat.cast_natAbs, Int.cast_abs]
    have h2 : ((n.natAbs : ℕ) : ℚ) < ((2 ^ 53 : ℕ) : ℚ) := by exact_mod_cast h
    rw [h1]
    have h3 : (((2 ^ 53 : ℕ) : ℚ)) < 1000000000000000000000 := by norm_num
    linarith
  have hp : parseInt (.num n) = .num n := by
    simp only [parseInt]
    rw [if_pos ⟨hden, habs⟩]
  refine ⟨hp, ?_, rfl⟩
  rw [isNumeric, hp]
  rfl

/-- The operand coercion of `equateNumbers` leaves an integer below `2 ^ 53` as it is. -/
theorem operandOf_num (n : Int) (h : n.natAbs < 2 ^ 53) : operandOf (.num n) = .num n := by
  rw [operandOf, (isNumeric_int n h).2.1, if_pos rfl]
  rfl

/-- The absolute value of an integer below `2 ^ 53`, as a rational number. -/
theorem abs_lt_pow53 (n : Int) (h : n.natAbs < 2 ^ 53) : |(n : ℚ)| < (2 : ℚ) ^ (53 : ℤ) := by
  have h1 : |(n : ℚ)| = ((n.natAbs : ℕ) : ℚ) := by
    rw [Nat.cast_natAbs, Int.cast_abs]
  have h2 : ((n.natAbs : ℕ) : ℚ) < ((2 ^ 53 : ℕ) : ℚ) := by exact_mod_cast h
  have h3 : (((2 ^ 53 : ℕ) : ℚ)) = (2 : ℚ) ^ (53 : ℤ) := by norm_num
  rw [h1, ← h3]
  exact h2

/-- The results of the four operations on integers below `2 ^ 53` are finite doubles. -/
theorem arith_finite (a b : Int) (ha : a.natAbs < 2 ^ 53) (hb : b.natAbs < 2 ^ 53) :
    (∃ q, toDouble ((a : ℚ) * b) = .num q) ∧ (∃ q, toDouble ((a : ℚ) - b) = .num q) ∧
    (∃ q, toDouble ((a : ℚ) + b) = .num q) ∧ (b ≠ 0 → ∃ q, toDouble ((a : ℚ) / b) = .num q) := by
  have h1 := abs_lt_pow53 a ha
  have h2 := abs_lt_pow53 b hb
  have e53 : (2 : ℚ) ^ (53 : ℤ) = 9007199254740992 := by norm_num
  have big : (9007199254740992 : ℚ) * 9007199254740992 < (2 : ℚ) ^ (1023 : ℤ) := by
    have e106 : (9007199254740992 : ℚ) * 9007199254740992 = (2 : ℚ) ^ (106 : ℤ) := by norm_num
    rw [e106]
    exact zpow_lt_zpow_right₀ (by norm_num) (by norm_num)
  rw [e53] at h1 h2
  have hbig1 : (9007199254740992 : ℚ) + 9007199254740992 ≤
      (9007199254740992 : ℚ) * 9007199254740992 := by norm_num
  refine ⟨toDouble_finite _ ?_, toDouble_finite _ ?_, toDouble_finite _ ?_, ?_⟩
  · rw [abs_mul]
    have : |(a : ℚ)| * |(b : ℚ)| ≤ 9007199254740992 * 9007199254740992 :=
      mul_le_mul (le_of_lt h1) (le_of_lt h2) (abs_nonneg _) (by norm_num)
    linarith
  · have := abs_sub (a : ℚ) b
    linarith
  · have := abs_add (a : ℚ) b
    linarith
  · intro hb0
    apply toDouble_finite
    rw [abs_div]
    have hb1 : (1 : ℚ) ≤ |(b : ℚ)| := by
      have : (1 : ℤ) ≤ |b| := Int.one_le_abs hb0
      have : ((1 : ℤ) : ℚ) ≤ ((|b| : ℤ) : ℚ) := by exact_mod_cast this
      simpa using this
    have : |(a : ℚ)| / |(b : ℚ)| ≤ |(a : ℚ)| := div_le_self (abs_nonneg _) hb1
    have hsmall : (9007199254740992 : ℚ) ≤ 9007199254740992 * 9007199254740992 := by norm_num
    linarith

/-- C15 (amended): on integers `a` and `b` below `2 ^ 53` in absolute value,
`equateNumbers(a, b, op)` is the double nearest to the product for `*`, to the difference
for `-`, to the quotient for `/` when `b` is not zero, and to the sum for `+`, for an
omitted operator and for every other operator value; it is 0 for `/` when `b` is zero; it
is always a finite number; and it is the product, the difference, the sum or the quotient
itself whenever that is an integer below `2 ^ 53` in absolute value. -/
theorem equateNumbers_integers (a b : Int) (ha : a.natAbs < 2 ^ 53) (hb : b.natAbs < 2 ^ 53)
    (op : Value) :
    (op = .str "*" → equateNumbers (.num a) (.num b) op = toDouble ((a : ℚ) * b)) ∧
    (op = .str "-" → equateNumbers (.num a) (.num b) op = toDouble ((a : ℚ) - b)) ∧
    (op = .str "/" → b ≠ 0 → equateNumbers (.num a) (.num b) op = toDouble ((a : ℚ) / b)) ∧
    (op = .str "/" → b = 0 → equateNumbers (.num a) (.num b) op = .num 0) ∧
    (op ≠ .str "*" → op ≠ .str "-" → op ≠ .str "/" →
      equateNumbers (.num a) (.num b) op = toDouble ((a : ℚ) + b)) ∧
    (∃ q, equateNumbers (.num a) (.num b) op = .num q) ∧
    (op = .str "*" → (a * b).natAbs < 2 ^ 53 →
      equateNumbers (.num a) (.num b) op = .num ((a * b : Int) : ℚ)) ∧
    (op = .str "-" → (a - b).natAbs < 2 ^ 53 →
      equateNumbers (.num a) (.num b) op = .num ((a - b : Int) : ℚ)) ∧
    (op = .str "/" → ∀ c : Int, a = c * b → b ≠ 0 →
      equateNumbers (.num a) (.num b) op = .num (c : ℚ)) ∧
    (op ≠ .str "*" → op ≠ .str "-" → op ≠ .str "/" → (a + b).natAbs < 2 ^ 53 →
      equateNumbers (.num a) (.num b) op = .num ((a + b : Int) : ℚ)) := by
  have oa := operandOf_num a ha
  have ob := operandOf_num b hb
  obtain ⟨f1, f2, f3, f4⟩ := arith_finite a b ha hb
  have hmul : op = .str "*" → equateNumbers (.num a) (.num b) op = toDouble ((a : ℚ) * b) := by
    intro h
    subst h
    simp [equateNumbers, oa, ob, Value.mul]
  have hsub : op = .str "-" → equateNumbers (.num a) (.num b) op = toDouble ((a : ℚ) - b) := by
    intro h
    subst h
    simp [equateNumbers, oa, ob, Value.sub]
  have hdiv : op = .str "/" → b ≠ 0 →
      equateNumbers (.num a) (.num b) op = toDouble ((a : ℚ) / b) := by
    intro h hb0
    subst h
    have hb2 : (b : ℚ) ≠ 0 := by exact_mod_cast hb0
    simp [equateNumbers, oa, ob, Value.div, Value.truthy, hb2]
  have hzero : op = .str "/" → b = 0 → equateNumbers (.num a) (.num b) op = .num 0 := by
    intro h hb0
    subst h
    subst hb0
    have ob0 : operandOf (.num (0 : ℚ)) = .num 0 := by simpa using ob
    simp [equateNumbers, oa, ob0, Value.truthy]
  have hadd : op ≠ .str "*" → op ≠ .str "-" → op ≠ .str "/" →
      equateNumbers (.num a) (.num b) op = toDouble ((a : ℚ) + b) := by
    intro h1 h2 h3
    by_cases hu : op = .undefined
    · subst hu
      simp [equateNumbers, oa, ob, Value.add]
    · simp [equateNumbers, oa, ob, Value.add, hu, h1, h2, h3]
  refine ⟨hmul, hsub, hdiv, hzero, hadd, ?_, ?_, ?_, ?_, ?_⟩
  · by_cases h1 : op = .str "*"
    · rw [hmul h1]; exact f1
    · by_cases h2 : op = .str "-"
      · rw [hsub h2]; exact f2
      · by_cases h3 : op = .str "/"
        · by_cases hb0 : b = 0
          · exact ⟨0, hzero h3 hb0⟩
          · rw [hdiv h3 hb0]; exact f4 hb0
        · rw [hadd h1 h2 h3]; exact f3
  · intro h hs
    rw [hmul h, ← Int.cast_mul, toDouble_int _ hs]
  · intro h hs
    rw [hsub h, ← Int.cast_sub, toDouble_int _ hs]
  · intro h c hc hb0
    have hb2 : (b : ℚ) ≠ 0 := by exact_mod_cast hb0
    have hcs : c.natAbs < 2 ^ 53 := by
      have h1 : a.natAbs = c.natAbs * b.natAbs := by rw [hc, Int.natAbs_mul]
      have h2 : 1 ≤ b.natAbs := Int.natAbs_pos.mpr hb0
      have h3 : c.natAbs ≤ c.natAbs * b.natAbs := Nat.le_mul_of_pos_right _ h2
      omega
    have e : (a : ℚ) / b = (c : ℚ) := by
      rw [hc]; push_cast; field_simp
    rw [hdiv h hb0, e, toDouble_int _ hcs]
  · intro h1 h2 h3 hs
    rw [hadd h1 h2 h3, ← Int.cast_add, toDouble_int _ hs]

set_option maxRecDepth 100000 in
set_option exponentiation.threshold 2000 in
/-- Witness of C15 on `equateNumbers(10, 4, '/')`, `equateNumbers(10, 0, '/')`,
`equateNumbers(10, 5, '/')` and `equateNumbers(10, 4)`. -/
theorem equateNumbers_integers_witness :
    ((10 : Int).natAbs < 2 ^ 53 ∧ (4 : Int).natAbs < 2 ^ 53 ∧ (0 : Int).natAbs < 2 ^ 53 ∧
      (5 : Int).natAbs < 2 ^ 53 ∧ Value.str "/" = .str "/" ∧ (4 : Int) ≠ 0 ∧ (0 : Int) = 0 ∧
      (10 : Int) = 2 * 5 ∧ (5 : Int) ≠ 0 ∧ ((10 : Int) + 4).natAbs < 2 ^ 53 ∧
      Value.undefined ≠ .str "*" ∧ Value.undefined ≠ .str "-" ∧ Value.undefined ≠ .str "/") ∧
    equateNumbers (.num (10 : Int)) (.num (4 : Int)) (.str "/") =
      toDouble (((10 : Int) : ℚ) / (4 : Int)) ∧
    equateNumbers (.num (10 : Int)) (.num (0 : Int)) (.str "/") = .num 0 ∧
    equateNumbers (.num (10 : Int)) (.num (5 : Int)) (.str "/") = .num ((2 : Int) : ℚ) ∧
    equateNumbers (.num (10 : Int)) (.num (4 : Int)) .undefined =
      .num (((10 : Int) + 4 : Int) : ℚ) :=
  ⟨⟨by decide, by decide, by decide, by decide, rfl, by decide, rfl, by decide, by decide,
      by decide, by decide, by decide, by decide⟩,
    (equateNumbers_integers 10 4 (by decide) (by decide) (.str "/")).2.2.1 rfl (by decide),
    (equateNumbers_integers 10 0 (by decide) (by decide) (.str "/")).2.2.2.1 rfl rfl,
    (equateNumbers_integers 10 5 (by decide) (by decide) (.str "/")).2.2.2.2.2.2.2.2.1 rfl 2
      (by decide) (by decide),
    (equateNumbers_integers 10 4 (by decide) (by decide) .undefined).2.2.2.2.2.2.2.2.2
      (by decide) (by decide) (by decide) (by decide)⟩

set_option maxRecDepth 100000 in
set_option exponentiation.threshold 2000 in
/-- C15 at the input `equateNumbers(1, 3, '/')`: the result is the double nearest to one
third, 6004799503160661 / 2 ^ 54, not the exact quotient. -/
theorem equateNumbers_third :
    equateNumbers (.num 1) (.num 3) (.str "/") =
      .num (6004799503160661 / 18014398509481984) ∧
    equateNumbers (.num 1) (.num 3) (.str "/") ≠ .num (1 / 3) := by
  decide!

set_option maxRecDepth 100000 in
set_option exponentiation.threshold 2000 in
/-- C16 at the inputs `generateNumber(1, 4)` with the draw `1 - 2 ^ -53` (the largest double
below 1) and `generateNumber(85, 125)` with the draw `1 - 2 ^ -52`: both draws are doubles
that are at least 0 and less than 1, and the results, 5 and 126, are above the maximum. The
sum `Math.random() * (max - min + 1) + min` is rounded up to the next integer. Also,
`generateNumber(1e21, 0)` returns 1 and not the minimum, which `parseInt` reads from the
text `1e+21`. -/
theorem generateNumber_above_max :
    toDouble (1 - pow2 (-53)) = .num (1 - pow2 (-53)) ∧
    (0 ≤ 1 - pow2 (-53) ∧ 1 - pow2 (-53) < 1) ∧
    generateNumber (1 - pow2 (-53)) (.num 1) (.num 4) = .num 5 ∧
    toDouble (1 - pow2 (-52)) = .num (1 - pow2 (-52)) ∧
    (0 ≤ 1 - pow2 (-52) ∧ 1 - pow2 (-52) < 1) ∧
    generateNumber (1 - pow2 (-52)) (.num 85) (.num 125) = .num 126 ∧
    generateNumber (1 / 2) (.num 1000000000000000000000) (.num 0) = .num 1 := by
  decide!

/-- C17: on numbers `p` and `q`, fractions included, `compareNumbers(p, q, op)` is `p = q`
for `=` and `==`, `p < q` for `<`, `p > q` for `>`, `p ≤ q` for `<=`, `p ≥ q` for `>=`,
`p ≠ q` for `!` and `!=`; for every other operator value it is false, whatever the
arguments. When an argument is `NaN` only `!` and `!=` give true, and `Infinity` is above
every finite number, `-Infinity` below. -/
theorem compareNumbers_operators (p q : Rat) (op : Value) :
    (op = .str "=" ∨ op = .str "==" → compareNumbers (.num p) (.num q) op = decide (p = q)) ∧
    (op = .str "<" → compareNumbers (.num p) (.num q) op = decide (p < q)) ∧
    (op = .str ">" → compareNumbers (.num p) (.num q) op = decide (p > q)) ∧
    (op = .str "<=" → compareNumbers (.num p) (.num q) op = decide (p ≤ q)) ∧
    (op = .str ">=" → compareNumbers (.num p) (.num q) op = decide (p ≥ q)) ∧
    (op = .str "!" ∨ op = .str "!=" → compareNumbers (.num p) (.num q) op = decide (p ≠ q)) ∧
    (op ∉ supportedOperators → ∀ a b : Value, compareNumbers a b op = false) ∧
    (∀ a : Value, compareNumbers .nan a op = decide (op = .str "!" ∨ op = .str "!=")) ∧
    (∀ a : Value, compareNumbers a .nan op = decide (op = .str "!" ∨ op = .str "!=")) ∧
    (op = .str "<" → compareNumbers (.num p) (.inf false) op = true ∧
      compareNumbers (.inf true) (.num p) op = true ∧
      compareNumbers (.inf false) (.num p) op = false ∧
      compareNumbers (.inf false) (.inf false) op = false) ∧
    (op = .str "=" ∨ op = .str "==" → compareNumbers (.inf false) (.inf false) op = true ∧
      compareNumbers (.inf false) (.num p) op = false ∧
      compareNumbers (.inf false) (.inf true) op = false) := by
  have hnan : parseFloat .nan = .nan := by decide
  refine ⟨?_, ?_, ?_, ?_, ?_, ?_, ?_, ?_, ?_, ?_, ?_⟩
  · rintro (h | h) <;> subst h <;> simp [compareNumbers, parseFloat, Value.strictEq]
  · intro h; subst h; simp [compareNumbers, parseFloat, Value.lessThan]
  · intro h; subst h; simp [compareNumbers, parseFloat, Value.lessThan]
  · intro h; subst h
    simp [compareNumbers, parseFloat, Value.lessEq, Value.lessThan, Value.strictEq, le_iff_lt_or_eq]
  · intro h; subst h
    simp [compareNumbers, parseFloat, Value.lessEq, Value.lessThan, Value.strictEq, le_iff_lt_or_eq,
      eq_comm]
  · rintro (h | h) <;> subst h <;> simp [compareNumbers, parseFloat, Value.strictEq]
  · intro h a b
    simp only [supportedOperators, List.mem_cons, List.mem_singleton, not_or, List.not_mem_nil,
      or_false] at h
    obtain ⟨h1, h2, h3, h4, h5, h6, h7, h8⟩ := h
    simp [compareNumbers, h1, h2, h3, h4, h5, h6, h7, h8]
  · intro a
    by_cases h : op = .str "!" ∨ op = .str "!="
    · rcases h with h | h <;> subst h <;> simp [compareNumbers, hnan, Value.strictEq]
    · simp only [compareNumbers, hnan, h, if_false, decide_False]
      cases parseFloat a <;>
        simp [Value.strictEq, Value.lessThan, Value.lessEq]
  · intro a
    by_cases h : op = .str "!" ∨ op = .str "!="
    · rcases h with h | h <;> subst h <;> cases hp : parseFloat a <;>
        simp [compareNumbers, hnan, hp, Value.strictEq]
    · simp only [compareNumbers, hnan, h, if_false, decide_False]
      cases parseFloat a <;>
        simp [Value.strictEq, Value.lessThan, Value.lessEq]
  · intro h; subst h
    simp [compareNumbers, parseFloat, Value.lessThan]
  · rintro (h | h) <;> subst h <;> simp [compareNumbers, parseFloat, Value.strictEq]

/-- Witness of C17 on `compareNumbers(1.5, 2.5, '<=')`, `compareNumbers(1.5, 1.25, '>')`,
`compareNumbers(1.5, 1, '=')` and on the operator `=>`. -/
theorem compareNumbers_operators_witness :
    (Value.str "<=" = .str "<=" ∧ Value.str ">" = .str ">" ∧
      (Value.str "=" = .str "=" ∨ Value.str "=" = .str "==") ∧
      Value.str "=>" ∉ supportedOperators) ∧
    compareNumbers (.num (3 / 2)) (.num (5 / 2)) (.str "<=") = decide ((3 / 2 : Rat) ≤ 5 / 2) ∧
    compareNumbers (.num (3 / 2)) (.num (5 / 4)) (.str ">") = decide ((3 / 2 : Rat) > 5 / 4) ∧
    compareNumbers (.num (3 / 2)) (.num 1) (.str "=") = decide ((3 / 2 : Rat) = 1) ∧
    compareNumbers (.num 3) (.num 3) (.str "=>") = false :=
  ⟨⟨rfl, rfl, Or.inl rfl, by decide⟩,
    (compareNumbers_operators (3 / 2) (5 / 2) (.str "<=")).2.2.2.1 rfl,
    (compareNumbers_operators (3 / 2) (5 / 4) (.str ">")).2.2.1 rfl,
    (compareNumbers_operators (3 / 2) 1 (.str "=")).1 (Or.inl rfl),
    (compareNumbers_operators 3 3 (.str "=>")).2.2.2.2.2.2.1 (by decide) (.num 3) (.num 3)⟩

set_option maxRecDepth 100000 in
set_option exponentiation.threshold 2000 in
/-- C18 at the input `2d6===3`: the parser returns a term whose compare point has the
operator `===`, which is not one of the operators `compareNumbers` knows, so that
`compareNumbers(3, 3, '===')` is false. -/
theorem parseNotation_operator_unsupported :
    parseNotation (.str "2d6===3") = some [demoTripleDie] ∧
    demoTripleDie.comparePoint = some ⟨.str "===", .num 3⟩ ∧
    Value.str "===" ∉ supportedOperators ∧
    compareNumbers (.num 3) (.num 3) (.str "===") = false ∧
    compareNumbers (.num 3) (.num 3) (.str "==") = true := by
  decide!

/-! ## Export, import and rolls of the roll log -/

/-- C11 (amended): `export` returns the JSON text of the envelope when the format is
absent or any other falsy value (`null`, `false`, the empty string, and `JSON` itself,
which is 0), the base64 encoding of that text when the format is `BASE_64`, and raises the
unrecognised-format error for every truthy value other than `BASE_64`, the declared format
`OBJECT` included. -/
theorem exportLog_formats {R : Type} (ev : RollEvaluator R) (env : JsEnv) (log : List R)
    (format : Data) :
    (format.truthy = false →
      exportLog ev env log format = .ok (env.stringify (toJSON ev log))) ∧
    (format = exportFormats.BASE_64 → ∀ t, env.btoa (env.stringify (toJSON ev log)) = some t →
      exportLog ev env log format = .ok t) ∧
    (format.truthy = true → format ≠ exportFormats.BASE_64 →
      exportLog ev env log format = .error .unrecognisedExport) ∧
    exportLog ev env log exportFormats.OBJECT = .error .unrecognisedExport := by
  refine ⟨?_, ?_, ?_, ?_⟩
  · intro h
    simp [exportLog, h, exportFormats.JSON]
  · intro h t ht
    subst h
    simp [exportLog, exportFormats.BASE_64, Data.truthy, ht]
  · intro h hne
    simp only [exportLog, h, if_true]
    split
    · exact absurd rfl hne
    · simp [Data.truthy] at h
    · rfl
  · simp [exportLog, exportFormats.OBJECT, Data.truthy]

/-- Witness of C11 on the formats `OBJECT`, `BASE_64` and `undefined`. -/
theorem exportLog_formats_witness :
    (exportFormats.OBJECT.truthy = true ∧ exportFormats.OBJECT ≠ exportFormats.BASE_64 ∧
      Data.undefined.truthy = false ∧
      demoEnv.btoa (demoEnv.stringify (toJSON demoEvaluator [1, 2])) =
        some ("b64:" ++ demoJson)) ∧
    exportLog demoEvaluator demoEnv [1, 2] exportFormats.OBJECT = .error .unrecognisedExport ∧
    exportLog demoEvaluator demoEnv [1, 2] .undefined =
      .ok (demoEnv.stringify (toJSON demoEvaluator [1, 2])) ∧
    exportLog demoEvaluator demoEnv [1, 2] exportFormats.BASE_64 = .ok ("b64:" ++ demoJson) :=
  ⟨⟨rfl, by simp [exportFormats.OBJECT, exportFormats.BASE_64], rfl, rfl⟩,
    (exportLog_formats demoEvaluator demoEnv [1, 2] exportFormats.OBJECT).2.2.1 rfl
      (by simp [exportFormats.OBJECT, exportFormats.BASE_64]),
    (exportLog_formats demoEvaluator demoEnv [1, 2] .undefined).1 rfl,
    (exportLog_formats demoEvaluator demoEnv [1, 2] exportFormats.BASE_64).2.1 rfl _ rfl⟩

/-- C11 as stated fails on the empty string: it is a requested format value that is
neither absent nor `JSON` nor `BASE_64`, and `export` returns the JSON text for it instead
of raising. The same holds of `false`. -/
theorem exportLog_empty_format :
    Data.str "" ≠ .undefined ∧ Data.str "" ≠ exportFormats.JSON ∧
    Data.str "" ≠ exportFormats.BASE_64 ∧
    exportLog demoEvaluator demoEnv [1, 2] (.str "") = .ok demoJson ∧
    exportLog demoEvaluator demoEnv [1, 2] (.bool false) = .ok demoJson :=
  ⟨by simp, by simp [exportFormats.JSON], by simp [exportFormats.BASE_64], rfl, rfl⟩

/-- The import loop appends the rolls that the Roll Evaluator imports the entries to. -/
theorem importEntries_append {R : Type} (ev : RollEvaluator R) :
    ∀ (entries : List Data) (rs : List R),
      List.Forall₂ (fun e r => ev.importRoll e = some r) entries rs →
      ∀ acc, importEntries ev entries acc = (acc ++ rs, none) := by
  intro entries rs h
  induction h with
  | nil => intro acc; simp [importEntries]
  | cons hhead _ ih =>
    intro acc
    rw [importEntries, hhead]
    simp only []
    rw [ih]
    simp

/-- The import loop raises no error of its own: only the Roll Evaluator can fail in it. -/
theorem importEntries_error {R : Type} (ev : RollEvaluator R) :
    ∀ (entries : List Data) (acc log1 : List R) (e : RollerError),
      importEntries ev entries acc = (log1, some e) → e = .evaluator := by
  intro entries
  induction entries with
  | nil => intro acc log1 e h; simp [importEntries] at h
  | cons x xs ih =>
    intro acc log1 e h
    rw [importEntries] at h
    cases hx : ev.importRoll x with
    | none =>
      rw [hx] at h
      simp only [Prod.mk.injEq, Option.some.injEq] at h
      exact h.2.symm
    | some r =>
      rw [hx] at h
      exact ih _ _ _ h

/-- Import of a plain object: the JSON and base64 tests fail on its text. -/
theorem importData_object {R : Type} (ev : RollEvaluator R) (env : JsEnv)
    (fields : List (String × Data))
    (hparse : env.parse "[object Object]" = none) (fuel : Nat) (log : List R) :
    importData ev env (fuel + 1) log (.obj fields) =
      (if (Data.obj fields).log.truthy && (Data.obj fields).log.isArray then
        importEntries ev (Data.obj fields).log.items log
      else if (Data.obj fields).log.truthy then (log, some .logNotArray)
      else (log, none)) := by
  have hj : isJson env (.obj fields) = false := by
    simp [isJson, Data.truthy, Data.toText, hparse]
  have hb : isBase64 env (.obj fields) = false := by
    simp only [isBase64, Data.truthy, if_true]
    split
    · rfl
    · split
      · rename_i h; cases h
      · rfl
  rw [importData]
  simp [hj, hb, Data.truthy, Data.isObjectType, Data.isArray]

/-- C12 (amended): for a composite value with a `log` field, the constructor and `import`
raise the error 'log must be a sequence' exactly when the field is truthy and not a
sequence (`import` leaving the history as it was); when the field is falsy (0, the empty
string, `false`, `null`) they raise nothing and append nothing; when it is a sequence they
append the import of each entry, in the order of the sequence. The text `[object Object]`
is not JSON. -/
theorem log_field_import {R : Type} (ev : RollEvaluator R) (env : JsEnv)
    (fields : List (String × Data)) (v : Data) (hlog : fields.lookup "log" = some v)
    (hparse : env.parse "[object Object]" = none) (history : List R) (fuel : Nat) :
    (construct ev (.obj fields) = .error .logNotArray ↔ (v.truthy = true ∧ v.isArray = false)) ∧
    ((importData ev env (fuel + 1) history (.obj fields)).2 = some .logNotArray ↔
      (v.truthy = true ∧ v.isArray = false)) ∧
    (v.truthy = true → v.isArray = false →
      importData ev env (fuel + 1) history (.obj fields) = (history, some .logNotArray)) ∧
    (v.truthy = false → construct ev (.obj fields) = .ok [] ∧
      importData ev env (fuel + 1) history (.obj fields) = (history, none)) ∧
    (∀ items rs, v = .arr items → List.Forall₂ (fun e r => ev.importRoll e = some r) items rs →
      construct ev (.obj fields) = .ok rs ∧
      importData ev env (fuel + 1) history (.obj fields) = (history ++ rs, none)) := by
  have hl : (Data.obj fields).log = v := by simp [Data.log, hlog]
  have himp := importData_object ev env fields hparse fuel history
  rw [hl] at himp
  have hcon1 : v.isArray = true → ∀ log1 oe, importEntries ev v.items [] = (log1, oe) →
      (oe = none → construct ev (.obj fields) = .ok log1) ∧
      (∀ e, oe = some e → construct ev (.obj fields) = .error e) := by
    intro ha log1 oe hi
    unfold construct
    rw [if_pos (show (Data.obj fields).truthy = true from rfl), hl, if_pos ha, hi]
    exact ⟨fun h => by subst h; rfl, fun e h => by subst h; rfl⟩
  have hcon2 : v.isArray = false → construct ev (.obj fields) =
      (if v.truthy then .error .logNotArray else .ok []) := by
    intro ha
    unfold construct
    rw [if_pos (show (Data.obj fields).truthy = true from rfl), hl, if_neg (by simp [ha])]
  have harr : ∀ w : Data, w.isArray = true → w.truthy = true := by
    intro w hw
    cases w <;> simp [Data.isArray] at hw
    rfl
  refine ⟨?_, ?_, ?_, ?_, ?_⟩
  · constructor
    · intro h
      by_cases ha : v.isArray = true
      · cases hi : importEntries ev v.items [] with
        | mk log1 oe =>
          cases oe with
          | none => rw [(hcon1 ha _ _ hi).1 rfl] at h; cases h
          | some e =>
            rw [(hcon1 ha _ _ hi).2 e rfl] at h
            have := importEntries_error ev _ _ _ _ hi
            subst this
            cases h
      · have ha2 : v.isArray = false := by simpa using ha
        rw [hcon2 ha2] at h
        by_cases ht : v.truthy = true
        · exact ⟨ht, ha2⟩
        · rw [if_neg ht] at h
          cases h
    · rintro ⟨ht, ha⟩
      rw [hcon2 ha, if_pos ht]
  · rw [himp]
    constructor
    · intro h
      by_cases ha : v.isArray = true
      · rw [harr v ha, ha] at h
        simp only [Bool.and_self, if_true] at h
        cases hi : importEntries ev v.items history with
        | mk log1 oe =>
          rw [hi] at h
          cases oe with
          | none => cases h
          | some e =>
            have := importEntries_error ev _ _ _ _ hi
            subst this
            cases h
      · by_cases ht : v.truthy = true
        · exact ⟨ht, by simpa using ha⟩
        · simp [ht] at h
    · rintro ⟨ht, ha⟩
      simp [ha, ht]
  · intro ht ha
    rw [himp]
    simp [ha, ht]
  · intro ht
    have ha : v.isArray = false := by
      cases hv : v.isArray with
      | false => rfl
      | true => rw [harr v hv] at ht; cases ht
    constructor
    · rw [hcon2 ha]; simp [ht]
    · rw [himp]; simp [ht]
  · intro items rs hv hrs
    subst hv
    constructor
    · have := (hcon1 rfl _ _ (importEntries_append ev items rs hrs [])).1 rfl
      simpa using this
    · rw [himp]
      simp only [Data.isArray, Data.items, Data.truthy, Bool.and_self, if_true]
      exact importEntries_append ev items rs hrs history

/-- Witness of C12 on the objects `log: [1, 2]` and `log: "x"`, imported into the history
`[7]`. -/
theorem log_field_import_witness :
    ([("log", Data.arr [.num 1, .num 2])].lookup "log" = some (Data.arr [.num 1, .num 2]) ∧
      [("log", Data.str "x")].lookup "log" = some (Data.str "x") ∧
      demoEnv.parse "[object Object]" = none ∧
      (Data.str "x").truthy = true ∧ (Data.str "x").isArray = false ∧
      List.Forall₂ (fun e r => demoEvaluator.importRoll e = some r) [.num 1, .num 2] [1, 2]) ∧
    (construct demoEvaluator (.obj [("log", .arr [.num 1, .num 2])]) = .ok [1, 2] ∧
      importData demoEvaluator demoEnv 1 [7] (.obj [("log", .arr [.num 1, .num 2])]) =
        ([7] ++ [1, 2], none)) ∧
    importData demoEvaluator demoEnv 1 [7] (.obj [("log", .str "x")]) =
      ([7], some .logNotArray) :=
  ⟨⟨rfl, rfl, rfl, rfl, rfl, .cons rfl (.cons rfl .nil)⟩,
    (log_field_import demoEvaluator demoEnv [("log", .arr [.num 1, .num 2])]
      (.arr [.num 1, .num 2]) rfl rfl [7] 0).2.2.2.2 [.num 1, .num 2] [1, 2] rfl
      (.cons rfl (.cons rfl .nil)),
    (log_field_import demoEvaluator demoEnv [("log", .str "x")] (.str "x") rfl rfl
      [7] 0).2.2.1 rfl rfl⟩

/-- C12 as stated fails on the object whose `log` field is the number 0: the field is
present and is not a sequence, and neither the constructor nor `import` raises an error;
the history is left as it was. -/
theorem log_field_zero :
    [("log", Data.num 0)].lookup "log" = some (Data.num 0) ∧ (Data.num 0).isArray = false ∧
    construct demoEvaluator (.obj [("log", .num 0)]) = .ok [] ∧
    importData demoEvaluator demoEnv 1 [7] (.obj [("log", .num 0)]) = ([7], none) :=
  ⟨rfl, rfl, rfl, rfl⟩

/-- The loop of `rollMany` on texts that the Roll Evaluator constructs rolls for. -/
theorem rollEach_rolled {R G : Type} (newRoll : Data → G → Option (R × G)) :
    ∀ (g : G) (texts : List Data) (rs : List R) (g1 : G), Rolled newRoll g texts rs g1 →
      ∀ log acc, rollEach newRoll texts log g acc = (.ok (acc ++ rs), log ++ rs, g1) := by
  intro g texts rs g1 h
  induction h with
  | nil g => intro log acc; simp [rollEach]
  | cons g g1 g2 text texts r rs hr _ ih =>
    intro log acc
    rw [rollEach, roll, hr]
    simp only []
    rw [ih]
    simp

/-- A Roll Evaluator that constructs a roll for every text constructs rolls for a list. -/
theorem rolled_of_total {R G : Type} (newRoll : Data → G → Option (R × G))
    (htotal : ∀ d g, (newRoll d g).isSome = true) :
    ∀ (texts : List Data) (g : G), ∃ rs g1, Rolled newRoll g texts rs g1 := by
  intro texts
  induction texts with
  | nil => intro g; exact ⟨[], g, .nil g⟩
  | cons t ts ih =>
    intro g
    obtain ⟨⟨r, g1⟩, hr⟩ := Option.isSome_iff_exists.mp (htotal t g)
    obtain ⟨rs, g2, h⟩ := ih g1
    exact ⟨r :: rs, g2, .cons g g1 g2 t ts r rs hr h⟩

/-- The rolls constructed for a list of texts are as many as the texts. -/
theorem Rolled.length_eq {R G : Type} {newRoll : Data → G → Option (R × G)} {g g1 : G}
    {texts : List Data} {rs : List R} (h : Rolled newRoll g texts rs g1) :
    rs.length = texts.length := by
  induction h with
  | nil g => rfl
  | cons g g1 g2 text texts r rs _ _ ih => simp [ih]

/-- The loop of `rollMany` raises no error of its own: only the Roll Evaluator can fail. -/
theorem rollEach_error {R G : Type} (newRoll : Data → G → Option (R × G)) :
    ∀ (texts : List Data) (log : List R) (g : G) (acc : List R) (e : RollerError),
      (rollEach newRoll texts log g acc).1 = .error e → e = .evaluator := by
  intro texts
  induction texts with
  | nil => intro log g acc e h; simp [rollEach] at h
  | cons t ts ih =>
    intro log g acc e h
    rw [rollEach, roll] at h
    cases hr : newRoll t g with
    | none =>
      rw [hr] at h
      simp only [Except.error.injEq] at h
      exact h.symm
    | some p =>
      obtain ⟨r, g1⟩ := p
      rw [hr] at h
      exact ih _ _ _ _ h

/-- On a value that is not a sequence `rollMany` raises one of its two errors and leaves
the history and the random source as they were. -/
theorem rollMany_invalid {R G : Type} (newRoll : Data → G → Option (R × G))
    (history : List R) (g : G) (notations : Data) (ha : notations.isArray = false) :
    ((rollMany newRoll history g notations).1 = .error .noNotations ∨
      (rollMany newRoll history g notations).1 = .error .notationsInvalid) ∧
    (rollMany newRoll history g notations).2 = (history, g) := by
  by_cases ht : notations.truthy = true
  · simp [rollMany, ht, ha]
  · simp [rollMany, ht]

/-- C13: `rollMany` raises one of its two errors exactly when `notations` is absent or not
a sequence, the history then staying as it was; on a sequence the Roll Evaluator
constructs rolls for, it returns those rolls, as many as the texts and in their order, and
the history afterwards is the history before followed by them. When the Roll Evaluator
constructs a roll for every text, `rollMany` fails exactly when `notations` is absent or
not a sequence. -/
theorem rollMany_sequence {R G : Type} (newRoll : Data → G → Option (R × G))
    (history : List R) (g : G) (notations : Data) :
    (notations.isArray = false ↔
      ((rollMany newRoll history g notations).1 = .error .noNotations ∨
        (rollMany newRoll history g notations).1 = .error .notationsInvalid)) ∧
    (notations.isArray = false → (rollMany newRoll history g notations).2 = (history, g)) ∧
    (∀ texts rs g1, notations = .arr texts → Rolled newRoll g texts rs g1 →
      rollMany newRoll history g notations = (.ok rs, history ++ rs, g1) ∧
        rs.length = texts.length) ∧
    ((∀ d g0, (newRoll d g0).isSome = true) →
      ((∃ e, (rollMany newRoll history g notations).1 = .error e) ↔
        notations.isArray = false) ∧
      ∀ texts, notations = .arr texts → ∃ rs g1, Rolled newRoll g texts rs g1 ∧
        rollMany newRoll history g notations = (.ok rs, history ++ rs, g1)) := by
  have hfalse := rollMany_invalid newRoll history g notations
  have hsome : ∀ texts rs g1, notations = .arr texts → Rolled newRoll g texts rs g1 →
      rollMany newRoll history g notations = (.ok rs, history ++ rs, g1) := by
    intro texts rs g1 hn hr
    subst hn
    simp only [rollMany, Data.truthy, Data.isArray, Data.items, Bool.not_true,
      Bool.false_eq_true, if_false]
    rw [rollEach_rolled newRoll g texts rs g1 hr]
    simp
  have htrue : ∀ e, notations.isArray = true →
      (rollMany newRoll history g notations).1 = .error e → e = .evaluator := by
    intro e ha h
    cases notations <;> simp [Data.isArray] at ha
    simp only [rollMany, Data.truthy, Data.isArray, Data.items, Bool.not_true,
      Bool.false_eq_true, if_false] at h
    exact rollEach_error newRoll _ _ _ _ _ h
  refine ⟨⟨fun ha => (hfalse ha).1, ?_⟩, fun ha => (hfalse ha).2, ?_, ?_⟩
  · intro h
    cases ha : notations.isArray with
    | false => rfl
    | true =>
      rcases h with h | h
      · cases htrue _ ha h
      · cases htrue _ ha h
  · intro texts rs g1 hn hr
    exact ⟨hsome texts rs g1 hn hr, hr.length_eq⟩
  · intro htotal
    constructor
    · constructor
      · rintro ⟨e, he⟩
        cases ha : notations.isArray with
        | false => rfl
        | true =>
          cases notations <;> simp [Data.isArray] at ha
          rename_i texts
          obtain ⟨rs, g1, hr⟩ := rolled_of_total newRoll htotal texts g
          rw [hsome texts rs g1 rfl hr] at he
          cases he
      · intro ha
        rcases (hfalse ha).1 with h | h
        · exact ⟨_, h⟩
        · exact ⟨_, h⟩
    · intro texts hn
      obtain ⟨rs, g1, hr⟩ := rolled_of_total newRoll htotal texts g
      exact ⟨rs, g1, hr, hsome texts rs g1 hn hr⟩

/-- Witness of C13 on `rollMany([10, 20])` with the history `[7]` and the random source at
3, and on `rollMany("2d6")`. -/
theorem rollMany_sequence_witness :
    (Rolled demoRoll 3 [.num 10, .num 20] [13, 24] 5 ∧ (Data.str "2d6").isArray = false) ∧
    (rollMany demoRoll [7] 3 (.arr [.num 10, .num 20]) = (.ok [13, 24], [7] ++ [13, 24], 5) ∧
      [13, 24].length = [Data.num 10, Data.num 20].length) ∧
    (rollMany demoRoll [7] 3 (.str "2d6")).2 = ([7], 3) :=
  ⟨⟨.cons 3 4 5 _ _ 13 _ rfl (.cons 4 5 5 _ _ 24 _ rfl (.nil 5)), rfl⟩,
    (rollMany_sequence demoRoll [7] 3 (.arr [.num 10, .num 20])).2.2.1 [.num 10, .num 20]
      [13, 24] 5 rfl (.cons 3 4 5 _ _ 13 _ rfl (.cons 4 5 5 _ _ 24 _ rfl (.nil 5))),
    (rollMany_sequence demoRoll [7] 3 (.str "2d6")).2.1 rfl⟩

/-- An error of `import` other than one of the Roll Evaluator leaves the history as it
was, however many texts were unwrapped before. -/
theorem importData_keeps {R : Type} (ev : RollEvaluator R) (env : JsEnv) :
    ∀ (fuel : Nat) (log : List R) (data : Data) (log1 : List R) (e : RollerError),
      importData ev env fuel log data = (log1, some e) → e ≠ .evaluator → log1 = log := by
  intro fuel
  induction fuel with
  | zero =>
    intro log data log1 e h _
    simp only [importData, Prod.mk.injEq] at h
    exact h.1.symm
  | succ fuel ih =>
    intro log data log1 e h he
    rw [importData] at h
    simp only [] at h
    repeat' (split at h)
    all_goals first
      | exact ih _ _ _ _ h he
      | exact absurd (importEntries_error ev _ _ _ _ h) he
      | (simp only [Prod.mk.injEq] at h; exact h.1.symm)

/-- C14: when a call on a roll log raises one of the errors of the roll log itself
(missing or invalid notations, no data, unrecognised import format, log not a sequence,
unrecognised export format), the history after the call is the history before it. -/
theorem named_error_keeps_history {R G : Type} (ev : RollEvaluator R)
    (newRoll : Data → G → Option (R × G)) (env : JsEnv) (fuel : Nat) (call : Call)
    (history : List R) (g : G) (e : RollerError) (history1 : List R) (g1 : G)
    (h : perform ev newRoll env fuel call history g = (.error e, history1, g1))
    (hnamed : e.named = true) : history1 = history := by
  have hev : e ≠ .evaluator := by intro he; rw [he] at hnamed; cases hnamed
  cases call with
  | roll text =>
    simp only [perform, roll] at h
    cases hr : newRoll text g with
    | none =>
      rw [hr] at h
      simp only [Prod.mk.injEq, Except.error.injEq] at h
      exact absurd h.1.symm hev
    | some p =>
      rw [hr] at h
      simp at h
  | rollMany notations =>
    simp only [perform] at h
    cases hm : rollMany newRoll history g notations with
    | mk res st =>
      obtain ⟨log1, g2⟩ := st
      rw [hm] at h
      cases res with
      | ok rs => simp at h
      | error e1 =>
        simp only [Prod.mk.injEq, Except.error.injEq] at h
        obtain ⟨h1, h2, _⟩ := h
        subst h1
        subst h2
        cases ha : notations.isArray with
        | false =>
          have := (rollMany_invalid newRoll history g notations ha).2
          rw [hm] at this
          simp only [Prod.mk.injEq] at this
          exact this.1
        | true =>
          cases notations <;> simp [Data.isArray] at ha
          simp only [rollMany, Data.truthy, Data.isArray, Data.items, Bool.not_true,
            Bool.false_eq_true, if_false] at hm
          have := rollEach_error newRoll _ _ _ _ e1 (by rw [hm])
          exact absurd this hev
  | clearLog => simp [perform] at h
  | exportLog format =>
    simp only [perform] at h
    cases hx : exportLog ev env history format with
    | ok s => rw [hx] at h; simp at h
    | error e1 =>
      rw [hx] at h
      simp only [Prod.mk.injEq] at h
      exact h.2.1.symm
  | importData data =>
    simp only [perform] at h
    cases hi : importData ev env fuel history data with
    | mk log1 oe =>
      rw [hi] at h
      cases oe with
      | none => simp at h
      | some e1 =>
        simp only [Prod.mk.injEq, Except.error.injEq] at h
        obtain ⟨h1, h2, _⟩ := h
        subst h1
        subst h2
        exact importData_keeps ev env _ _ _ _ _ hi hev

/-- Witness of C14: `import` of an object whose log is a text, and `rollMany` of a text,
on the history `[7]`. -/
theorem named_error_keeps_history_witness :
    (perform demoEvaluator demoRoll demoEnv 1 (.importData (.obj [("log", .str "x")])) [7] 3 =
        (.error .logNotArray, [7], 3) ∧
      RollerError.logNotArray.named = true) ∧
    [7] = [7] :=
  ⟨⟨rfl, rfl⟩,
    named_error_keeps_history demoEvaluator demoRoll demoEnv 1
      (.importData (.obj [("log", .str "x")])) [7] 3 .logNotArray [7] 3 rfl rfl⟩

/-! ## The cached patterns across calls -/

/-- The outer loop leaves both cached patterns at position 0 when the addition pattern was
at position 0 before it. -/
theorem parseLoop_cache (text : List Char) : ∀ fuel cache acc tr c1,
    parseLoop ⟨notationRe, true⟩ text fuel cache acc = some (tr, c1) →
    cache.additionIdx = 0 → c1 = ⟨0, 0⟩ := by
  intro fuel
  induction fuel with
  | zero => intro cache acc tr c1 h; simp [parseLoop] at h
  | succ fuel ih =>
    intro cache acc tr c1 h hai
    rw [parseLoop] at h
    cases he : (RegExp.mk notationRe true).exec cache.notationIdx text with
    | mk om li1 =>
      rw [he] at h
      cases om with
      | none =>
        have := exec_none _ _ _ _ he
        subst this
        simp only [Option.some.injEq, Prod.mk.injEq] at h
        rw [← h.2, hai]
      | some m =>
        simp only at h
        obtain ⟨die, ai1, hd, hai1⟩ := dieOfMatch_total m cache.additionIdx
        rw [hd] at h
        simp only at h
        exact ih _ _ _ _ h (by rcases hai1 with h0 | h0 <;> simp [h0, hai])

/-- A call of the parser that finds both cached patterns at position 0 leaves them there. -/
theorem parseNotationTrace_cache (text : Value) (tr : List (List Value × Die))
    (c1 : PatternCache) (h : parseNotationTrace ⟨0, 0⟩ text = some (tr, c1)) : c1 = ⟨0, 0⟩ := by
  unfold parseNotationTrace at h
  by_cases ht : text.truthy = true
  · rw [if_pos ht, get_notation_g] at h
    exact parseLoop_cache _ _ _ _ _ _ h rfl
  · rw [if_neg ht] at h
    simp only [Option.some.injEq, Prod.mk.injEq] at h
    exact h.2.symm

/-- Successive calls of the parser leave both cached patterns at position 0. -/
theorem cacheAfter_zero : ∀ ss : List Value, cacheAfter ⟨0, 0⟩ ss = some ⟨0, 0⟩ := by
  intro ss
  induction ss with
  | nil => rfl
  | cons s ss ih =>
    obtain ⟨tr, c1, h⟩ := parseNotationTrace_total ⟨0, 0⟩ s
    have hc := parseNotationTrace_cache s tr c1 h
    subst hc
    rw [cacheAfter, h]
    exact ih

/-- C19: `parseNotation` is deterministic across calls. A call that finds the cached
`notation` and `addition` patterns at scan position 0 returns, and leaves both at scan
position 0; so after any sequence of earlier calls, on any values `ss`, the patterns are at
position 0, and `parseNotation(t)` run from the state they left returns the same sequence
of dice as `parseNotation(t)` run on fresh patterns. -/
theorem parseNotation_deterministic (s t : Value) (ss : List Value) :
    (∃ tr, parseNotationTrace ⟨0, 0⟩ s = some (tr, ⟨0, 0⟩)) ∧
    cacheAfter ⟨0, 0⟩ ss = some ⟨0, 0⟩ ∧
    ((cacheAfter ⟨0, 0⟩ ss).bind (fun c =>
      (parseNotationTrace c t).map (fun r => r.1.map Prod.snd))) = parseNotation t ∧
    ((parseNotationTrace ⟨0, 0⟩ s).bind (fun r =>
      (parseNotationTrace r.2 t).map (fun q => q.1.map Prod.snd))) = parseNotation t := by
  obtain ⟨tr, c1, h⟩ := parseNotationTrace_total ⟨0, 0⟩ s
  have hc := parseNotationTrace_cache s tr c1 h
  subst hc
  refine ⟨⟨tr, h⟩, cacheAfter_zero ss, ?_, ?_⟩
  · rw [cacheAfter_zero]; rfl
  · rw [h]; rfl

/-! ## The explode token and the compare operator -/

/-- What `search` returns is the first result of the matcher at the reported position. -/
theorem search_run (re : Re) : ∀ rest pos i y, re.search pos rest = some (i, y) →
    ∃ suf y0, re.run ⟨i, suf, noCaps⟩ some = some y0 ∧ ∀ j, j ≠ 0 → y.caps j = y0.caps j := by
  intro rest
  induction rest with
  | nil =>
    intro pos i y h
    rw [Re.search] at h
    cases hr : re.run ⟨pos, [], noCaps⟩ some with
    | none => rw [hr] at h; cases h
    | some y1 =>
      rw [hr] at h
      simp only [Option.map_some', Option.some.injEq, Prod.mk.injEq] at h
      obtain ⟨hi, hy⟩ := h
      subst hi
      subst hy
      exact ⟨[], y1, hr, fun j hj => by simp [setCap, hj]⟩
  | cons c t ih =>
    intro pos i y h
    rw [Re.search] at h
    cases hr : re.run ⟨pos, c :: t, noCaps⟩ some with
    | none =>
      rw [hr] at h
      exact ih _ _ _ h
    | some y1 =>
      rw [hr] at h
      simp only [Option.some.injEq, Prod.mk.injEq] at h
      obtain ⟨hi, hy⟩ := h
      subst hi
      subst hy
      exact ⟨c :: t, y1, hr, fun j hj => by simp [setCap, hj]⟩

/-- The groups of a successful `exec` are those of the first result of the matcher. -/
theorem exec_run (re : Re) (li : Nat) (text : List Char) (m : Match) (li1 : Nat)
    (h : (RegExp.mk re true).exec li text = (some m, li1)) :
    ∃ i suf y0, re.run ⟨i, suf, noCaps⟩ some = some y0 ∧ ∀ j, j ≠ 0 → m.caps j = y0.caps j := by
  simp only [RegExp.exec, if_true] at h
  split at h
  · cases h
  · split at h
    · cases h
    · rename_i i y hs
      simp only [Prod.mk.injEq, Option.some.injEq] at h
      obtain ⟨hm, _⟩ := h
      subst hm
      obtain ⟨suf, y0, h1, h2⟩ := search_run re _ _ _ _ hs
      exact ⟨i, suf, y0, h1, h2⟩

/-- A quantifier without lower bound succeeds when what follows it succeeds on no
iteration. -/
theorem repeat_zero_some (m : MState → Cont → Option MState) (gs : List Nat) (fuel : Nat)
    (hi : Option Nat) (x : MState) (k : Cont) (h : ∃ z, k x = some z) :
    ∃ z, repeatMatcher m gs (fuel + 1) 0 hi x k = some z := by
  obtain ⟨z, hz⟩ := h
  rw [repeatMatcher]
  by_cases h0 : hi = some 0
  · rw [if_pos h0]; exact ⟨z, hz⟩
  · rw [if_neg h0]
    simp only [ne_eq, not_true_eq_false, if_false]
    split
    · exact ⟨_, rfl⟩
    · exact ⟨z, hz⟩

/-- A pattern quantified without lower bound succeeds when what follows it succeeds. -/
theorem quant_zero_some (hi : Option Nat) (r : Re) (x : MState) (k : Cont)
    (h : ∃ z, k x = some z) : ∃ z, (Re.quant 0 hi r).run x k = some z := by
  rw [run_quant]
  exact repeat_zero_some _ _ _ _ _ _ h

/-- The optional compare point and the additions never fail. -/
theorem tail_rest_some (y : MState) :
    ∃ z, (Re.seq (.quant 0 (some 1) compRe) (.group 8 (.quant 0 none (additionIn 9 10)))).run
      y some = some z := by
  rw [run_seq]
  apply quant_zero_some
  rw [run_group]
  apply quant_zero_some
  exact ⟨_, rfl⟩

/-- One iteration of a quantifier whose lower bound is not met yet. -/
theorem repeat_succ_step (m : MState → Cont → Option MState) (gs : List Nat) (fuel lo h : Nat)
    (x : MState) (k : Cont) :
    repeatMatcher m gs (fuel + 1) (lo + 1) (some (h + 1)) x k =
      m { x with caps := clearCaps gs x.caps }
        (fun y => repeatMatcher m gs fuel lo (some h) y k) := by
  rw [repeatMatcher]
  simp

/-- The explode group matches at an exclamation mark, whatever follows. -/
theorem explode_bang_some (p : Nat) (t : List Char) (caps : Nat → Option (List Char)) :
    ∃ z, (Re.group 5 explodeRe).run ⟨p, '!' :: t, caps⟩
      (fun y => if y.pos = p then none else
        (Re.seq (.quant 0 (some 1) compRe) (.group 8 (.quant 0 none (additionIn 9 10)))).run
          y some) = some z := by
  rw [run_group, explodeRe, run_seq, run_quant]
  have hf : 1 + ('!' :: t).length + 1 = (t.length + 1 + 1) + 1 := by simp; omega
  rw [hf, repeat_succ_step, run_char_cons, if_pos rfl]
  apply repeat_zero_some
  apply quant_zero_some
  simp only [Nat.succ_ne_self, if_false]
  exact tail_rest_some _

/-- At an exclamation mark the tail of the notation pattern takes the explode group. -/
theorem tail_bang_first (x z : MState) (t : List Char) (hx : x.rest = '!' :: t)
    (h : tailRe.run x some = some z) : ∃ tk, z.caps 5 = some tk := by
  obtain ⟨p, rest, caps⟩ := x
  simp only at hx
  subst hx
  obtain ⟨z1, hz1⟩ := explode_bang_some p t (clearCaps (Re.group 5 explodeRe).groups caps)
  have htaken := opt_run_taken (Re.group 5 explodeRe) ⟨p, '!' :: t, caps⟩
    (fun y => (Re.seq (.quant 0 (some 1) compRe)
      (.group 8 (.quant 0 none (additionIn 9 10)))).run y some) z1 (by simp) hz1
  have hrun : tailRe.run ⟨p, '!' :: t, caps⟩ some = some z1 := by
    rw [tailRe, run_seq]; exact htaken
  rw [hrun] at h
  cases h
  obtain ⟨y, hm, hk⟩ := run_sound _ _ _ _ hz1
  by_cases hp : y.pos = p
  · rw [if_pos hp] at hk; cases hk
  · rw [if_neg hp] at hk
    obtain ⟨y2, hm2, hk2⟩ := run_sound _ _ _ _ hk
    cases hk2
    obtain ⟨y1, _, e⟩ := Matches.group_inv hm
    have hf := Matches.frame hm2 5 (by decide)
    rw [hf, e]
    exact ⟨List.take (y1.pos - p) ('!' :: t), by simp [setCap]⟩

/-- Away from an exclamation mark, a match of the tail of the notation pattern without
the explode group has no compare operator, or one that does not begin with an exclamation
mark. -/
theorem tail_no_bang (x z : MState) (hx : ∀ t, x.rest ≠ '!' :: t) (h6 : x.caps 6 = none)
    (h : Matches tailRe x z) (h5 : z.caps 5 = none) :
    z.caps 6 = none ∨ ∃ c o, z.caps 6 = some (c :: o) ∧ c ≠ '!' := by
  obtain ⟨y1, hA, hB⟩ := Matches.seq_inv h
  obtain ⟨y2, hC, hD⟩ := Matches.seq_inv hB
  have f8 : z.caps 6 = y2.caps 6 := Matches.frame hD 6 (by decide)
  have e1 : y1 = x := by
    rcases Matches.opt_inv hA with e | hE
    · exact e
    · exfalso
      obtain ⟨y0, _, e⟩ := Matches.group_inv hE
      have f1 : z.caps 5 = y1.caps 5 := by
        rw [Matches.frame hD 5 (by decide), Matches.frame hC 5 (by decide)]
      rw [f1, e] at h5
      simp [setCap] at h5
  subst e1
  rcases Matches.opt_inv hC with e | hE
  · left; rw [f8, e, h6]
  · right
    obtain ⟨o, v, c6, ho, _, _, _, hr, _⟩ := comp_inv hE
    obtain ⟨c, o1, rfl⟩ := List.exists_cons_of_ne_nil ho
    refine ⟨c, o1, by rw [f8, c6], ?_⟩
    intro hc
    subst hc
    simp only at hr
    exact hx _ (by rw [hr]; rfl)

/-- The first result of the notation pattern: without the explode group there is no
compare operator, or one that does not begin with an exclamation mark. -/
theorem notation_run_comp (i : Nat) (suf : List Char) (z : MState)
    (h : notationRe.run ⟨i, suf, noCaps⟩ some = some z) (h5 : z.caps 5 = none) :
    z.caps 6 = none ∨ ∃ c o, z.caps 6 = some (c :: o) ∧ c ≠ '!' := by
  rw [notationRe, run_seq] at h
  obtain ⟨y1, m1, h⟩ := run_sound _ _ _ _ h
  rw [run_seq] at h
  obtain ⟨y2, m2, h⟩ := run_sound _ _ _ _ h
  rw [run_seq] at h
  obtain ⟨y3, m3, h⟩ := run_sound _ _ _ _ h
  rw [run_seq] at h
  obtain ⟨y4, m4, h⟩ := run_sound _ _ _ _ h
  have c5 : y4.caps 5 = none ∧ y4.caps 6 = none := by
    constructor
    · rw [Matches.frame m4 5 (by decide), Matches.frame m3 5 (by decide),
        Matches.frame m2 5 (by decide), Matches.frame m1 5 (by decide)]; rfl
    · rw [Matches.frame m4 6 (by decide), Matches.frame m3 6 (by decide),
        Matches.frame m2 6 (by decide), Matches.frame m1 6 (by decide)]; rfl
  obtain ⟨z1, mt, hz⟩ := run_sound _ _ _ _ h
  cases hz
  by_cases hb : ∃ t, y4.rest = '!' :: t
  · obtain ⟨t, ht⟩ := hb
    obtain ⟨tk, htk⟩ := tail_bang_first y4 _ t ht h
    rw [htk] at h5; cases h5
  · exact tail_no_bang y4 _ (fun t ht => hb ⟨t, ht⟩) c5.2 mt h5

/-- A die built from a match of the notation pattern that does not explode has no compare
point, or one whose operator does not begin with an exclamation mark. -/
theorem exec_die_no_bang (li : Nat) (text : List Char) (m : Match) (li1 ai ai1 : Nat)
    (die : Die) (he : (RegExp.mk notationRe true).exec li text = (some m, li1))
    (hd : dieOfMatch m ai = some (die, ai1)) (hex : die.explode = false) :
    die.comparePoint = none ∨
      ∃ c o v, die.comparePoint = some ⟨.str (String.mk (c :: o)), v⟩ ∧ c ≠ '!' := by
  obtain ⟨i, suf, y0, hrun, hc⟩ := exec_run _ _ _ _ _ he
  have hcaps := (exec_notation_some _ _ _ _ he).1
  obtain ⟨_, _, _, _, h5, _, _, hcp⟩ := dieOfMatch_fields hd
  rw [hex] at h5
  have c5 : m.caps 5 = none := by
    rcases hcaps.explode with h | h | h | h | h
    · exact h
    all_goals
      rw [get_of_some h, truthy_mk (by simp)] at h5
      cases h5
  rw [hex] at hcp
  rcases notation_run_comp i suf y0 hrun (by rw [← hc 5 (by decide)]; exact c5) with h6 | h6
  · left
    rw [← hc 6 (by decide)] at h6
    rw [hcp, comparePointOf, get_of_none h6]
    rfl
  · right
    obtain ⟨c, o, h6, hne⟩ := h6
    rw [← hc 6 (by decide)] at h6
    refine ⟨c, o, parseInt (m.get 7), ?_, hne⟩
    rw [hcp, comparePointOf, get_of_some h6, if_pos (truthy_mk (by simp))]

/-- No die returned by the parser is a die that does not explode with a compare operator
that begins with an exclamation mark. -/
theorem parseNotation_no_bang (text : Value) (dice : List Die)
    (h : parseNotation text = some dice) (die : Die) (hdie : die ∈ dice)
    (hex : die.explode = false) :
    die.comparePoint = none ∨
      ∃ c o v, die.comparePoint = some ⟨.str (String.mk (c :: o)), v⟩ ∧ c ≠ '!' := by
  unfold parseNotation at h
  cases ht : parseNotationTrace ⟨0, 0⟩ text with
  | none => rw [ht] at h; cases h
  | some r =>
    obtain ⟨tr, c1⟩ := r
    rw [ht] at h
    simp only [Option.map_some', Option.some.injEq] at h
    rw [← h] at hdie
    obtain ⟨p, hp, rfl⟩ := List.mem_map.mp hdie
    have hall : ∀ q ∈ tr, q.2.explode = false → (q.2.comparePoint = none ∨
        ∃ c o v, q.2.comparePoint = some ⟨.str (String.mk (c :: o)), v⟩ ∧ c ≠ '!') := by
      unfold parseNotationTrace at ht
      by_cases htr : text.truthy = true
      · rw [if_pos htr, get_notation_g] at ht
        simp only at ht
        refine parseLoop_forall _ _ _ ?_ _ _ _ _ _ ht (by simp)
        intro li m li1 ai die ai1 he hd
        exact exec_die_no_bang _ _ _ _ _ _ _ he hd
      · rw [if_neg htr] at ht
        simp only [Option.some.injEq, Prod.mk.injEq] at ht
        rw [← ht.1]; simp
    exact hall p hp hex

/-- One iteration of an unbounded quantifier whose lower bound is not met yet. -/
theorem repeat_succ_unbounded (m : MState → Cont → Option MState) (gs : List Nat)
    (fuel lo : Nat) (x : MState) (k : Cont) :
    repeatMatcher m gs (fuel + 1) (lo + 1) none x k =
      m { x with caps := clearCaps gs x.caps }
        (fun y => repeatMatcher m gs fuel lo none y k) := by
  rw [repeatMatcher]
  simp

/-- The greedy run of `[0-9]+` over digits that end the input. -/
theorem digitsPlus_run (v : Char) (vt : List Char)
    (hv : ∀ d ∈ v :: vt, inRanges [('0', '9')] d = true)
    (p : Nat) (caps : Nat → Option (List Char)) (k : Cont) (z : MState)
    (hk : k ⟨p + (vt.length + 1), [], caps⟩ = some z) :
    (Re.quant 1 none digitCls).run ⟨p, v :: vt, caps⟩ k = some z := by
  rw [run_quant]
  have hf : 1 + (v :: vt).length + 1 = (vt.length + 1 + 1) + 1 := by simp; omega
  rw [hf, repeat_succ_unbounded]
  simp only [Re.groups, digitCls, clearCaps_nil]
  rw [run_cls_cons, if_pos (hv v (by simp))]
  have h := star_digits_run vt (fun d hd => hv d (by simp [hd])) [] (by simp)
    (vt.length + 1 + 1) (p + 1) caps k z (by omega) (by rw [← hk]; congr 2; omega)
  rw [List.append_nil] at h
  exact h

/-- A decimal digit is not an equals sign. -/
theorem digit_ne_eq {v : Char} (h : inRanges [('0', '9')] v = true) : v ≠ '=' := by
  intro e
  subst e
  revert h
  decide

/-- The number comparison on an equals sign followed by digits that end the input. -/
theorem comp_eq_run (v : Char) (vt : List Char)
    (hv : ∀ d ∈ v :: vt, inRanges [('0', '9')] d = true)
    (p : Nat) (caps : Nat → Option (List Char)) (k : Cont) (z : MState)
    (hk : k ⟨p + 1 + (vt.length + 1), [], setCap (setCap caps 6 ['=']) 7 (v :: vt)⟩ = some z) :
    compRe.run ⟨p, '=' :: v :: vt, caps⟩ k = some z := by
  have hne : v ≠ '=' := digit_ne_eq (hv v (by simp))
  rw [compRe, run_seq, run_group, compOpRe]
  apply run_alt_left
  rw [run_seq, opt_run_skip _ _ _ (by intro k1; rfl), run_quant]
  have hf : 1 + ('=' :: v :: vt).length + 1 = (vt.length + 1 + 1 + 1) + 1 := by simp; omega
  rw [hf, repeat_succ_step, run_char_cons, if_pos rfl]
  simp only [Re.groups, clearCaps_nil]
  rw [repeatMatcher]
  simp only [Option.some.injEq, OfNat.ofNat_ne_zero, if_false, ne_eq, not_true_eq_false,
    run_char_cons, if_neg hne, clearCaps_nil]
  rw [run_group]
  apply digitsPlus_run v vt hv
  simp only [Nat.add_sub_cancel_left, List.take, List.take_length]
  exact hk

/-- The tail of the notation pattern on `!=` followed by digits that end the input: the
exclamation mark is the explode token, the equals sign the compare operator. -/
theorem tail_bang_eq_run (v : Char) (vt : List Char)
    (hv : ∀ d ∈ v :: vt, inRanges [('0', '9')] d = true)
    (p : Nat) (caps : Nat → Option (List Char)) :
    ∃ y, tailRe.run ⟨p, '!' :: '=' :: v :: vt, caps⟩ some = some y ∧
      y.pos = p + 1 + 1 + (vt.length + 1) ∧ y.caps 5 = some ['!'] ∧ y.caps 6 = some ['='] ∧
      y.caps 7 = some (v :: vt) := by
  refine ⟨⟨p + 1 + 1 + (vt.length + 1), [],
    setCap (setCap (setCap (clearCaps [6, 7] (setCap (clearCaps [5] caps) 5 ['!'])) 6 ['=']) 7
      (v :: vt)) 8 []⟩, ?_, rfl, by simp [setCap, clearCaps], by simp [setCap],
    by simp [setCap]⟩
  rw [tailRe, run_seq]
  apply opt_run_taken _ _ _ _ (by simp)
  rw [run_group, explodeRe, run_seq, run_quant]
  have hf : 1 + ('!' :: '=' :: v :: vt).length + 1 = (vt.length + 1 + 1 + 1 + 1) + 1 := by
    simp; omega
  rw [hf, repeat_succ_step, run_char_cons, if_pos rfl]
  simp only [Re.groups, clearCaps_nil]
  rw [repeatMatcher]
  simp only [Option.some.injEq, OfNat.ofNat_ne_zero, if_false, ne_eq, not_true_eq_false,
    run_char_cons, if_neg (show ¬ ('=' = '!') by decide), clearCaps_nil]
  rw [opt_run_skip _ _ _ (by intro k1; rfl)]
  simp only [Nat.succ_ne_self, if_false, Nat.add_sub_cancel_left, List.take]
  rw [run_seq]
  apply opt_run_taken _ _ _ _ (by simp)
  apply comp_eq_run v vt hv
  simp only [Re.groups, compRe, compOpRe, digitCls, List.append_nil, List.nil_append,
    List.cons_append]
  rw [if_neg (by omega), run_group, star_run_stop _ _ _ (by intro k1; rfl)]
  simp

/-- The sides group on a percentile or fudge marker followed by an exclamation mark. -/
theorem sides_marker_run (sides : List Char)
    (hs : sides = ['%'] ∨ sides = ['F'] ∨ sides = ['F', '.', '1'] ∨ sides = ['F', '.', '2'])
    (t : List Char) (p : Nat) (caps : Nat → Option (List Char)) :
    ∃ caps1, ∀ (k : Cont) (z : MState), k ⟨p + sides.length, '!' :: t, caps1⟩ = some z →
      (Re.group 3 sidesRe).run ⟨p, sides ++ '!' :: t, caps⟩ k = some z := by
  rcases hs with rfl | rfl | rfl | rfl
  · refine ⟨setCap caps 3 ['%'], ?_⟩
    intro k z hk
    simp only [List.length_cons, List.length_nil, Nat.zero_add, Nat.reduceAdd] at hk
    simp [sidesRe, numeralRe, nzCls, digitCls, fudgeRe, Re.run, repeatMatcher, MState.next,
      inRanges, Re.groups, clearCaps_nil, hk]
  · refine ⟨setCap caps 3 ['F'], ?_⟩
    intro k z hk
    simp only [List.length_cons, List.length_nil, Nat.zero_add, Nat.reduceAdd] at hk
    simp [sidesRe, numeralRe, nzCls, digitCls, fudgeRe, Re.run, repeatMatcher, MState.next,
      inRanges, Re.groups, clearCaps_nil, hk]
  · refine ⟨setCap (setCap (clearCaps [4] caps) 4 ['1']) 3 ['F', '.', '1'], ?_⟩
    intro k z hk
    simp only [List.length_cons, List.length_nil, Nat.zero_add, Nat.reduceAdd] at hk
    simp [sidesRe, numeralRe, nzCls, digitCls, fudgeRe, Re.run, repeatMatcher, MState.next,
      inRanges, Re.groups, clearCaps_nil, Nat.add_assoc, hk]
  · refine ⟨setCap (setCap (clearCaps [4] caps) 4 ['2']) 3 ['F', '.', '2'], ?_⟩
    intro k z hk
    simp only [List.length_cons, List.length_nil, Nat.zero_add, Nat.reduceAdd] at hk
    simp [sidesRe, numeralRe, nzCls, digitCls, fudgeRe, Re.run, repeatMatcher, MState.next,
      inRanges, Re.groups, clearCaps_nil, Nat.add_assoc, hk]

/-- The notation pattern on a dice core followed by `!=` and digits: the match covers the
whole text, the explode group holds the exclamation mark and the compare operator is the
equals sign. -/
theorem core_bang_eq_run {q : List Char} (hq : IsNumeral q) (sides : List Char)
    (hs : IsNumeral sides ∨ sides = ['%'] ∨ sides = ['F'] ∨ sides = ['F', '.', '1'] ∨
      sides = ['F', '.', '2'])
    (v : Char) (vt : List Char) (hv : ∀ d ∈ v :: vt, inRanges [('0', '9')] d = true) :
    ∃ y, notationRe.run ⟨0, q ++ 'd' :: (sides ++ '!' :: '=' :: v :: vt), noCaps⟩ some = some y ∧
      y.pos = (q ++ 'd' :: (sides ++ '!' :: '=' :: v :: vt)).length ∧
      y.caps 5 = some ['!'] ∧ y.caps 6 = some ['='] ∧ y.caps 7 = some (v :: vt) := by
  rcases hs with hs | hs
  · obtain ⟨y, hy, hpos, h5, h6, h7⟩ := tail_bang_eq_run v vt hv (0 + q.length + 1 + sides.length)
      (setCap (setCap (clearCaps [2] noCaps) 2 q) 3 sides)
    refine ⟨y, head_run_plain hq hs _ (by intro c cs h; cases h; decide) 0 noCaps some y hy,
      ?_, h5, h6, h7⟩
    rw [hpos]; simp; omega
  · obtain ⟨caps1, hc⟩ := sides_marker_run sides hs ('=' :: v :: vt) (0 + q.length + 1)
      (setCap (clearCaps [2] noCaps) 2 q)
    obtain ⟨y, hy, hpos, h5, h6, h7⟩ := tail_bang_eq_run v vt hv (0 + q.length + 1 + sides.length)
      caps1
    refine ⟨y, head_run_qty hq _ 0 noCaps some y ?_, ?_, h5, h6, h7⟩
    · rw [run_seq]
      exact hc _ _ hy
    · rw [hpos]; simp; omega

/-- C20 (amended): `parseNotation` returns, on every input, and no term it returns is a
non-exploding term whose compare operator begins with `!`: a term with `explode` false has
the compare point `false`, or one whose operator begins with another character. In
particular, for a dice core `NdS` (`S` a number, `%`, `F`, `F.1` or `F.2`) and a natural
number `V` written in decimal, the text `NdS!=V` parses as one term with `explode` true,
`compound` and `penetrate` false, and the compare point with operator `=` and value the
double nearest to `V`, which is `V` itself when `V` is below `2 ^ 53`. -/
theorem parseNotation_explode_bang (text : Value) (n v : Nat) (sides : String) :
    (∃ dice, parseNotation text = some dice ∧ ∀ die ∈ dice, die.explode = false →
      (die.comparePoint = none ∨
        ∃ c o value, die.comparePoint = some ⟨.str (String.mk (c :: o)), value⟩ ∧ c ≠ '!')) ∧
    (1 ≤ n →
      ((∃ s, 1 ≤ s ∧ sides = Nat.repr s) ∨ sides = "%" ∨ sides = "F" ∨ sides = "F.1" ∨
        sides = "F.2") →
      ∃ die, parseNotation (.str (Nat.repr n ++ "d" ++ sides ++ "!=" ++ Nat.repr v)) =
          some [die] ∧
        die.explode = true ∧ die.compound = false ∧ die.penetrate = false ∧
        die.comparePoint = some ⟨.str "=", toDouble (v : ℚ)⟩ ∧
        (v < 2 ^ 53 → die.comparePoint = some ⟨.str "=", .num v⟩)) := by
  constructor
  · obtain ⟨tr, c1, h⟩ := parseNotationTrace_total ⟨0, 0⟩ text
    have hp : parseNotation text = some (tr.map Prod.snd) := by
      unfold parseNotation; rw [h]; rfl
    exact ⟨_, hp, fun die hd hex => parseNotation_no_bang text _ hp die hd hex⟩
  · intro hn hs
    have hq := repr_numeral hn
    have hs2 : IsNumeral sides.toList ∨ sides.toList = ['%'] ∨ sides.toList = ['F'] ∨
        sides.toList = ['F', '.', '1'] ∨ sides.toList = ['F', '.', '2'] := by
      rcases hs with ⟨s, h1, rfl⟩ | rfl | rfl | rfl | rfl
      · exact Or.inl (repr_numeral h1)
      · exact Or.inr (Or.inl rfl)
      · exact Or.inr (Or.inr (Or.inl rfl))
      · exact Or.inr (Or.inr (Or.inr (Or.inl rfl)))
      · exact Or.inr (Or.inr (Or.inr (Or.inr rfl)))
    obtain ⟨c, cs, hcs, hc, hcs2⟩ := repr_digits v
    have hv : ∀ d ∈ c :: cs, inRanges [('0', '9')] d = true := by
      intro d hd
      rcases List.mem_cons.mp hd with rfl | hd
      · exact hc
      · exact hcs2 d hd
    have htext : (Nat.repr n ++ "d" ++ sides ++ "!=" ++ Nat.repr v).toList =
        (Nat.repr n).toList ++ 'd' :: (sides.toList ++ '!' :: '=' :: c :: cs) := by
      rw [← hcs]; simp
    obtain ⟨y, hrun, hpos, h5, h6, h7⟩ := core_bang_eq_run hq sides.toList hs2 c cs hv
    rw [← htext] at hrun hpos
    obtain ⟨die, ai, hdie, _⟩ := dieOfMatch_total
      ⟨0, y.pos, setCap y.caps 0
        ((Nat.repr n ++ "d" ++ sides ++ "!=" ++ Nat.repr v).toList.take (y.pos - 0)),
        notationRe.groups.length + 1⟩ 0
    refine ⟨die, parseNotation_single _ y die ai hrun hpos hdie, ?_⟩
    obtain ⟨_, _, _, _, hex, hpen, hcomp, hcp⟩ := dieOfMatch_fields hdie
    have hcap : ∀ j t, j ≠ 0 → y.caps j = t →
        (Match.mk 0 y.pos (setCap y.caps 0
          ((Nat.repr n ++ "d" ++ sides ++ "!=" ++ Nat.repr v).toList.take (y.pos - 0)))
          (notationRe.groups.length + 1)).caps j = t := by
      intro j t hj h; simp [setCap, hj, h]
    have g5 := get_of_some (hcap 5 _ (by decide) h5)
    have g6 := get_of_some (hcap 6 _ (by decide) h6)
    have g7 := get_of_some (hcap 7 _ (by decide) h7)
    have hpi : parseInt (.str (String.mk (c :: cs))) = toDouble (v : ℚ) := by
      rw [parseInt_digits hc, ← hcs, parseDigits_repr]
    have hcp2 : die.comparePoint = some ⟨.str "=", toDouble (v : ℚ)⟩ := by
      rw [hcp, hex, comparePointOf, g5, g6, g7, hpi]
      rw [if_pos (by decide)]
    rw [hex, hpen, hcomp, g5]
    refine ⟨by decide, by decide, by decide, hcp2, ?_⟩
    intro hb
    rw [hcp2, toDouble_nat v hb]

set_option maxRecDepth 100000 in
set_option exponentiation.threshold 2000 in
/-- Witness of C20 on the texts `3d8<=2+1d6!=1` and `2d6!=3`. -/
theorem parseNotation_explode_bang_witness :
    (∃ dice, parseNotation (.str "3d8<=2+1d6!=1") = some dice ∧
      ∀ die ∈ dice, die.explode = false →
        (die.comparePoint = none ∨
          ∃ c o value, die.comparePoint = some ⟨.str (String.mk (c :: o)), value⟩ ∧ c ≠ '!')) ∧
    (1 ≤ 2 ∧ ((∃ s, 1 ≤ s ∧ "6" = Nat.repr s) ∨ "6" = "%" ∨ "6" = "F" ∨ "6" = "F.1" ∨
        "6" = "F.2") ∧ 3 < 2 ^ 53) ∧
    (∃ die, parseNotation (.str (Nat.repr 2 ++ "d" ++ "6" ++ "!=" ++ Nat.repr 3)) = some [die] ∧
      die.explode = true ∧ die.compound = false ∧ die.penetrate = false ∧
      die.comparePoint = some ⟨.str "=", toDouble ((3 : Nat) : ℚ)⟩ ∧
      (3 < 2 ^ 53 → die.comparePoint = some ⟨.str "=", .num (3 : Nat)⟩)) ∧
    parseNotation (.str "2d6!=3") = some [demoBangDie] :=
  ⟨(parseNotation_explode_bang (.str "3d8<=2+1d6!=1") 2 3 "6").1,
    ⟨by decide, Or.inl ⟨6, by decide, by decide⟩, by decide⟩,
    (parseNotation_explode_bang (.str "3d8<=2+1d6!=1") 2 3 "6").2 (by decide)
      (Or.inl ⟨6, by decide, by decide⟩),
    by decide!⟩

set_option maxRecDepth 100000 in
set_option exponentiation.threshold 2000 in
/-- C20 at the input `2d6!=-3`, where `V` is the integer -3: the term is exploding, and its
compare point is the default one, with operator `=` and the sides 6 as value, not the
value -3; the text `=-3` is left unread. -/
theorem parseNotation_bang_negative :
    parseNotation (.str "2d6!=-3") =
      some [{ plainDie '+' 2 6 with
        explode := true, comparePoint := some ⟨.str "=", .num 6⟩ }] ∧
    Value.num 6 ≠ Value.num (-3) := by
  decide!

end DiceRoller
